import Mathlib

/-!
# Verification of the multinet core data structures

Shallow embedding of `src/multiplenetwork/include/datastructures.h` (the
`mlnet` namespace): the rank-augmented skip structure `ObjectStore` with its
`Entry` records, the `AttributeStore`, and the parts of `MLNetwork` needed by
the claims.

Embedding conventions for `ObjectStore`:

* The heap of `Entry` nodes linked by `forward` pointers is represented by the
  list `entries`, kept in level-0 chain order.  Position `0` is the sentinel
  `header`; position `p ≥ 1` is the entry `entries[p-1]`.  The C++ pointer
  `x->forward[i]` always designates the next node in the chain whose tower
  height is at least `i` (or `NULL`); in the embedding this pointer is
  computed by `fwdPos` from the heights, and the C++ pointer assignments in
  `insert`/`erase` correspond to inserting into / removing from `entries`.
* `obj_ptr` values (the C++ `T`, a shared pointer) are modelled as `Nat`,
  with `0` playing the role of `NULL`.
* The C++ `while` loops walking along pointers are modelled by
  structurally-recursive functions with a fuel argument; fuel
  `entries.length + 1` always suffices because every step strictly advances
  the position, which is bounded by `entries.length`.
* `random_utils::random_level(MAX_LEVEL,P)` (file random.h, not part of the
  sources under verification) returns a tower height in `[0, MAX_LEVEL]`;
  the height is injected into `insert` as the explicit argument `lvl`, and
  operation sequences quantify over all such height choices.
* The C++ `int` / `long` fields (`link_length`, `num_entries`) are modelled
  as `Int`; sizes stay far below any overflow bound.
-/

namespace mlnet

/-- Promotion cap of the skip structure (datastructures.h line 178). -/
def MAX_LEVEL : Nat := 6

/-- The exception thrown by `ObjectStore::get_at_index` on a rank outside
`[0, size)` (datastructures.h lines 313-314). -/
structure ElementNotFoundException where
  message : String
deriving Repr, DecidableEq

/-- One node of the skip structure (datastructures.h lines 180-195).
`height` is the `level` constructor argument: `forward` and `link_length`
have `height + 1` slots.  The `forward` array is not stored: the embedding
derives it from the chain order and the heights (see `ObjectStore.fwdPos`). -/
structure Entry where
  value : Int
  obj : Nat
  height : Nat
  link_length : List Int
deriving Repr, DecidableEq

instance : Inhabited Entry := ⟨⟨0, 0, 0, []⟩⟩

/-- The rank-augmented ordered store (datastructures.h lines 197-234).
`headerLinks` is the sentinel header's `link_length` array (the header is
built with height `MAX_LEVEL`, value `0` and a `NULL` object). -/
structure ObjectStore where
  headerLinks : List Int
  entries : List Entry
  level : Nat
  num_entries : Int
deriving Repr, DecidableEq

namespace ObjectStore

/-- `ObjectStore()` constructor (lines 203-206): header with `MAX_LEVEL + 1`
zero-initialised links, `level = 0`, `num_entries = 0`. -/
def emptyStore : ObjectStore := ⟨List.replicate (MAX_LEVEL + 1) 0, [], 0, 0⟩

/-- The entry at chain position `p ≥ 1` (position 0 is the header). -/
def entryAt (s : ObjectStore) (p : Nat) : Option Entry := s.entries[p - 1]?

/-- Tower height of the node at position `p`; the header has height
`MAX_LEVEL`. -/
def heightAt (s : ObjectStore) (p : Nat) : Nat :=
  if p = 0 then MAX_LEVEL else ((entryAt s p).map Entry.height).getD 0

/-- `value` of the node at position `p` (the header holds value 0,
line 204; it is never compared by any operation). -/
def valueAt (s : ObjectStore) (p : Nat) : Int :=
  if p = 0 then 0 else ((entryAt s p).map Entry.value).getD 0

/-- `obj_ptr` of the node at position `p` (the header holds `NULL`). -/
def objAt (s : ObjectStore) (p : Nat) : Nat :=
  if p = 0 then 0 else ((entryAt s p).map Entry.obj).getD 0

/-- `link_length[i]` of the node at position `p`. -/
def llAt (s : ObjectStore) (p : Nat) (i : Nat) : Int :=
  if p = 0 then s.headerLinks.getD i 0
  else ((entryAt s p).map (fun e => e.link_length.getD i 0)).getD 0

/-- Fuel-driven search for the first position `q₀ ≤ q ≤ entries.length`
whose tower reaches level `i`. -/
def fwdFromF (s : ObjectStore) (i : Nat) : Nat → Nat → Option Nat
  | 0, _ => none
  | fuel + 1, q =>
    if q ≤ s.entries.length then
      (if i ≤ heightAt s q then some q else fwdFromF s i fuel (q + 1))
    else none

/-- The pointer `x->forward[i]` of the node at position `p`: the next chain
position with tower height `≥ i`, `none` standing for `NULL`. -/
def fwdPos (s : ObjectStore) (i : Nat) (p : Nat) : Option Nat :=
  fwdFromF s i (s.entries.length + 1) (p + 1)

/-- One level of the search loop
`while (x->forward[i] != NULL && x->forward[i]->value < v) x = x->forward[i];`
(lines 288-291, 300-303, 349-353, 399-401). -/
def walkLevelF (s : ObjectStore) (v : Int) (i : Nat) : Nat → Nat → Nat
  | 0, p => p
  | fuel + 1, p =>
    match fwdPos s i p with
    | none => p
    | some q => if valueAt s q < v then walkLevelF s v i fuel q else p

/-- `walkLevelF` with the always-sufficient fuel. -/
def walkLevel (s : ObjectStore) (v : Int) (i : Nat) (p : Nat) : Nat :=
  walkLevelF s v i (s.entries.length + 1) p

/-- The level loop of `contains`/`get` (lines 288-292, 300-304): walk level
`i` down to level 0, keeping only the final position. -/
def searchPos (s : ObjectStore) (v : Int) : Nat → Nat → Nat
  | 0, p => walkLevel s v 0 p
  | i + 1, p => searchPos s v i (walkLevel s v (i + 1) p)

/-- Position reached by the full search descent from `(level, header)`. -/
def findPos (s : ObjectStore) (v : Int) : Nat := searchPos s v s.level 0

/-- `ObjectStore::size` (lines 280-283). -/
def size (s : ObjectStore) : Int := s.num_entries

/-- `ObjectStore::contains` (lines 285-295). -/
def contains (s : ObjectStore) (v : Int) : Bool :=
  match fwdPos s 0 (findPos s v) with
  | some q => valueAt s q == v
  | none => false

/-- `ObjectStore::get` (lines 297-309); returns `0` (= `NULL`) when the key
is absent. -/
def get (s : ObjectStore) (v : Int) : Nat :=
  match fwdPos s 0 (findPos s v) with
  | some q => if valueAt s q = v then objAt s q else 0
  | none => 0

/-- One level of the rank walk of `get_at_index` (lines 317-322):
`while (x->forward[i] != NULL && x->link_length[i] + so_far <= pos + 1)`. -/
def idxWalkF (s : ObjectStore) (pos : Int) (i : Nat) : Nat → Nat → Int → Nat × Int
  | 0, p, so => (p, so)
  | fuel + 1, p, so =>
    match fwdPos s i p with
    | none => (p, so)
    | some q =>
      if llAt s p i + so ≤ pos + 1 then
        idxWalkF s pos i fuel q (so + llAt s p i)
      else (p, so)

/-- The level loop of the rank walk, from level `i` down to 0. -/
def idxDescend (s : ObjectStore) (pos : Int) : Nat → Nat × Int → Nat × Int
  | 0, r => idxWalkF s pos 0 (s.entries.length + 1) r.1 r.2
  | i + 1, r => idxDescend s pos i (idxWalkF s pos (i + 1) (s.entries.length + 1) r.1 r.2)

/-- `ObjectStore::get_at_index` (lines 311-324). -/
def get_at_index (s : ObjectStore) (pos : Int) : Except ElementNotFoundException Nat :=
  if pos < 0 ∨ s.num_entries ≤ pos then
    .error ⟨"ObjectStore: out of bounds"⟩
  else
    .ok (objAt s (idxDescend s pos s.level (0, 0)).1)

/-- One level of the search loop of `insert` (lines 347-355), which also
accumulates `skipped_positions` (`sk`):
`skipped_positions += x->link_length[i]; x = x->forward[i];`. -/
def walkLevelSkF (s : ObjectStore) (v : Int) (i : Nat) : Nat → Nat → Int → Nat × Int
  | 0, p, sk => (p, sk)
  | fuel + 1, p, sk =>
    match fwdPos s i p with
    | none => (p, sk)
    | some q =>
      if valueAt s q < v then walkLevelSkF s v i fuel q (sk + llAt s p i) else (p, sk)

/-- The descent of `insert` (lines 347-355) from level `i` down to 0,
recording for each level the stop position (`update[i]`) and the cumulative
skipped count at the end of that level's walk
(`skipped_positions_per_level[i]`).  Index `j` of the result corresponds to
level `i - j`. -/
def descend (s : ObjectStore) (v : Int) : Nat → Nat → Int → List (Nat × Int)
  | 0, p, sk => [walkLevelSkF s v 0 (s.entries.length + 1) p sk]
  | i + 1, p, sk =>
    let r := walkLevelSkF s v (i + 1) (s.entries.length + 1) p sk
    r :: descend s v i r.1 r.2

/-- `update[]` and `skipped_positions_per_level[]` computed by the descent
from `(s.level, header, 0)`. -/
def updates (s : ObjectStore) (v : Int) : List (Nat × Int) := descend s v s.level 0 0

/-- `update[i]` / `skipped_positions_per_level[i]` lookup.  For levels above
the current one the C++ vectors hold header (set at lines 363-365) and `0`
(`resize(MAX_LEVEL+1,0)`, line 344); `(0, 0)` is exactly that pair. -/
def updAt (us : List (Nat × Int)) (top i : Nat) : Nat × Int :=
  if i ≤ top then us.getD (top - i) (0, 0) else (0, 0)

/-- The descent of `erase` (lines 398-403), which records only `update[i]`. -/
def descendPlain (s : ObjectStore) (v : Int) : Nat → Nat → List Nat
  | 0, p => [walkLevel s v 0 p]
  | i + 1, p =>
    let r := walkLevel s v (i + 1) p
    r :: descendPlain s v i r

/-- `update[]` of `erase`, from `(s.level, header)`. -/
def updatesE (s : ObjectStore) (v : Int) : List Nat := descendPlain s v s.level 0

/-- `update[i]` lookup for `erase`. -/
def updEAt (us : List Nat) (top i : Nat) : Nat :=
  if i ≤ top then us.getD (top - i) 0 else 0

/-- Write `link_length[i] := x` at position `p` (header or entry). -/
def setLL (s : ObjectStore) (p i : Nat) (x : Int) : ObjectStore :=
  if p = 0 then { s with headerLinks := s.headerLinks.set i x }
  else
    { s with
      entries := s.entries.set (p - 1)
        (let e := s.entries.getD (p - 1) default
         { e with link_length := e.link_length.set i x }) }

/-- Apply a batch of `link_length` writes.  `insert` and `erase` write one
slot per level, all slots pairwise distinct, so the writes read from the
original store and commute. -/
def applyEdits (s : ObjectStore) (es : List (Nat × Nat × Int)) : ObjectStore :=
  es.foldl (fun acc e => setLL acc e.1 e.2.1 e.2.2) s

/-- The new-key branch of `ObjectStore::insert` (lines 358-386).  `us`,
`p0 = update[0]` and `skipped = skipped_positions` come from the descent.
For each level `i ≤ lvl` the new node's `link_length[i]` is
`num_entries - skipped_positions` when `update[i]->forward[i]` is `NULL` and
`update[i]->link_length[i] - offset` otherwise (lines 371-378), and
`update[i]` gets `link_length[i] = offset + 1` (line 381); for
`lvl < i ≤ level`, `update[i]->link_length[i]++` (lines 383-385).  The
assignment `update[i]->link_length[i] = num_entries` at line 365 is always
overwritten at line 381 (those levels have a `NULL` header forward), so it
is not repeated here.  Linking the node after `update[0]` (lines 373, 380)
is the insertion at list index `p0`. -/
def insertNew (s : ObjectStore) (value : Int) (obj_ptr : Nat) (lvl : Nat)
    (us : List (Nat × Int)) (p0 : Nat) (skipped : Int) : ObjectStore :=
  let ne : Int := s.num_entries + 1
  let newLevel := max s.level lvl
  let newLL : List Int := (List.range (lvl + 1)).map (fun i =>
    let u := updAt us s.level i
    match fwdPos s i u.1 with
    | none => ne - skipped
    | some _ => llAt s u.1 i - (skipped - u.2))
  let x : Entry := ⟨value, obj_ptr, lvl, newLL⟩
  let edits : List (Nat × Nat × Int) := (List.range (newLevel + 1)).map (fun i =>
    let u := updAt us s.level i
    if i ≤ lvl then (u.1, i, (skipped - u.2) + 1)
    else (u.1, i, llAt s u.1 i + 1))
  let s2 := applyEdits s edits
  { s2 with
    entries := s2.entries.insertIdx p0 x
    level := newLevel
    num_entries := ne }

/-- `ObjectStore::insert` (lines 337-390).  `lvl` is the value returned by
`random_utils::random_level(MAX_LEVEL,P)` (line 360), injected as an
argument.  When the key is already present only `obj_ptr` is updated
(lines 387-389). -/
def insert (s : ObjectStore) (value : Int) (obj_ptr : Nat) (lvl : Nat) : ObjectStore :=
  let us := updates s value
  let p0 := (updAt us s.level 0).1
  let skipped := (updAt us s.level 0).2
  match fwdPos s 0 p0 with
  | some q =>
    if valueAt s q = value then
      { s with
        entries := s.entries.set (q - 1)
          (let e := s.entries.getD (q - 1) default
           { e with obj := obj_ptr }) }
    else insertNew s value obj_ptr lvl us p0 skipped
  | none => insertNew s value obj_ptr lvl us p0 skipped

/-- The level-shrinking loop of `erase` (lines 420-422):
`while (level > 0 && header->forward[level] == NULL) level--;`,
evaluated on the store after unlinking. -/
def shrinkLevel (s : ObjectStore) : Nat → Nat
  | 0 => 0
  | l + 1 =>
    match fwdPos s (l + 1) 0 with
    | none => shrinkLevel s l
    | some _ => l + 1

/-- `ObjectStore::erase` (lines 392-424).  When the key is present, every
level `i ≤ level` where `update[i]->forward[i] == x` absorbs the removed
node's span (`link_length[i] += x->link_length[i] - 1`, line 415) and
relinks past it; every other level decrements its span (line 411).
Unlinking `x` (line 414) is the removal of the entry at list index
`x - 1`. -/
def erase (s : ObjectStore) (value : Int) : ObjectStore :=
  let us := updatesE s value
  let p0 := updEAt us s.level 0
  match fwdPos s 0 p0 with
  | none => s
  | some x =>
    if valueAt s x = value then
      let xe := s.entries.getD (x - 1) default
      let edits : List (Nat × Nat × Int) := (List.range (s.level + 1)).map (fun i =>
        let u := updEAt us s.level i
        if fwdPos s i u = some x then (u, i, llAt s u i + xe.link_length.getD i 0 - 1)
        else (u, i, llAt s u i - 1))
      let s2 := applyEdits s edits
      let s3 : ObjectStore :=
        { s2 with entries := s2.entries.eraseIdx (x - 1), num_entries := s.num_entries - 1 }
      { s3 with level := shrinkLevel s3 s3.level }
    else s

/-- The chain of positions visited by the iterator (lines 238-268):
`begin()` is `header->forward[0]` and `operator++` follows `forward[0]`
until `NULL` (`end()`). -/
def chainFromF (s : ObjectStore) : Nat → Option Nat → List Nat
  | 0, _ => []
  | _ + 1, none => []
  | fuel + 1, some p => p :: chainFromF s fuel (fwdPos s 0 p)

/-- Positions yielded by one full `begin()`-to-`end()` iteration. -/
def positions (s : ObjectStore) : List Nat :=
  chainFromF s (s.entries.length + 1) (fwdPos s 0 0)

/-- The sequence of handles produced by one full iteration
(`operator*` returns `current->obj_ptr`, line 250). -/
def toList (s : ObjectStore) : List Nat := (positions s).map (objAt s)

/-- The keys of the nodes visited by one full iteration. -/
def toKeys (s : ObjectStore) : List Int := (positions s).map (valueAt s)

/-- The keys currently stored, in chain order. -/
def keys (s : ObjectStore) : List Int := s.entries.map Entry.value

/-- One store operation: `insert` (with the injected random tower height) or
`erase`. -/
inductive Op where
  | ins (v : Int) (obj : Nat) (lvl : Nat)
  | del (v : Int)
deriving Repr, DecidableEq

/-- Run one operation. -/
def applyOp (s : ObjectStore) : Op → ObjectStore
  | .ins v o lvl => s.insert v o lvl
  | .del v => s.erase v

/-- Run a sequence of operations on the freshly constructed store. -/
def applyOps (ops : List Op) : ObjectStore := ops.foldl applyOp emptyStore

/-- Every injected tower height is in `[0, MAX_LEVEL]`, as guaranteed by
`random_utils::random_level(MAX_LEVEL,P)`. -/
def LvlOK (ops : List Op) : Bool :=
  ops.all fun op =>
    match op with
    | .ins _ _ lvl => lvl ≤ MAX_LEVEL
    | .del _ => true

/-- Every inserted handle is non-`NULL` (the network stores shared pointers
to live entities). -/
def ObjOK (ops : List Op) : Bool :=
  ops.all fun op =>
    match op with
    | .ins _ o _ => o ≠ 0
    | .del _ => true

/-! ## Verification-side notions -/

/-- The keys are strictly ascending along the chain. -/
def Sorted (s : ObjectStore) : Prop := (keys s).Chain' (· < ·)

/-- Every stored `link_length[i]` of a link to a non-`NULL` forward node
equals the number of level-0 links it spans (positions are level-0 ranks,
so that number is `q - p`).  For the header only the levels up to the
current `level` are constrained: the slots above it are not maintained. -/
def SpanOK (s : ObjectStore) : Prop :=
  ∀ p i q, p ≤ s.entries.length → i ≤ heightAt s p → (p = 0 → i ≤ s.level) →
    fwdPos s i p = some q → llAt s p i = (q : Int) - (p : Int)

/-- Greatest position `≤ p` whose tower reaches level `i` and whose value is
less than `v` (the header, position 0, always qualifies). -/
def lastLtAux (s : ObjectStore) (i : Nat) (v : Int) : Nat → Nat
  | 0 => 0
  | p + 1 =>
    if i ≤ heightAt s (p + 1) ∧ valueAt s (p + 1) < v then p + 1
    else lastLtAux s i v p

/-- Greatest position whose tower reaches level `i` and whose value is less
than `v`; this is where the search descent stops at level `i`. -/
def lastLt (s : ObjectStore) (i : Nat) (v : Int) : Nat :=
  lastLtAux s i v s.entries.length

/-! ## Basic facts about the derived forward pointers -/

theorem fwdFromF_some {s : ObjectStore} {i fuel q0 q : Nat}
    (h : fwdFromF s i fuel q0 = some q) :
    q0 ≤ q ∧ q ≤ s.entries.length ∧ i ≤ heightAt s q ∧
      ∀ r, q0 ≤ r → r < q → ¬ i ≤ heightAt s r := by
  induction fuel generalizing q0 with
  | zero => simp [fwdFromF] at h
  | succ fuel ih =>
    rw [fwdFromF] at h
    by_cases hq : q0 ≤ s.entries.length
    · simp only [hq, if_true] at h
      by_cases hh : i ≤ heightAt s q0
      · simp only [hh, if_true, Option.some.injEq] at h
        subst h
        exact ⟨le_refl _, hq, hh, fun r h1 h2 => absurd (le_trans h1 (Nat.le_of_lt_succ (Nat.lt_succ_of_lt h2))) (by omega)⟩
      · simp only [hh, if_false] at h
        obtain ⟨h1, h2, h3, h4⟩ := ih h
        refine ⟨by omega, h2, h3, fun r hr1 hr2 => ?_⟩
        rcases Nat.eq_or_lt_of_le hr1 with rfl | hlt
        · exact hh
        · exact h4 r hlt hr2
    · simp [hq] at h

theorem fwdFromF_none {s : ObjectStore} {i fuel q0 : Nat}
    (hfuel : s.entries.length + 1 - q0 ≤ fuel)
    (h : fwdFromF s i fuel q0 = none) :
    ∀ r, q0 ≤ r → r ≤ s.entries.length → ¬ i ≤ heightAt s r := by
  induction fuel generalizing q0 with
  | zero => intro r h1 h2; omega
  | succ fuel ih =>
    rw [fwdFromF] at h
    by_cases hq : q0 ≤ s.entries.length
    · simp only [hq, if_true] at h
      by_cases hh : i ≤ heightAt s q0
      · simp [hh] at h
      · simp only [hh, if_false] at h
        intro r h1 h2
        rcases Nat.eq_or_lt_of_le h1 with rfl | hlt
        · exact hh
        · exact ih (by omega) h r hlt h2
    · intro r h1 h2; omega

theorem fwdFromF_complete {s : ObjectStore} {i fuel q0 r : Nat}
    (hfuel : s.entries.length + 1 - q0 ≤ fuel)
    (hr1 : q0 ≤ r) (hr2 : r ≤ s.entries.length) (hh : i ≤ heightAt s r) :
    ∃ q, fwdFromF s i fuel q0 = some q ∧ q ≤ r := by
  induction fuel generalizing q0 with
  | zero => omega
  | succ fuel ih =>
    rw [fwdFromF]
    have hq : q0 ≤ s.entries.length := le_trans hr1 hr2
    simp only [hq, if_true]
    by_cases hh0 : i ≤ heightAt s q0
    · exact ⟨q0, by simp [hh0], hr1⟩
    · have hne : q0 ≠ r := fun he => hh0 (he ▸ hh)
      obtain ⟨q, hq1, hq2⟩ := @ih (q0 + 1) (by omega) (by omega)
      exact ⟨q, by simp [hh0, hq1], hq2⟩

theorem fwdPos_some {s : ObjectStore} {i p q : Nat} (h : fwdPos s i p = some q) :
    p < q ∧ q ≤ s.entries.length ∧ i ≤ heightAt s q ∧
      ∀ r, p < r → r < q → heightAt s r < i := by
  obtain ⟨h1, h2, h3, h4⟩ := fwdFromF_some h
  exact ⟨h1, h2, h3, fun r hr1 hr2 => Nat.lt_of_not_le (h4 r hr1 hr2)⟩

theorem fwdPos_none {s : ObjectStore} {i p : Nat} (h : fwdPos s i p = none) :
    ∀ r, p < r → r ≤ s.entries.length → heightAt s r < i := by
  intro r h1 h2
  exact Nat.lt_of_not_le (fwdFromF_none (by omega) h r h1 h2)

theorem fwdPos_complete {s : ObjectStore} {i p r : Nat}
    (hr1 : p < r) (hr2 : r ≤ s.entries.length) (hh : i ≤ heightAt s r) :
    ∃ q, fwdPos s i p = some q ∧ q ≤ r :=
  fwdFromF_complete (by omega) hr1 hr2 hh

theorem fwdPos_of_ge {s : ObjectStore} {i p : Nat} (h : s.entries.length ≤ p) :
    fwdPos s i p = none := by
  cases hf : fwdPos s i p with
  | none => rfl
  | some q =>
    obtain ⟨h1, h2, -, -⟩ := fwdPos_some hf
    omega

/-- Every node has tower height at least `0`, so the level-0 chain visits
every position. -/
theorem fwdPos_zero {s : ObjectStore} {p : Nat} (h : p < s.entries.length) :
    fwdPos s 0 p = some (p + 1) := by
  obtain ⟨q, hq, hle⟩ := fwdPos_complete (Nat.lt_succ_self p) h (Nat.zero_le _)
  obtain ⟨h1, -, -, -⟩ := fwdPos_some hq
  have : q = p + 1 := by omega
  exact this ▸ hq

theorem fwdPos_zero_iff {s : ObjectStore} {p : Nat} :
    fwdPos s 0 p = none ↔ s.entries.length ≤ p := by
  constructor
  · intro h
    by_contra hlt
    rw [fwdPos_zero (by omega)] at h
    exact Option.noConfusion h
  · exact fwdPos_of_ge

/-! ## Accessors at in-range positions -/

theorem valueAt_eq {s : ObjectStore} {r : Nat} (h1 : 1 ≤ r) (h2 : r ≤ s.entries.length) :
    valueAt s r = (s.entries.getD (r - 1) default).value := by
  have hr0 : ¬ r = 0 := by omega
  simp [valueAt, entryAt, hr0, List.getElem?_eq_getElem (show r - 1 < s.entries.length by omega),
    List.getD_eq_getElem?_getD]

theorem heightAt_eq {s : ObjectStore} {r : Nat} (h1 : 1 ≤ r) (h2 : r ≤ s.entries.length) :
    heightAt s r = (s.entries.getD (r - 1) default).height := by
  have hr0 : ¬ r = 0 := by omega
  simp [heightAt, entryAt, hr0, List.getElem?_eq_getElem (show r - 1 < s.entries.length by omega),
    List.getD_eq_getElem?_getD]

theorem objAt_eq {s : ObjectStore} {r : Nat} (h1 : 1 ≤ r) (h2 : r ≤ s.entries.length) :
    objAt s r = (s.entries.getD (r - 1) default).obj := by
  have hr0 : ¬ r = 0 := by omega
  simp [objAt, entryAt, hr0, List.getElem?_eq_getElem (show r - 1 < s.entries.length by omega),
    List.getD_eq_getElem?_getD]

theorem llAt_eq {s : ObjectStore} {r : Nat} (i : Nat) (h1 : 1 ≤ r) (h2 : r ≤ s.entries.length) :
    llAt s r i = (s.entries.getD (r - 1) default).link_length.getD i 0 := by
  have hr0 : ¬ r = 0 := by omega
  simp [llAt, entryAt, hr0, List.getElem?_eq_getElem (show r - 1 < s.entries.length by omega),
    List.getD_eq_getElem?_getD]

theorem heightAt_zero (s : ObjectStore) : heightAt s 0 = MAX_LEVEL := by
  simp [heightAt]

theorem keys_getD {s : ObjectStore} {r : Nat} (h1 : 1 ≤ r) (h2 : r ≤ s.entries.length) :
    (keys s).getD (r - 1) 0 = valueAt s r := by
  rw [valueAt_eq h1 h2]
  have hlt : r - 1 < s.entries.length := by omega
  simp [keys, List.getD_eq_getElem?_getD, List.getElem?_eq_getElem hlt]

/-- Strict monotonicity of the keys along the chain. -/
theorem sorted_lt {s : ObjectStore} (hs : Sorted s) {r r' : Nat}
    (h1 : 1 ≤ r) (h2 : r < r') (h3 : r' ≤ s.entries.length) :
    valueAt s r < valueAt s r' := by
  have hp : (keys s).Pairwise (· < ·) := List.chain'_iff_pairwise.mp hs
  have hlen : (keys s).length = s.entries.length := by simp [keys]
  have hr : r - 1 < (keys s).length := by omega
  have hr' : r' - 1 < (keys s).length := by omega
  have hlt := List.pairwise_iff_getElem.mp hp (r - 1) (r' - 1) hr hr' (by omega)
  have e1 : (keys s)[r - 1] = valueAt s r := by
    rw [← keys_getD h1 (by omega), List.getD_eq_getElem?_getD, List.getElem?_eq_getElem hr]; rfl
  have e2 : (keys s)[r' - 1] = valueAt s r' := by
    rw [← keys_getD (by omega) h3, List.getD_eq_getElem?_getD, List.getElem?_eq_getElem hr']; rfl
  rw [e1, e2] at hlt
  exact hlt

theorem mem_keys_iff {s : ObjectStore} {v : Int} :
    v ∈ keys s ↔ ∃ r, 1 ≤ r ∧ r ≤ s.entries.length ∧ valueAt s r = v := by
  constructor
  · intro h
    obtain ⟨j, hj, he⟩ := List.mem_iff_getElem.mp h
    have hjl : j < s.entries.length := by simpa [keys] using hj
    refine ⟨j + 1, by omega, by omega, ?_⟩
    rw [valueAt_eq (by omega) (by omega)]
    simpa [keys, List.getD_eq_getElem?_getD, List.getElem?_eq_getElem hjl] using he
  · rintro ⟨r, h1, h2, he⟩
    have hlt : r - 1 < (keys s).length := by simp [keys]; omega
    have : (keys s)[r - 1] = v := by
      rw [← he, ← keys_getD h1 h2, List.getD_eq_getElem?_getD, List.getElem?_eq_getElem hlt]; rfl
    exact this ▸ List.getElem_mem hlt

/-! ## The stopping positions of the search descent -/

theorem lastLtAux_le {s : ObjectStore} {i : Nat} {v : Int} (p : Nat) :
    lastLtAux s i v p ≤ p := by
  induction p with
  | zero => simp [lastLtAux]
  | succ p ih =>
    rw [lastLtAux]
    split
    · exact le_refl _
    · omega

theorem lastLtAux_pred {s : ObjectStore} {i : Nat} {v : Int} (p : Nat)
    (h : lastLtAux s i v p ≠ 0) :
    i ≤ heightAt s (lastLtAux s i v p) ∧ valueAt s (lastLtAux s i v p) < v := by
  induction p with
  | zero => simp [lastLtAux] at h
  | succ p ih =>
    by_cases hc : i ≤ heightAt s (p + 1) ∧ valueAt s (p + 1) < v
    · rw [lastLtAux, if_pos hc]
      exact hc
    · rw [lastLtAux, if_neg hc] at h ⊢
      exact ih h

theorem lastLtAux_max {s : ObjectStore} {i : Nat} {v : Int} {p r : Nat}
    (h1 : 1 ≤ r) (hr : r ≤ p) (hh : i ≤ heightAt s r) (hv : valueAt s r < v) :
    r ≤ lastLtAux s i v p := by
  induction p with
  | zero => omega
  | succ p ih =>
    rw [lastLtAux]
    split
    · next hc => omega
    · next hc =>
      rcases Nat.eq_or_lt_of_le hr with rfl | hlt
      · exact absurd ⟨hh, hv⟩ hc
      · exact ih (by omega)

theorem lastLt_le {s : ObjectStore} (i : Nat) (v : Int) :
    lastLt s i v ≤ s.entries.length := lastLtAux_le _

theorem lastLt_pred {s : ObjectStore} {i : Nat} {v : Int} (h : lastLt s i v ≠ 0) :
    i ≤ heightAt s (lastLt s i v) ∧ valueAt s (lastLt s i v) < v := lastLtAux_pred _ h

theorem lastLt_max {s : ObjectStore} {i : Nat} {v : Int} {r : Nat}
    (h1 : 1 ≤ r) (hr : r ≤ s.entries.length) (hh : i ≤ heightAt s r)
    (hv : valueAt s r < v) : r ≤ lastLt s i v := lastLtAux_max h1 hr hh hv

theorem lastLt_mono {s : ObjectStore} {i i' : Nat} (v : Int) (h : i' ≤ i) :
    lastLt s i v ≤ lastLt s i' v := by
  by_cases h0 : lastLt s i v = 0
  · omega
  · obtain ⟨hh, hv⟩ := lastLt_pred h0
    exact lastLt_max (by omega) (lastLt_le _ _) (le_trans h hh) hv

/-- Below the level-`i` stop, every position up to the level-0 stop has a
key smaller than `v`. -/
theorem lt_of_le_lastLt_zero {s : ObjectStore} (hs : Sorted s) {v : Int} {r : Nat}
    (h1 : 1 ≤ r) (h2 : r ≤ lastLt s 0 v) : valueAt s r < v := by
  have h0 : lastLt s 0 v ≠ 0 := by omega
  obtain ⟨-, hv⟩ := lastLt_pred h0
  rcases Nat.eq_or_lt_of_le h2 with rfl | hlt
  · exact hv
  · exact lt_trans (sorted_lt hs h1 hlt (lastLt_le _ _)) hv

/-- Between the level-`i` stop and the level-0 stop all towers stay below
level `i`: this is why relinking at level `i` touches only `update[i]`. -/
theorem height_lt_between {s : ObjectStore} (hs : Sorted s) {v : Int} {i r : Nat}
    (h1 : lastLt s i v < r) (h2 : r ≤ lastLt s 0 v) : heightAt s r < i := by
  by_contra hge
  have hge' : i ≤ heightAt s r := by omega
  have hv : valueAt s r < v := lt_of_le_lastLt_zero hs (by omega) h2
  have := lastLt_max (by omega) (le_trans h2 (lastLt_le _ _)) hge' hv
  omega

/-- A position `p' ≤ update[0]` whose tower reaches level `i` and whose
level-`i` forward pointer jumps past `update[0]` (or is `NULL`) must be
`update[i]` itself. -/
theorem spanner_eq {s : ObjectStore} (hs : Sorted s) {v : Int} {i p' : Nat}
    (h1 : p' ≤ lastLt s 0 v) (hh : i ≤ heightAt s p')
    (hbig : ∀ q, fwdPos s i p' = some q → lastLt s 0 v < q) :
    p' = lastLt s i v := by
  have hle : p' ≤ lastLt s i v := by
    rcases Nat.eq_zero_or_pos p' with rfl | hpos
    · omega
    · exact lastLt_max hpos (le_trans h1 (lastLt_le _ _)) hh
        (lt_of_le_lastLt_zero hs hpos h1)
  rcases Nat.eq_or_lt_of_le hle with he | hlt
  · exact he
  · exfalso
    have hL0 : lastLt s i v ≠ 0 := by omega
    obtain ⟨hhL, -⟩ := lastLt_pred hL0
    obtain ⟨q, hq, hqle⟩ := fwdPos_complete hlt (lastLt_le _ _) hhL
    have := hbig q hq
    have := lastLt_mono (s := s) v (Nat.zero_le i)
    omega

/-! ## The search walks reach the stopping positions -/

theorem walkLevelF_eq {s : ObjectStore} (hs : Sorted s) {v : Int} {i : Nat} :
    ∀ fuel p, s.entries.length + 1 - p ≤ fuel → p ≤ lastLt s i v →
      walkLevelF s v i fuel p = lastLt s i v := by
  intro fuel
  induction fuel with
  | zero =>
    intro p hfuel hp
    have := lastLt_le (s := s) i v
    omega
  | succ fuel ih =>
    intro p hfuel hp
    rw [walkLevelF]
    cases hf : fwdPos s i p with
    | none =>
      rcases Nat.eq_or_lt_of_le hp with he | hlt
      · exact he
      · exfalso
        have hL0 : lastLt s i v ≠ 0 := by omega
        obtain ⟨hhL, -⟩ := lastLt_pred hL0
        obtain ⟨q, hq, -⟩ := fwdPos_complete hlt (lastLt_le _ _) hhL
        rw [hf] at hq
        exact Option.noConfusion hq
    | some q =>
      obtain ⟨hpq, hqn, hqh, hfirst⟩ := fwdPos_some hf
      by_cases hv : valueAt s q < v
      · simp only [hv, if_true]
        have hqL : q ≤ lastLt s i v := lastLt_max (by omega) hqn hqh hv
        exact ih q (by omega) hqL
      · simp only [hv, if_false]
        rcases Nat.eq_or_lt_of_le hp with he | hlt
        · exact he
        · exfalso
          have hL0 : lastLt s i v ≠ 0 := by omega
          obtain ⟨hhL, hvL⟩ := lastLt_pred hL0
          obtain ⟨q', hq', hq'le⟩ := fwdPos_complete hlt (lastLt_le _ _) hhL
          rw [hf] at hq'
          have hqq : q = q' := by injection hq'
          subst hqq
          rcases Nat.eq_or_lt_of_le hq'le with he2 | hlt2
          · exact hv (he2 ▸ hvL)
          · exact hv (lt_trans (sorted_lt hs (by omega) hlt2 (lastLt_le _ _)) hvL)

theorem walkLevel_eq {s : ObjectStore} (hs : Sorted s) {v : Int} {i p : Nat}
    (hp : p ≤ lastLt s i v) : walkLevel s v i p = lastLt s i v := by
  have := lastLt_le (s := s) i v
  exact walkLevelF_eq hs _ p (by omega) hp

theorem searchPos_eq {s : ObjectStore} (hs : Sorted s) {v : Int} :
    ∀ i p, p ≤ lastLt s i v → searchPos s v i p = lastLt s 0 v := by
  intro i
  induction i with
  | zero => intro p hp; exact walkLevel_eq hs hp
  | succ i ih =>
    intro p hp
    rw [searchPos, walkLevel_eq hs hp]
    exact ih _ (lastLt_mono v (by omega))

theorem findPos_eq {s : ObjectStore} (hs : Sorted s) (v : Int) :
    findPos s v = lastLt s 0 v := searchPos_eq hs _ 0 (Nat.zero_le _)

/-! ## Locating a key -/

theorem ge_at_lastLt_zero_succ {s : ObjectStore} {v : Int}
    (h : lastLt s 0 v < s.entries.length) : v ≤ valueAt s (lastLt s 0 v + 1) := by
  by_contra hlt
  have h1 : lastLt s 0 v + 1 ≤ lastLt s 0 v :=
    lastLt_max (by omega) (by omega) (Nat.zero_le _) (by omega)
  omega

theorem found_iff {s : ObjectStore} (hs : Sorted s) {v : Int} :
    v ∈ keys s ↔
      lastLt s 0 v < s.entries.length ∧ valueAt s (lastLt s 0 v + 1) = v := by
  constructor
  · intro h
    obtain ⟨r, h1, h2, he⟩ := mem_keys_iff.mp h
    have hgt : lastLt s 0 v < r := by
      by_contra hle
      have hv3 : valueAt s r < v := lt_of_le_lastLt_zero hs h1 (by omega)
      omega
    have hr : r = lastLt s 0 v + 1 := by
      by_contra hne
      have hlt : lastLt s 0 v + 1 < r := by omega
      have hv1 := ge_at_lastLt_zero_succ (show lastLt s 0 v < s.entries.length by omega)
      have hv2 : valueAt s (lastLt s 0 v + 1) < valueAt s r :=
        sorted_lt hs (by omega) hlt h2
      omega
    subst hr
    exact ⟨by omega, he⟩
  · rintro ⟨h1, h2⟩
    exact mem_keys_iff.mpr ⟨lastLt s 0 v + 1, by omega, by omega, h2⟩

theorem contains_iff {s : ObjectStore} (hs : Sorted s) {v : Int} :
    contains s v = true ↔ v ∈ keys s := by
  rw [contains, findPos_eq hs]
  by_cases h : lastLt s 0 v < s.entries.length
  · rw [fwdPos_zero h]
    simp only [beq_iff_eq]
    rw [found_iff hs]
    constructor
    · intro he; exact ⟨h, he⟩
    · rintro ⟨-, he⟩; exact he
  · rw [fwdPos_of_ge (by omega)]
    simp only [Bool.false_eq_true, false_iff]
    intro hm
    exact h ((found_iff hs).mp hm).1

theorem get_of_mem {s : ObjectStore} (hs : Sorted s) {v : Int} (h : v ∈ keys s) :
    get s v = objAt s (lastLt s 0 v + 1) := by
  obtain ⟨h1, h2⟩ := (found_iff hs).mp h
  rw [get, findPos_eq hs, fwdPos_zero h1]
  simp [h2]

theorem get_of_not_mem {s : ObjectStore} (hs : Sorted s) {v : Int} (h : v ∉ keys s) :
    get s v = 0 := by
  rw [get, findPos_eq hs]
  by_cases hlt : lastLt s 0 v < s.entries.length
  · rw [fwdPos_zero hlt]
    have : ¬ valueAt s (lastLt s 0 v + 1) = v := fun he =>
      h ((found_iff hs).mpr ⟨hlt, he⟩)
    simp [this]
  · rw [fwdPos_of_ge (by omega)]

/-! ## The skip-counting walk of `insert` -/

theorem walkLevelSkF_eq {s : ObjectStore} (hs : Sorted s) (hsp : SpanOK s) {v : Int} {i : Nat} :
    ∀ fuel p sk, s.entries.length + 1 - p ≤ fuel → p ≤ lastLt s i v →
      i ≤ heightAt s p → (p = 0 → i ≤ s.level) →
      walkLevelSkF s v i fuel p sk =
        (lastLt s i v, sk + ((lastLt s i v : Int) - (p : Int))) := by
  intro fuel
  induction fuel with
  | zero =>
    intro p sk hfuel hp hh hlev
    have := lastLt_le (s := s) i v
    omega
  | succ fuel ih =>
    intro p sk hfuel hp hh hlev
    rw [walkLevelSkF]
    cases hf : fwdPos s i p with
    | none =>
      rcases Nat.eq_or_lt_of_le hp with he | hlt
      · rw [← he]
        simp
      · exfalso
        have hL0 : lastLt s i v ≠ 0 := by omega
        obtain ⟨hhL, -⟩ := lastLt_pred hL0
        obtain ⟨q, hq, -⟩ := fwdPos_complete hlt (lastLt_le _ _) hhL
        rw [hf] at hq
        exact Option.noConfusion hq
    | some q =>
      obtain ⟨hpq, hqn, hqh, hfirst⟩ := fwdPos_some hf
      have hll : llAt s p i = (q : Int) - (p : Int) :=
        hsp p i q (le_trans hp (lastLt_le _ _)) hh hlev hf
      by_cases hv : valueAt s q < v
      · simp only [hv, if_true]
        have hqL : q ≤ lastLt s i v := lastLt_max (by omega) hqn hqh hv
        rw [ih q (sk + llAt s p i) (by omega) hqL hqh (by omega)]
        rw [hll]
        refine Prod.ext rfl ?_
        push_cast
        ring
      · simp only [hv, if_false]
        rcases Nat.eq_or_lt_of_le hp with he | hlt
        · rw [← he]
          simp
        · exfalso
          have hL0 : lastLt s i v ≠ 0 := by omega
          obtain ⟨hhL, hvL⟩ := lastLt_pred hL0
          obtain ⟨q', hq', hq'le⟩ := fwdPos_complete hlt (lastLt_le _ _) hhL
          rw [hf] at hq'
          have hqq : q = q' := by injection hq'
          subst hqq
          rcases Nat.eq_or_lt_of_le hq'le with he2 | hlt2
          · exact hv (he2 ▸ hvL)
          · exact hv (lt_trans (sorted_lt hs (by omega) hlt2 (lastLt_le _ _)) hvL)

theorem descend_getD {s : ObjectStore} (hs : Sorted s) (hsp : SpanOK s)
    (hml : s.level ≤ MAX_LEVEL) {v : Int} :
    ∀ i p sk, i ≤ s.level → p ≤ lastLt s i v → i ≤ heightAt s p → (p = 0 → i ≤ s.level) →
      ∀ j, j ≤ i →
        (descend s v i p sk).getD j (0, 0) =
          (lastLt s (i - j) v, sk + ((lastLt s (i - j) v : Int) - (p : Int))) := by
  intro i
  induction i with
  | zero =>
    intro p sk hlev hp hh hplev j hj
    interval_cases j
    rw [descend]
    have he := walkLevelSkF_eq hs hsp (s.entries.length + 1) p sk (by omega) hp hh hplev
    simp [he]
  | succ i ih =>
    intro p sk hlev hp hh hplev j hj
    rw [descend]
    have he := walkLevelSkF_eq hs hsp (s.entries.length + 1) p sk (by omega) hp hh hplev
    cases j with
    | zero => simp [he]
    | succ j =>
      simp only [he, List.getD_cons_succ]
      have hrec := ih (lastLt s (i + 1) v) (sk + ((lastLt s (i + 1) v : Int) - (p : Int)))
        (by omega) (lastLt_mono v (by omega))
        (by
          by_cases h0 : lastLt s (i + 1) v = 0
          · rw [h0, heightAt_zero]
            omega
          · exact le_trans (by omega) (lastLt_pred h0).1)
        (fun h0 => by omega) j (by omega)
      rw [hrec]
      have hij : i + 1 - (j + 1) = i - j := by omega
      rw [hij]
      refine Prod.ext rfl ?_
      push_cast
      ring

theorem updates_getD {s : ObjectStore} (hs : Sorted s) (hsp : SpanOK s)
    (hml : s.level ≤ MAX_LEVEL) (v : Int) {i : Nat} (hi : i ≤ s.level) :
    updAt (updates s v) s.level i = (lastLt s i v, (lastLt s i v : Int)) := by
  rw [updAt, if_pos hi, updates]
  have h := descend_getD hs hsp hml (v := v) s.level 0 0 (le_refl _) (Nat.zero_le _)
    (by rw [heightAt_zero]; omega) (fun _ => le_refl _) (s.level - i) (by omega)
  rw [h]
  have : s.level - (s.level - i) = i := by omega
  rw [this]
  simp

theorem updAt_above {us : List (Nat × Int)} {top i : Nat} (h : top < i) :
    updAt us top i = (0, 0) := by
  rw [updAt, if_neg (by omega)]

/-! ## The plain walk of `erase` -/

theorem descendPlain_getD {s : ObjectStore} (hs : Sorted s) {v : Int} :
    ∀ i p, p ≤ lastLt s i v → ∀ j, j ≤ i →
      (descendPlain s v i p).getD j 0 = lastLt s (i - j) v := by
  intro i
  induction i with
  | zero =>
    intro p hp j hj
    interval_cases j
    rw [descendPlain]
    simp [walkLevel_eq hs hp]
  | succ i ih =>
    intro p hp j hj
    rw [descendPlain]
    cases j with
    | zero => simp [walkLevel_eq hs hp]
    | succ j =>
      simp only [walkLevel_eq hs hp, List.getD_cons_succ]
      have hrec := ih (lastLt s (i + 1) v) (lastLt_mono v (by omega)) j (by omega)
      rw [hrec]
      have hij : i + 1 - (j + 1) = i - j := by omega
      rw [hij]

theorem updatesE_getD {s : ObjectStore} (hs : Sorted s) (v : Int) {i : Nat}
    (hi : i ≤ s.level) :
    updEAt (updatesE s v) s.level i = lastLt s i v := by
  rw [updEAt, if_pos hi, updatesE]
  have h := descendPlain_getD hs (v := v) s.level 0 (Nat.zero_le _) (s.level - i) (by omega)
  rw [h]
  have : s.level - (s.level - i) = i := by omega
  rw [this]

/-! ## Characterisations of the forward pointer -/

theorem fwdPos_eq_some_iff {s : ObjectStore} {i p q : Nat} :
    fwdPos s i p = some q ↔
      p < q ∧ q ≤ s.entries.length ∧ i ≤ heightAt s q ∧
        ∀ r, p < r → r < q → heightAt s r < i := by
  constructor
  · exact fwdPos_some
  · rintro ⟨h1, h2, h3, h4⟩
    obtain ⟨q', hq', hle⟩ := fwdPos_complete h1 h2 h3
    obtain ⟨hq1, -, hq3, -⟩ := fwdPos_some hq'
    rcases Nat.eq_or_lt_of_le hle with rfl | hlt
    · exact hq'
    · exact absurd hq3 (by have := h4 q' hq1 hlt; omega)

theorem fwdPos_eq_none_iff {s : ObjectStore} {i p : Nat} :
    fwdPos s i p = none ↔ ∀ r, p < r → r ≤ s.entries.length → heightAt s r < i := by
  constructor
  · exact fwdPos_none
  · intro h
    cases hf : fwdPos s i p with
    | none => rfl
    | some q =>
      obtain ⟨h1, h2, h3, -⟩ := fwdPos_some hf
      exact absurd h3 (by have := h q h1 h2; omega)

/-- `fwdPos` depends only on the lengths and heights of the entries. -/
theorem fwdPos_congr {s t : ObjectStore} (hlen : t.entries.length = s.entries.length)
    (hh : ∀ r, 1 ≤ r → r ≤ s.entries.length → heightAt t r = heightAt s r)
    (i p : Nat) : fwdPos t i p = fwdPos s i p := by
  cases hf : fwdPos s i p with
  | none =>
    rw [fwdPos_eq_none_iff, hlen]
    intro r h1 h2
    rw [hh r (by omega) h2]
    exact fwdPos_none hf r h1 h2
  | some q =>
    obtain ⟨h1, h2, h3, h4⟩ := fwdPos_some hf
    rw [fwdPos_eq_some_iff, hlen]
    refine ⟨h1, h2, ?_, fun r hr1 hr2 => ?_⟩
    · rw [hh q (by omega) h2]
      exact h3
    · rw [hh r (by omega) (by omega)]
      exact h4 r hr1 hr2

/-! ## Effect of `link_length` writes on the state -/

/-- Number of `link_length` slots of the node at position `p`. -/
def llLen (s : ObjectStore) (p : Nat) : Nat :=
  if p = 0 then s.headerLinks.length
  else ((entryAt s p).map (fun e => e.link_length.length)).getD 0

theorem setLL_entries_length (s : ObjectStore) (p i : Nat) (x : Int) :
    (setLL s p i x).entries.length = s.entries.length := by
  rw [setLL]
  split <;> simp

theorem setLL_level (s : ObjectStore) (p i : Nat) (x : Int) :
    (setLL s p i x).level = s.level := by
  rw [setLL]; split <;> rfl

theorem setLL_num (s : ObjectStore) (p i : Nat) (x : Int) :
    (setLL s p i x).num_entries = s.num_entries := by
  rw [setLL]; split <;> rfl

theorem setLL_headerLinks_length (s : ObjectStore) (p i : Nat) (x : Int) :
    (setLL s p i x).headerLinks.length = s.headerLinks.length := by
  rw [setLL]; split <;> simp

theorem entryAt_of_le {s : ObjectStore} {r : Nat} (h1 : 1 ≤ r) (h2 : r ≤ s.entries.length) :
    entryAt s r = some (s.entries.getD (r - 1) default) := by
  rw [entryAt, List.getElem?_eq_getElem (by omega)]
  simp [List.getD_eq_getElem?_getD, List.getElem?_eq_getElem (show r - 1 < s.entries.length by omega)]

theorem entryAt_of_gt {s : ObjectStore} {r : Nat} (h : s.entries.length < r) :
    entryAt s r = none := by
  rw [entryAt, List.getElem?_eq_none]
  omega

theorem entryAt_setLL_ne (s : ObjectStore) {p : Nat} (i : Nat) (x : Int) {r : Nat}
    (hr0 : 1 ≤ r) (h : r ≠ p) : entryAt (setLL s p i x) r = entryAt s r := by
  rw [setLL]
  split
  · rfl
  · next hp =>
    show (s.entries.set (p - 1) _)[r - 1]? = _
    rw [List.getElem?_set_ne (by omega)]
    rfl

theorem entryAt_setLL_zero (s : ObjectStore) (i : Nat) (x : Int) (r : Nat) :
    entryAt (setLL s 0 i x) r = entryAt s r := by
  rw [setLL, if_pos rfl]
  rfl

theorem entryAt_setLL_self {s : ObjectStore} {p : Nat} (i : Nat) (x : Int)
    (hp : 1 ≤ p) (hpn : p ≤ s.entries.length) :
    entryAt (setLL s p i x) p =
      some (let e := s.entries.getD (p - 1) default
            { e with link_length := e.link_length.set i x }) := by
  rw [setLL, if_neg (by omega)]
  show (s.entries.set (p - 1) _)[p - 1]? = _
  rw [List.getElem?_set_eq_of_lt _ (by omega)]

theorem getD_map_entryAt_setLL {β : Type} (s : ObjectStore) (p i : Nat) (x : Int) {r : Nat}
    (hr0 : 1 ≤ r) (f : Entry → β) (d : β)
    (hf : ∀ e : Entry, f { e with link_length := e.link_length.set i x } = f e) :
    ((entryAt (setLL s p i x) r).map f).getD d = ((entryAt s r).map f).getD d := by
  by_cases hp0 : p = 0
  · subst hp0
    rw [entryAt_setLL_zero]
  by_cases hr : r = p
  · subst hr
    by_cases hrn : r ≤ s.entries.length
    · rw [entryAt_setLL_self i x (by omega) hrn, entryAt_of_le (by omega) hrn]
      simp only [Option.map_some', Option.getD_some]
      exact hf _
    · have h1 : entryAt (setLL s r i x) r = none := by
        apply entryAt_of_gt
        rw [setLL_entries_length]
        omega
      rw [h1, entryAt_of_gt (by omega)]
  · rw [entryAt_setLL_ne s i x hr0 hr]

theorem heightAt_setLL (s : ObjectStore) (p i : Nat) (x : Int) (r : Nat) :
    heightAt (setLL s p i x) r = heightAt s r := by
  by_cases h0 : r = 0
  · subst h0
    rw [heightAt_zero, heightAt_zero]
  · rw [heightAt, heightAt, if_neg h0, if_neg h0]
    exact getD_map_entryAt_setLL s p i x (by omega) Entry.height 0 (fun e => rfl)

theorem valueAt_setLL (s : ObjectStore) (p i : Nat) (x : Int) (r : Nat) :
    valueAt (setLL s p i x) r = valueAt s r := by
  by_cases h0 : r = 0
  · subst h0
    rw [valueAt, valueAt, if_pos rfl, if_pos rfl]
  · rw [valueAt, valueAt, if_neg h0, if_neg h0]
    exact getD_map_entryAt_setLL s p i x (by omega) Entry.value 0 (fun e => rfl)

theorem objAt_setLL (s : ObjectStore) (p i : Nat) (x : Int) (r : Nat) :
    objAt (setLL s p i x) r = objAt s r := by
  by_cases h0 : r = 0
  · subst h0
    rw [objAt, objAt, if_pos rfl, if_pos rfl]
  · rw [objAt, objAt, if_neg h0, if_neg h0]
    exact getD_map_entryAt_setLL s p i x (by omega) Entry.obj 0 (fun e => rfl)

theorem llLen_setLL (s : ObjectStore) (p i : Nat) (x : Int) (r : Nat) :
    llLen (setLL s p i x) r = llLen s r := by
  by_cases h0 : r = 0
  · subst h0
    rw [llLen, llLen, if_pos rfl, if_pos rfl, setLL_headerLinks_length]
  · rw [llLen, llLen, if_neg h0, if_neg h0]
    exact getD_map_entryAt_setLL s p i x (by omega) (fun e => e.link_length.length) 0
      (fun e => by simp)

theorem fwdPos_setLL (s : ObjectStore) (p i : Nat) (x : Int) (j r : Nat) :
    fwdPos (setLL s p i x) j r = fwdPos s j r :=
  fwdPos_congr (setLL_entries_length s p i x)
    (fun r2 _ _ => heightAt_setLL s p i x r2) j r

theorem llAt_setLL_other (s : ObjectStore) (p i : Nat) (x : Int) {p2 i2 : Nat}
    (h : ¬ (p2 = p ∧ i2 = i)) : llAt (setLL s p i x) p2 i2 = llAt s p2 i2 := by
  by_cases h0 : p2 = 0
  · subst h0
    by_cases hp0 : p = 0
    · subst hp0
      have hi : i2 ≠ i := fun he => h ⟨rfl, he⟩
      rw [llAt, llAt, if_pos rfl, if_pos rfl, setLL, if_pos rfl]
      show (s.headerLinks.set i x).getD i2 0 = _
      rw [List.getD_eq_getElem?_getD, List.getD_eq_getElem?_getD,
        List.getElem?_set_ne (by omega)]
    · rw [llAt, llAt, if_pos rfl, if_pos rfl, setLL, if_neg hp0]
  · rw [llAt, llAt, if_neg h0, if_neg h0]
    by_cases hp2 : p2 = p
    · subst hp2
      have hi : i2 ≠ i := fun he => h ⟨rfl, he⟩
      exact getD_map_entryAt_setLL s p2 i x (by omega) (fun e => e.link_length.getD i2 0) 0
        (fun e => by
          simp only []
          rw [List.getD_eq_getElem?_getD, List.getD_eq_getElem?_getD,
            List.getElem?_set_ne (by omega)])
    · rw [entryAt_setLL_ne s i x (by omega) hp2]

theorem llAt_setLL_self (s : ObjectStore) {p i : Nat} (x : Int)
    (hpn : p ≤ s.entries.length) (hb : i < llLen s p) :
    llAt (setLL s p i x) p i = x := by
  by_cases h0 : p = 0
  · subst h0
    rw [llAt, if_pos rfl, setLL, if_pos rfl]
    show (s.headerLinks.set i x).getD i 0 = x
    rw [llLen, if_pos rfl] at hb
    rw [List.getD_eq_getElem?_getD, List.getElem?_set_eq_of_lt _ hb]
    rfl
  · have hp1 : 1 ≤ p := by omega
    rw [llAt, if_neg h0, entryAt_setLL_self i x hp1 hpn]
    simp only [Option.map_some', Option.getD_some]
    rw [llLen, if_neg h0, entryAt_of_le hp1 hpn] at hb
    simp only [Option.map_some', Option.getD_some] at hb
    rw [List.getD_eq_getElem?_getD, List.getElem?_set_eq_of_lt _ hb]
    rfl

theorem applyEdits_nil (s : ObjectStore) : applyEdits s [] = s := rfl

theorem applyEdits_cons (s : ObjectStore) (e : Nat × Nat × Int) (es : List (Nat × Nat × Int)) :
    applyEdits s (e :: es) = applyEdits (setLL s e.1 e.2.1 e.2.2) es := rfl

theorem applyEdits_entries_length (s : ObjectStore) (es : List (Nat × Nat × Int)) :
    (applyEdits s es).entries.length = s.entries.length := by
  induction es generalizing s with
  | nil => rfl
  | cons e es ih => rw [applyEdits_cons, ih, setLL_entries_length]

theorem applyEdits_level (s : ObjectStore) (es : List (Nat × Nat × Int)) :
    (applyEdits s es).level = s.level := by
  induction es generalizing s with
  | nil => rfl
  | cons e es ih => rw [applyEdits_cons, ih, setLL_level]

theorem applyEdits_num (s : ObjectStore) (es : List (Nat × Nat × Int)) :
    (applyEdits s es).num_entries = s.num_entries := by
  induction es generalizing s with
  | nil => rfl
  | cons e es ih => rw [applyEdits_cons, ih, setLL_num]

theorem applyEdits_headerLinks_length (s : ObjectStore) (es : List (Nat × Nat × Int)) :
    (applyEdits s es).headerLinks.length = s.headerLinks.length := by
  induction es generalizing s with
  | nil => rfl
  | cons e es ih => rw [applyEdits_cons, ih, setLL_headerLinks_length]

theorem heightAt_applyEdits (s : ObjectStore) (es : List (Nat × Nat × Int)) (r : Nat) :
    heightAt (applyEdits s es) r = heightAt s r := by
  induction es generalizing s with
  | nil => rfl
  | cons e es ih => rw [applyEdits_cons, ih, heightAt_setLL]

theorem valueAt_applyEdits (s : ObjectStore) (es : List (Nat × Nat × Int)) (r : Nat) :
    valueAt (applyEdits s es) r = valueAt s r := by
  induction es generalizing s with
  | nil => rfl
  | cons e es ih => rw [applyEdits_cons, ih, valueAt_setLL]

theorem objAt_applyEdits (s : ObjectStore) (es : List (Nat × Nat × Int)) (r : Nat) :
    objAt (applyEdits s es) r = objAt s r := by
  induction es generalizing s with
  | nil => rfl
  | cons e es ih => rw [applyEdits_cons, ih, objAt_setLL]

theorem llLen_applyEdits (s : ObjectStore) (es : List (Nat × Nat × Int)) (r : Nat) :
    llLen (applyEdits s es) r = llLen s r := by
  induction es generalizing s with
  | nil => rfl
  | cons e es ih => rw [applyEdits_cons, ih, llLen_setLL]

theorem fwdPos_applyEdits (s : ObjectStore) (es : List (Nat × Nat × Int)) (j r : Nat) :
    fwdPos (applyEdits s es) j r = fwdPos s j r :=
  fwdPos_congr (applyEdits_entries_length s es)
    (fun r2 _ _ => heightAt_applyEdits s es r2) j r

theorem llAt_applyEdits_not_mem {s : ObjectStore} {es : List (Nat × Nat × Int)} {p i : Nat}
    (h : ∀ e ∈ es, ¬ (e.1 = p ∧ e.2.1 = i)) :
    llAt (applyEdits s es) p i = llAt s p i := by
  induction es generalizing s with
  | nil => rfl
  | cons e es ih =>
    rw [applyEdits_cons, ih (fun e2 he2 => h e2 (List.mem_cons_of_mem _ he2))]
    exact llAt_setLL_other s e.1 e.2.1 e.2.2 (fun hc => h e (List.mem_cons_self _ _) ⟨hc.1.symm, hc.2.symm⟩)

theorem llAt_applyEdits_mem {s : ObjectStore} {es : List (Nat × Nat × Int)} {e : Nat × Nat × Int}
    (hmem : e ∈ es) (hpair : es.Pairwise (fun a b => a.2.1 ≠ b.2.1))
    (hpn : e.1 ≤ s.entries.length) (hb : e.2.1 < llLen s e.1) :
    llAt (applyEdits s es) e.1 e.2.1 = e.2.2 := by
  induction es generalizing s with
  | nil => exact absurd hmem (List.not_mem_nil _)
  | cons a es ih =>
    rw [applyEdits_cons]
    rcases List.mem_cons.mp hmem with rfl | htail
    · rw [llAt_applyEdits_not_mem (fun e2 he2 hc => (List.pairwise_cons.mp hpair).1 e2 he2 hc.2.symm)]
      exact llAt_setLL_self s e.2.2 hpn hb
    · refine ih htail (List.pairwise_cons.mp hpair).2 ?_ ?_
      · rw [setLL_entries_length]; exact hpn
      · rw [llLen_setLL]; exact hb

/-- Pointwise characterisation of sortedness. -/
theorem sorted_iff {s : ObjectStore} :
    Sorted s ↔
      ∀ r r2, 1 ≤ r → r < r2 → r2 ≤ s.entries.length → valueAt s r < valueAt s r2 := by
  constructor
  · intro hs r r2 h1 h2 h3
    exact sorted_lt hs h1 h2 h3
  · intro h
    rw [Sorted, List.chain'_iff_pairwise, List.pairwise_iff_getElem]
    intro a b ha hb hab
    have hlen : (keys s).length = s.entries.length := by simp [keys]
    have e1 : (keys s)[a] = valueAt s (a + 1) := by
      have := keys_getD (s := s) (r := a + 1) (by omega) (by omega)
      rw [List.getD_eq_getElem?_getD, List.getElem?_eq_getElem (by omega)] at this
      simpa using this
    have e2 : (keys s)[b] = valueAt s (b + 1) := by
      have := keys_getD (s := s) (r := b + 1) (by omega) (by omega)
      rw [List.getD_eq_getElem?_getD, List.getElem?_eq_getElem (by omega)] at this
      simpa using this
    rw [e1, e2]
    exact h (a + 1) (b + 1) (by omega) (by omega) (by omega)

theorem sorted_applyEdits {s : ObjectStore} (es : List (Nat × Nat × Int)) (hs : Sorted s) :
    Sorted (applyEdits s es) := by
  rw [sorted_iff]
  intro r r2 h1 h2 h3
  rw [valueAt_applyEdits, valueAt_applyEdits]
  rw [applyEdits_entries_length] at h3
  exact sorted_lt hs h1 h2 h3

/-! ## List index transfer for `insertIdx` and `eraseIdx` -/

theorem getElemQ_insertIdx {α : Type} :
    ∀ (k : Nat) (l : List α) (a : α) (i : Nat), k ≤ l.length →
      (l.insertIdx k a)[i]? =
        if i < k then l[i]? else if i = k then some a else l[i - 1]? := by
  intro k
  induction k with
  | zero =>
    intro l a i hk
    rw [List.insertIdx_zero]
    cases i with
    | zero => simp
    | succ i => simp
  | succ k ih =>
    intro l a i hk
    cases l with
    | nil => simp at hk
    | cons x l =>
      rw [List.insertIdx_succ_cons]
      cases i with
      | zero => simp
      | succ i =>
        simp only [List.getElem?_cons_succ]
        rw [ih l a i (by simp at hk; omega)]
        by_cases h1 : i < k
        · rw [if_pos h1, if_pos (show i + 1 < k + 1 by omega)]
        · by_cases h2 : i = k
          · rw [if_neg h1, if_pos h2, if_neg (show ¬ i + 1 < k + 1 by omega),
              if_pos (show i + 1 = k + 1 by omega)]
          · rw [if_neg h1, if_neg h2, if_neg (show ¬ i + 1 < k + 1 by omega),
              if_neg (show ¬ i + 1 = k + 1 by omega)]
            have h3 : i + 1 - 1 = (i - 1) + 1 := by omega
            rw [h3, List.getElem?_cons_succ]

theorem getElemQ_insertIdx_lt {α : Type} (l : List α) (k : Nat) (a : α) (i : Nat)
    (hk : k ≤ l.length) (hi : i < k) : (l.insertIdx k a)[i]? = l[i]? := by
  rw [getElemQ_insertIdx k l a i hk, if_pos hi]

theorem getElemQ_insertIdx_self {α : Type} (l : List α) (k : Nat) (a : α)
    (hk : k ≤ l.length) : (l.insertIdx k a)[k]? = some a := by
  rw [getElemQ_insertIdx k l a k hk, if_neg (by omega), if_pos rfl]

theorem getElemQ_insertIdx_gt {α : Type} (l : List α) (k : Nat) (a : α) (i : Nat)
    (hk : k ≤ l.length) (hi : k < i) : (l.insertIdx k a)[i]? = l[i - 1]? := by
  rw [getElemQ_insertIdx k l a i hk, if_neg (by omega), if_neg (by omega)]

theorem getElemQ_eraseIdx_lt {α : Type} (l : List α) (k : Nat) (i : Nat) (hi : i < k) :
    (l.eraseIdx k)[i]? = l[i]? := List.getElem?_eraseIdx_of_lt l k i hi

theorem getElemQ_eraseIdx_ge {α : Type} (l : List α) (k : Nat) (i : Nat) (hi : k ≤ i) :
    (l.eraseIdx k)[i]? = l[i + 1]? := List.getElem?_eraseIdx_of_ge l k i hi

/-! ## The representation invariant -/

/-- Invariant of every reachable store:  bounded level, towers below the
level, correctly sized `link_length` arrays, strictly sorted keys,
`num_entries` agreeing with the chain, spans of non-`NULL` links correct,
and a tower reaching the current level whenever it is positive. -/
structure Inv (s : ObjectStore) : Prop where
  hlen : s.headerLinks.length = MAX_LEVEL + 1
  levle : s.level ≤ MAX_LEVEL
  hle : ∀ r, 1 ≤ r → r ≤ s.entries.length → heightAt s r ≤ s.level
  lllen : ∀ r, 1 ≤ r → r ≤ s.entries.length → llLen s r = heightAt s r + 1
  sorted : Sorted s
  count : s.num_entries = (s.entries.length : Int)
  span : SpanOK s
  minimal : s.level ≠ 0 → ∃ r, 1 ≤ r ∧ r ≤ s.entries.length ∧ s.level ≤ heightAt s r

/-- The lengths of links to `NULL` also follow the span convention
(`num_entries + 1 - position`, i.e. counting the final link to the end). -/
def NullSpanOK (s : ObjectStore) : Prop :=
  ∀ p i, p ≤ s.entries.length → i ≤ heightAt s p → (p = 0 → i ≤ s.level) →
    fwdPos s i p = none → llAt s p i = s.num_entries + 1 - (p : Int)

/-- `NullSpanOK` up to the one anomaly of the freshly constructed store,
whose header links are zero-initialised rather than `1`. -/
def NullOK0 (s : ObjectStore) : Prop :=
  ∀ p i, p ≤ s.entries.length → i ≤ heightAt s p → (p = 0 → i ≤ s.level) →
    fwdPos s i p = none →
      llAt s p i = s.num_entries + 1 - (p : Int) ∨ s.entries = []

theorem nullSpanOK_to_nullOK0 {s : ObjectStore} (h : NullSpanOK s) : NullOK0 s :=
  fun p i h1 h2 h3 h4 => Or.inl (h p i h1 h2 h3 h4)

theorem nullSpanOK_of_ne_nil {s : ObjectStore} (h : NullOK0 s)
    (hne : s.entries ≠ []) : NullSpanOK s := by
  intro p i h1 h2 h3 h4
  rcases h p i h1 h2 h3 h4 with he | he
  · exact he
  · exact absurd he hne

theorem inv_emptyStore : Inv emptyStore := by
  refine ⟨by simp [emptyStore], by simp [emptyStore], ?_, ?_, ?_, rfl, ?_, ?_⟩
  · intro r h1 h2
    simp [emptyStore] at h2
    omega
  · intro r h1 h2
    simp [emptyStore] at h2
    omega
  · rw [Sorted]
    simp [keys, emptyStore]
  · intro p i q h1 h2 h3 hf
    obtain ⟨h4, h5, -, -⟩ := fwdPos_some hf
    simp [emptyStore] at h5
    omega
  · intro h
    simp [emptyStore] at h

theorem nullOK0_emptyStore : NullOK0 emptyStore := by
  intro p i h1 h2 h3 h4
  exact Or.inr rfl

/-! ## Shapes of the operation branches -/

/-- Overwriting branch of `insert` (lines 387-389): only `obj_ptr` changes. -/
theorem insert_found {s : ObjectStore} (hI : Inv s) {v : Int} (hmem : v ∈ keys s)
    (o : Nat) (lvl : Nat) :
    insert s v o lvl =
      { s with
        entries := s.entries.set (lastLt s 0 v)
          (let e := s.entries.getD (lastLt s 0 v) default
           { e with obj := o }) } := by
  obtain ⟨h1, h2⟩ := (found_iff hI.sorted).mp hmem
  rw [insert]
  have hup := updates_getD hI.sorted hI.span hI.levle v (Nat.zero_le s.level)
  simp only [hup]
  rw [fwdPos_zero h1]
  simp only [h2, if_pos rfl]
  rfl

/-- The new-node branch of `insert` applies with `update[0]` and
`skipped_positions` equal to the level-0 stopping position. -/
theorem insert_eq_insertNew {s : ObjectStore} (hI : Inv s) {v : Int} (hnm : v ∉ keys s)
    (o : Nat) (lvl : Nat) :
    insert s v o lvl =
      insertNew s v o lvl (updates s v) (lastLt s 0 v) ((lastLt s 0 v : Nat) : Int) := by
  rw [insert]
  have hup := updates_getD hI.sorted hI.span hI.levle v (Nat.zero_le s.level)
  simp only [hup]
  by_cases h1 : lastLt s 0 v < s.entries.length
  · rw [fwdPos_zero h1]
    have hne : ¬ valueAt s (lastLt s 0 v + 1) = v := fun he =>
      hnm ((found_iff hI.sorted).mpr ⟨h1, he⟩)
    simp only [hne, if_false]
  · rw [fwdPos_of_ge (by omega)]

/-- `erase` of an absent key is a no-op on the state (line 406 and the
fall-through of line 408). -/
theorem erase_of_not_mem {s : ObjectStore} (hI : Inv s) {v : Int} (hnm : v ∉ keys s) :
    erase s v = s := by
  rw [erase]
  have hup := updatesE_getD hI.sorted v (Nat.zero_le s.level)
  simp only [hup]
  by_cases h1 : lastLt s 0 v < s.entries.length
  · rw [fwdPos_zero h1]
    have hne : ¬ valueAt s (lastLt s 0 v + 1) = v := fun he =>
      hnm ((found_iff hI.sorted).mpr ⟨h1, he⟩)
    simp only [hne, if_false]
  · rw [fwdPos_of_ge (by omega)]

/-! ## The level-shrinking loop -/

theorem shrinkLevel_le (s : ObjectStore) (l : Nat) : shrinkLevel s l ≤ l := by
  induction l with
  | zero => simp [shrinkLevel]
  | succ l ih =>
    rw [shrinkLevel]
    cases fwdPos s (l + 1) 0 with
    | none => simp only []; omega
    | some q => exact le_refl _

theorem shrinkLevel_heights (s : ObjectStore) (l : Nat)
    (h : ∀ r, 1 ≤ r → r ≤ s.entries.length → heightAt s r ≤ l) :
    ∀ r, 1 ≤ r → r ≤ s.entries.length → heightAt s r ≤ shrinkLevel s l := by
  induction l with
  | zero => simpa [shrinkLevel] using h
  | succ l ih =>
    rw [shrinkLevel]
    cases hf : fwdPos s (l + 1) 0 with
    | none =>
      refine ih (fun r h1 h2 => ?_)
      have := fwdPos_none hf r (by omega) h2
      omega
    | some q => exact h

theorem shrinkLevel_minimal (s : ObjectStore) (l : Nat) :
    shrinkLevel s l ≠ 0 →
      ∃ r, 1 ≤ r ∧ r ≤ s.entries.length ∧ shrinkLevel s l ≤ heightAt s r := by
  induction l with
  | zero => simp [shrinkLevel]
  | succ l ih =>
    rw [shrinkLevel]
    cases hf : fwdPos s (l + 1) 0 with
    | none => exact ih
    | some q =>
      intro h
      obtain ⟨h1, h2, h3, -⟩ := fwdPos_some hf
      exact ⟨q, by omega, h2, h3⟩

/-! ## The new-node branch of `insert`, in resolved form -/

/-- The `link_length` write of `insert` at level `i` (lines 381 and 384). -/
def insEdit (s : ObjectStore) (v : Int) (lvl : Nat) (i : Nat) : Nat × Nat × Int :=
  let u := updAt (updates s v) s.level i
  if i ≤ lvl then (u.1, i, (((lastLt s 0 v : Nat) : Int) - u.2) + 1)
  else (u.1, i, llAt s u.1 i + 1)

/-- All `link_length` writes of the new-node branch of `insert`. -/
def insEdits (s : ObjectStore) (v : Int) (lvl : Nat) : List (Nat × Nat × Int) :=
  (List.range (max s.level lvl + 1)).map (insEdit s v lvl)

/-- The new node's `link_length` array (lines 371-378). -/
def insLL (s : ObjectStore) (v : Int) (lvl : Nat) : List Int :=
  (List.range (lvl + 1)).map (fun i =>
    let u := updAt (updates s v) s.level i
    match fwdPos s i u.1 with
    | none => s.num_entries + 1 - ((lastLt s 0 v : Nat) : Int)
    | some _ => llAt s u.1 i - (((lastLt s 0 v : Nat) : Int) - u.2))

/-- The state produced by the new-node branch of `insert`, with the descent
results substituted in. -/
def insRes (s : ObjectStore) (v : Int) (o : Nat) (lvl : Nat) : ObjectStore :=
  let t := applyEdits s (insEdits s v lvl)
  { t with
    entries := t.entries.insertIdx (lastLt s 0 v) ⟨v, o, lvl, insLL s v lvl⟩
    level := max s.level lvl
    num_entries := s.num_entries + 1 }

theorem insertNew_eq_insRes (s : ObjectStore) (v : Int) (o : Nat) (lvl : Nat) :
    insertNew s v o lvl (updates s v) (lastLt s 0 v) ((lastLt s 0 v : Nat) : Int) =
      insRes s v o lvl := rfl

theorem insert_eq_insRes {s : ObjectStore} (hI : Inv s) {v : Int} (hnm : v ∉ keys s)
    (o : Nat) (lvl : Nat) : insert s v o lvl = insRes s v o lvl := by
  rw [insert_eq_insertNew hI hnm, insertNew_eq_insRes]

/-! ## Transfer lemmas for `insRes` -/

theorem insRes_level (s : ObjectStore) (v : Int) (o : Nat) (lvl : Nat) :
    (insRes s v o lvl).level = max s.level lvl := rfl

theorem insRes_num (s : ObjectStore) (v : Int) (o : Nat) (lvl : Nat) :
    (insRes s v o lvl).num_entries = s.num_entries + 1 := rfl

theorem insRes_headerLinks_length (s : ObjectStore) (v : Int) (o : Nat) (lvl : Nat) :
    (insRes s v o lvl).headerLinks.length = s.headerLinks.length := by
  rw [insRes]
  exact applyEdits_headerLinks_length s _

theorem insRes_entries_length (s : ObjectStore) (v : Int) (o : Nat) (lvl : Nat) :
    (insRes s v o lvl).entries.length = s.entries.length + 1 := by
  rw [insRes]
  simp only []
  rw [List.length_insertIdx _ _ (by rw [applyEdits_entries_length]; exact lastLt_le 0 v),
    applyEdits_entries_length]

theorem entryAt_insRes_low (s : ObjectStore) (v : Int) (o : Nat) (lvl : Nat) {r : Nat}
    (h1 : 1 ≤ r) (h2 : r ≤ lastLt s 0 v) :
    entryAt (insRes s v o lvl) r = entryAt (applyEdits s (insEdits s v lvl)) r := by
  rw [insRes, entryAt, entryAt]
  simp only []
  exact getElemQ_insertIdx_lt _ _ _ _ (by rw [applyEdits_entries_length]; exact lastLt_le 0 v)
    (by omega)

theorem entryAt_insRes_mid (s : ObjectStore) (v : Int) (o : Nat) (lvl : Nat) :
    entryAt (insRes s v o lvl) (lastLt s 0 v + 1) = some ⟨v, o, lvl, insLL s v lvl⟩ := by
  rw [insRes, entryAt]
  simp only [Nat.add_sub_cancel]
  exact getElemQ_insertIdx_self _ _ _
    (by rw [applyEdits_entries_length]; exact lastLt_le 0 v)

theorem entryAt_insRes_high (s : ObjectStore) (v : Int) (o : Nat) (lvl : Nat) {r : Nat}
    (h1 : lastLt s 0 v + 2 ≤ r) :
    entryAt (insRes s v o lvl) r = entryAt (applyEdits s (insEdits s v lvl)) (r - 1) := by
  rw [insRes, entryAt, entryAt]
  simp only []
  rw [getElemQ_insertIdx_gt _ _ _ _
    (by rw [applyEdits_entries_length]; exact lastLt_le 0 v) (by omega)]

theorem heightAt_insRes_low (s : ObjectStore) (v : Int) (o : Nat) (lvl : Nat) {r : Nat}
    (h2 : r ≤ lastLt s 0 v) : heightAt (insRes s v o lvl) r = heightAt s r := by
  by_cases h0 : r = 0
  · subst h0; rw [heightAt_zero, heightAt_zero]
  · rw [heightAt, heightAt, if_neg h0, if_neg h0, entryAt_insRes_low s v o lvl (by omega) h2]
    have e1 := heightAt_applyEdits s (insEdits s v lvl) r
    rw [heightAt, heightAt, if_neg h0, if_neg h0] at e1
    exact e1

theorem heightAt_insRes_mid (s : ObjectStore) (v : Int) (o : Nat) (lvl : Nat) :
    heightAt (insRes s v o lvl) (lastLt s 0 v + 1) = lvl := by
  rw [heightAt, if_neg (by omega), entryAt_insRes_mid]
  rfl

theorem heightAt_insRes_high (s : ObjectStore) (v : Int) (o : Nat) (lvl : Nat) {r : Nat}
    (h1 : lastLt s 0 v + 2 ≤ r) :
    heightAt (insRes s v o lvl) r = heightAt s (r - 1) := by
  rw [heightAt, heightAt, if_neg (by omega), if_neg (by omega),
    entryAt_insRes_high s v o lvl h1]
  have e1 := heightAt_applyEdits s (insEdits s v lvl) (r - 1)
  rw [heightAt, heightAt, if_neg (by omega), if_neg (by omega)] at e1
  exact e1

theorem valueAt_insRes_low (s : ObjectStore) (v : Int) (o : Nat) (lvl : Nat) {r : Nat}
    (h2 : r ≤ lastLt s 0 v) : valueAt (insRes s v o lvl) r = valueAt s r := by
  by_cases h0 : r = 0
  · subst h0; rw [valueAt, valueAt, if_pos rfl, if_pos rfl]
  · rw [valueAt, valueAt, if_neg h0, if_neg h0, entryAt_insRes_low s v o lvl (by omega) h2]
    have e1 := valueAt_applyEdits s (insEdits s v lvl) r
    rw [valueAt, valueAt, if_neg h0, if_neg h0] at e1
    exact e1

theorem valueAt_insRes_mid (s : ObjectStore) (v : Int) (o : Nat) (lvl : Nat) :
    valueAt (insRes s v o lvl) (lastLt s 0 v + 1) = v := by
  rw [valueAt, if_neg (by omega), entryAt_insRes_mid]
  rfl

theorem valueAt_insRes_high (s : ObjectStore) (v : Int) (o : Nat) (lvl : Nat) {r : Nat}
    (h1 : lastLt s 0 v + 2 ≤ r) :
    valueAt (insRes s v o lvl) r = valueAt s (r - 1) := by
  rw [valueAt, valueAt, if_neg (by omega), if_neg (by omega),
    entryAt_insRes_high s v o lvl h1]
  have e1 := valueAt_applyEdits s (insEdits s v lvl) (r - 1)
  rw [valueAt, valueAt, if_neg (by omega), if_neg (by omega)] at e1
  exact e1

theorem objAt_insRes_low (s : ObjectStore) (v : Int) (o : Nat) (lvl : Nat) {r : Nat}
    (h2 : r ≤ lastLt s 0 v) : objAt (insRes s v o lvl) r = objAt s r := by
  by_cases h0 : r = 0
  · subst h0; rw [objAt, objAt, if_pos rfl, if_pos rfl]
  · rw [objAt, objAt, if_neg h0, if_neg h0, entryAt_insRes_low s v o lvl (by omega) h2]
    have e1 := objAt_applyEdits s (insEdits s v lvl) r
    rw [objAt, objAt, if_neg h0, if_neg h0] at e1
    exact e1

theorem objAt_insRes_mid (s : ObjectStore) (v : Int) (o : Nat) (lvl : Nat) :
    objAt (insRes s v o lvl) (lastLt s 0 v + 1) = o := by
  rw [objAt, if_neg (by omega), entryAt_insRes_mid]
  rfl

theorem objAt_insRes_high (s : ObjectStore) (v : Int) (o : Nat) (lvl : Nat) {r : Nat}
    (h1 : lastLt s 0 v + 2 ≤ r) :
    objAt (insRes s v o lvl) r = objAt s (r - 1) := by
  rw [objAt, objAt, if_neg (by omega), if_neg (by omega),
    entryAt_insRes_high s v o lvl h1]
  have e1 := objAt_applyEdits s (insEdits s v lvl) (r - 1)
  rw [objAt, objAt, if_neg (by omega), if_neg (by omega)] at e1
  exact e1

theorem llLen_insRes_low (s : ObjectStore) (v : Int) (o : Nat) (lvl : Nat) {r : Nat}
    (h2 : r ≤ lastLt s 0 v) : llLen (insRes s v o lvl) r = llLen s r := by
  by_cases h0 : r = 0
  · subst h0
    rw [llLen, llLen, if_pos rfl, if_pos rfl, insRes_headerLinks_length]
  · rw [llLen, llLen, if_neg h0, if_neg h0, entryAt_insRes_low s v o lvl (by omega) h2]
    have e1 := llLen_applyEdits s (insEdits s v lvl) r
    rw [llLen, llLen, if_neg h0, if_neg h0] at e1
    exact e1

theorem llLen_insRes_mid (s : ObjectStore) (v : Int) (o : Nat) (lvl : Nat) :
    llLen (insRes s v o lvl) (lastLt s 0 v + 1) = lvl + 1 := by
  rw [llLen, if_neg (by omega), entryAt_insRes_mid]
  simp [insLL]

theorem llLen_insRes_high (s : ObjectStore) (v : Int) (o : Nat) (lvl : Nat) {r : Nat}
    (h1 : lastLt s 0 v + 2 ≤ r) :
    llLen (insRes s v o lvl) r = llLen s (r - 1) := by
  rw [llLen, llLen, if_neg (by omega), if_neg (by omega),
    entryAt_insRes_high s v o lvl h1]
  have e1 := llLen_applyEdits s (insEdits s v lvl) (r - 1)
  rw [llLen, llLen, if_neg (by omega), if_neg (by omega)] at e1
  exact e1

theorem llAt_insRes_low (s : ObjectStore) (v : Int) (o : Nat) (lvl : Nat) {r : Nat}
    (h2 : r ≤ lastLt s 0 v) (i : Nat) :
    llAt (insRes s v o lvl) r i = llAt (applyEdits s (insEdits s v lvl)) r i := by
  by_cases h0 : r = 0
  · subst h0
    rw [llAt, llAt, if_pos rfl, if_pos rfl]
    rfl
  · rw [llAt, llAt, if_neg h0, if_neg h0, entryAt_insRes_low s v o lvl (by omega) h2]

theorem llAt_insRes_mid (s : ObjectStore) (v : Int) (o : Nat) (lvl : Nat) (i : Nat) :
    llAt (insRes s v o lvl) (lastLt s 0 v + 1) i = (insLL s v lvl).getD i 0 := by
  rw [llAt, if_neg (by omega), entryAt_insRes_mid]
  rfl

theorem llAt_insRes_high (s : ObjectStore) (v : Int) (o : Nat) (lvl : Nat) {r : Nat}
    (h1 : lastLt s 0 v + 2 ≤ r) (i : Nat) :
    llAt (insRes s v o lvl) r i = llAt (applyEdits s (insEdits s v lvl)) (r - 1) i := by
  rw [llAt, llAt, if_neg (by omega), if_neg (by omega),
    entryAt_insRes_high s v o lvl h1]

/-! ## The update positions and the edit values -/

theorem fwd_above_level {s : ObjectStore} (hI : Inv s) {i : Nat} (hi : s.level < i)
    (p : Nat) : fwdPos s i p = none := by
  rw [fwdPos_eq_none_iff]
  intro r h1 h2
  have := hI.hle r (by omega) h2
  omega

/-- `update[i]` and `update[0]` have the same level-`i` forward pointer:
all towers strictly between them stay below level `i`. -/
theorem fwd_at_update {s : ObjectStore} (hI : Inv s) {v : Int} {i : Nat}
    (hi : i ≤ s.level) :
    fwdPos s i (lastLt s i v) = fwdPos s i (lastLt s 0 v) := by
  have hmono : lastLt s i v ≤ lastLt s 0 v := lastLt_mono v (Nat.zero_le i)
  cases hf : fwdPos s i (lastLt s 0 v) with
  | none =>
    rw [fwdPos_eq_none_iff]
    intro r h1 h2
    by_cases hr : r ≤ lastLt s 0 v
    · exact height_lt_between hI.sorted h1 hr
    · exact fwdPos_none hf r (by omega) h2
  | some q =>
    obtain ⟨hq1, hq2, hq3, hq4⟩ := fwdPos_some hf
    rw [fwdPos_eq_some_iff]
    refine ⟨by omega, hq2, hq3, fun r h1 h2 => ?_⟩
    by_cases hr : r ≤ lastLt s 0 v
    · exact height_lt_between hI.sorted h1 hr
    · exact hq4 r (by omega) h2

theorem updAt_fst {s : ObjectStore} (hI : Inv s) (v : Int) {i : Nat} (hi : i ≤ s.level) :
    (updAt (updates s v) s.level i).1 = lastLt s i v := by
  rw [updates_getD hI.sorted hI.span hI.levle v hi]

theorem updAt_snd_eq_fst {s : ObjectStore} (hI : Inv s) (v : Int) (i : Nat) :
    (updAt (updates s v) s.level i).2 = ((updAt (updates s v) s.level i).1 : Int) := by
  by_cases hi : i ≤ s.level
  · rw [updates_getD hI.sorted hI.span hI.levle v hi]
  · rw [updAt_above (by omega)]
    rfl

theorem updAt_le_u0 {s : ObjectStore} (hI : Inv s) (v : Int) (i : Nat) :
    (updAt (updates s v) s.level i).1 ≤ lastLt s 0 v := by
  by_cases hi : i ≤ s.level
  · rw [updAt_fst hI v hi]
    exact lastLt_mono v (Nat.zero_le i)
  · rw [updAt_above (by omega)]
    exact Nat.zero_le _

theorem updAt_len {s : ObjectStore} (hI : Inv s) (v : Int) (i : Nat) :
    (updAt (updates s v) s.level i).1 ≤ s.entries.length :=
  le_trans (updAt_le_u0 hI v i) (lastLt_le 0 v)

theorem updAt_height {s : ObjectStore} (hI : Inv s) (v : Int) {i : Nat}
    (hiM : i ≤ MAX_LEVEL) : i ≤ heightAt s (updAt (updates s v) s.level i).1 := by
  by_cases hi : i ≤ s.level
  · rw [updAt_fst hI v hi]
    by_cases h0 : lastLt s i v = 0
    · rw [h0, heightAt_zero]
      exact hiM
    · exact (lastLt_pred h0).1
  · rw [updAt_above (by omega)]
    show i ≤ heightAt s 0
    rw [heightAt_zero]
    exact hiM

theorem updAt_llb {s : ObjectStore} (hI : Inv s) (v : Int) {i : Nat}
    (hiM : i ≤ MAX_LEVEL) : i < llLen s (updAt (updates s v) s.level i).1 := by
  by_cases h0 : (updAt (updates s v) s.level i).1 = 0
  · rw [h0, llLen, if_pos rfl, hI.hlen]
    omega
  · have h2 := updAt_len hI v i
    rw [hI.lllen _ (by omega) h2]
    have h3 := updAt_height hI v (i := i) hiM
    omega

theorem insEdit_level (s : ObjectStore) (v : Int) (lvl i : Nat) :
    (insEdit s v lvl i).2.1 = i := by
  rw [insEdit]
  split <;> rfl

theorem insEdit_pos (s : ObjectStore) (v : Int) (lvl i : Nat) :
    (insEdit s v lvl i).1 = (updAt (updates s v) s.level i).1 := by
  rw [insEdit]
  split <;> rfl

theorem insEdit_val_le (s : ObjectStore) (v : Int) {lvl i : Nat} (hi : i ≤ lvl) :
    (insEdit s v lvl i).2.2 =
      (((lastLt s 0 v : Nat) : Int) - (updAt (updates s v) s.level i).2) + 1 := by
  rw [insEdit, if_pos hi]

theorem insEdit_val_gt (s : ObjectStore) (v : Int) {lvl i : Nat} (hi : lvl < i) :
    (insEdit s v lvl i).2.2 =
      llAt s (updAt (updates s v) s.level i).1 i + 1 := by
  rw [insEdit, if_neg (show ¬ i ≤ lvl by omega)]

theorem insEdits_pairwise (s : ObjectStore) (v : Int) (lvl : Nat) :
    (insEdits s v lvl).Pairwise (fun a b => a.2.1 ≠ b.2.1) := by
  rw [insEdits, List.pairwise_map]
  refine List.Pairwise.imp ?_ (List.pairwise_lt_range _)
  intro a b hab
  rw [insEdit_level, insEdit_level]
  omega

theorem insEdit_mem (s : ObjectStore) (v : Int) (lvl : Nat) {i : Nat}
    (hi : i ≤ max s.level lvl) : insEdit s v lvl i ∈ insEdits s v lvl := by
  rw [insEdits]
  exact List.mem_map_of_mem _ (List.mem_range.mpr (by omega))

theorem insEdits_mem_level {s : ObjectStore} {v : Int} {lvl : Nat} {e : Nat × Nat × Int}
    (he : e ∈ insEdits s v lvl) :
    ∃ i, i ≤ max s.level lvl ∧ e = insEdit s v lvl i := by
  rw [insEdits] at he
  obtain ⟨i, hi, rfl⟩ := List.mem_map.mp he
  have := List.mem_range.mp hi
  exact ⟨i, by omega, rfl⟩

theorem llAt_insT_untouched (s : ObjectStore) (v : Int) (lvl : Nat) {p i : Nat}
    (h : max s.level lvl < i ∨ p ≠ (updAt (updates s v) s.level i).1) :
    llAt (applyEdits s (insEdits s v lvl)) p i = llAt s p i := by
  apply llAt_applyEdits_not_mem
  intro e he hc
  obtain ⟨j, hj, rfl⟩ := insEdits_mem_level he
  rw [insEdit_level] at hc
  have hji : j = i := hc.2
  subst hji
  rw [insEdit_pos] at hc
  rcases h with h | h
  · omega
  · exact h hc.1.symm

theorem llAt_insT_target {s : ObjectStore} (hI : Inv s) (v : Int) {lvl i : Nat}
    (hlvl : lvl ≤ MAX_LEVEL) (hi : i ≤ max s.level lvl) :
    llAt (applyEdits s (insEdits s v lvl)) (updAt (updates s v) s.level i).1 i =
      (insEdit s v lvl i).2.2 := by
  have hiM : i ≤ MAX_LEVEL := by
    have := hI.levle
    omega
  have h := llAt_applyEdits_mem (insEdit_mem s v lvl hi) (insEdits_pairwise s v lvl)
    (by rw [insEdit_pos]; exact updAt_len hI v i)
    (by rw [insEdit_pos, insEdit_level]; exact updAt_llb hI v hiM)
  rw [insEdit_pos, insEdit_level] at h
  exact h

theorem insLL_getD (s : ObjectStore) (v : Int) {lvl i : Nat} (hi : i ≤ lvl) :
    (insLL s v lvl).getD i 0 =
      match fwdPos s i (updAt (updates s v) s.level i).1 with
      | none => s.num_entries + 1 - ((lastLt s 0 v : Nat) : Int)
      | some _ =>
        llAt s (updAt (updates s v) s.level i).1 i -
          (((lastLt s 0 v : Nat) : Int) - (updAt (updates s v) s.level i).2) := by
  rw [insLL, List.getD_eq_getElem?_getD, List.getElem?_map,
    List.getElem?_range (show i < lvl + 1 by omega)]
  rfl

/-- Resolved value of the new node's `link_length[i]`: the span from the new
node's position to the next level-`i` tower (or to the end). -/
theorem insLL_getD_spec {s : ObjectStore} (hI : Inv s) (v : Int) {lvl i : Nat}
    (hi : i ≤ lvl) (hlvl : lvl ≤ MAX_LEVEL) :
    (insLL s v lvl).getD i 0 =
      match fwdPos s i (lastLt s 0 v) with
      | none => (s.entries.length : Int) + 1 - ((lastLt s 0 v : Nat) : Int)
      | some q => (q : Int) - ((lastLt s 0 v : Nat) : Int) := by
  rw [insLL_getD s v hi]
  by_cases hil : i ≤ s.level
  · rw [updAt_fst hI v hil, updates_getD hI.sorted hI.span hI.levle v hil]
    rw [fwd_at_update hI hil]
    cases hf : fwdPos s i (lastLt s 0 v) with
    | none =>
      simp only []
      rw [hI.count]
    | some q =>
      simp only []
      have hsp : llAt s (lastLt s i v) i = (q : Int) - (lastLt s i v : Nat) := by
        apply hI.span _ _ _ (lastLt_le i v) _ _ (by rw [fwd_at_update hI hil]; exact hf)
        · by_cases h0 : lastLt s i v = 0
          · rw [h0, heightAt_zero]
            have := hI.levle
            omega
          · exact (lastLt_pred h0).1
        · intro h0
          exact hil
      rw [hsp]
      ring
  · rw [updAt_above (by omega)]
    show (match fwdPos s i 0 with
      | none => s.num_entries + 1 - ((lastLt s 0 v : Nat) : Int)
      | some _ => llAt s 0 i - (((lastLt s 0 v : Nat) : Int) - (0 : Int))) = _
    rw [fwd_above_level hI (by omega) 0, fwd_above_level hI (by omega) (lastLt s 0 v)]
    simp only []
    rw [hI.count]

/-! ## Span correctness after the new-node branch of `insert` -/

/-- Combined span statement for one slot of the new store. -/
def SpanAt (s : ObjectStore) (p i : Nat) : Prop :=
  (∀ q, fwdPos s i p = some q → llAt s p i = (q : Int) - (p : Int)) ∧
    (fwdPos s i p = none → llAt s p i = s.num_entries + 1 - (p : Int))

/-- Span correctness of the relinked predecessor slots (the positions
`update[i]`, whose level-`i` link now reaches the new node or jumps over
it). -/
theorem span_insRes_edited {s : ObjectStore} (hI : Inv s) (h0 : NullOK0 s) {v : Int}
    (hnm : v ∉ keys s) (o : Nat) {lvl : Nat} (hlvl : lvl ≤ MAX_LEVEL) {p i : Nat}
    (hp : p ≤ lastLt s 0 v) (hh : i ≤ heightAt s p)
    (hbig : ∀ q, fwdPos s i p = some q → lastLt s 0 v < q)
    (hplev : p = 0 → i ≤ max s.level lvl) :
    SpanAt (insRes s v o lvl) p i := by
  have hu0n : lastLt s 0 v ≤ s.entries.length := lastLt_le 0 v
  have hnum' : (insRes s v o lvl).num_entries = (s.entries.length : Int) + 1 := by
    rw [insRes_num, hI.count]
  have hbeta : ∀ r, p < r → r ≤ lastLt s 0 v → heightAt s r < i := by
    by_cases hiL : i ≤ s.level
    · have hp_eq : p = lastLt s i v := spanner_eq hI.sorted hp hh hbig
      intro r h1 h2
      exact height_lt_between hI.sorted (by omega) h2
    · intro r h1 h2
      have := hI.hle r (by omega) (by omega)
      omega
  have hpU : p = (updAt (updates s v) s.level i).1 := by
    by_cases hiL : i ≤ s.level
    · rw [updAt_fst hI v hiL]
      exact spanner_eq hI.sorted hp hh hbig
    · rw [updAt_above (by omega)]
      by_contra hne
      have := hI.hle p (by omega) (le_trans hp hu0n)
      omega
  have hgtL : lvl < i → i ≤ s.level := by
    intro hgt
    by_contra hiL
    have hp0 : p = 0 := by
      by_contra hne
      have := hI.hle p (by omega) (le_trans hp hu0n)
      omega
    have := hplev hp0
    omega
  have hiMax : i ≤ max s.level lvl := by
    by_cases hiL : i ≤ s.level
    · omega
    · have hp0 : p = 0 := by
        by_contra hne
        have := hI.hle p (by omega) (le_trans hp hu0n)
        omega
      exact hplev hp0
  by_cases hile : i ≤ lvl
  · -- the link is relinked onto the new node (line 381)
    have hval : llAt (insRes s v o lvl) p i = ((lastLt s 0 v : Nat) : Int) - (p : Int) + 1 := by
      rw [llAt_insRes_low s v o lvl hp i, hpU,
        llAt_insT_target hI v hlvl hiMax, insEdit_val_le s v hile,
        updAt_snd_eq_fst hI v i, ← hpU]
    have hfw : fwdPos (insRes s v o lvl) i p = some (lastLt s 0 v + 1) := by
      rw [fwdPos_eq_some_iff]
      refine ⟨by omega, by rw [insRes_entries_length]; omega, ?_, fun r h1 h2 => ?_⟩
      · rw [heightAt_insRes_mid]
        exact hile
      · rw [heightAt_insRes_low s v o lvl (by omega)]
        exact hbeta r h1 (by omega)
    constructor
    · intro q' hq'
      rw [hfw] at hq'
      have hq'' := Option.some.inj hq'
      rw [← hq'', hval]
      push_cast
      ring
    · intro hq'
      rw [hfw] at hq'
      exact Option.noConfusion hq'
  · -- the link jumps over the new node and its length grows by one (line 384)
    have hiL : i ≤ s.level := hgtL (by omega)
    have hp_eq : p = lastLt s i v := spanner_eq hI.sorted hp hh hbig
    have hval : llAt (insRes s v o lvl) p i = llAt s p i + 1 := by
      rw [llAt_insRes_low s v o lvl hp i, hpU,
        llAt_insT_target hI v hlvl hiMax, insEdit_val_gt s v (by omega), ← hpU]
    cases hfo : fwdPos s i p with
    | some q =>
      obtain ⟨hq1, hq2, hq3, hq4⟩ := fwdPos_some hfo
      have hqu : lastLt s 0 v < q := hbig q hfo
      have hsp : llAt s p i = (q : Int) - (p : Int) :=
        hI.span p i q (le_trans hp hu0n) hh (fun _ => hiL) hfo
      have hfw : fwdPos (insRes s v o lvl) i p = some (q + 1) := by
        rw [fwdPos_eq_some_iff]
        refine ⟨by omega, by rw [insRes_entries_length]; omega, ?_, fun r h1 h2 => ?_⟩
        · rw [heightAt_insRes_high s v o lvl (by omega)]
          simpa using hq3
        · rcases lt_trichotomy r (lastLt s 0 v + 1) with hr | hr | hr
          · rw [heightAt_insRes_low s v o lvl (by omega)]
            exact hbeta r h1 (by omega)
          · rw [hr, heightAt_insRes_mid]
            omega
          · rw [heightAt_insRes_high s v o lvl (by omega)]
            exact hq4 (r - 1) (by omega) (by omega)
      constructor
      · intro q' hq'
        rw [hfw] at hq'
        have hq'' := Option.some.inj hq'
        rw [← hq'', hval, hsp]
        push_cast
        ring
      · intro hq'
        rw [hfw] at hq'
        exact Option.noConfusion hq'
    | none =>
      have hne : s.entries ≠ [] := by
        intro habs
        have hn0 : s.entries.length = 0 := by rw [habs]; rfl
        have hL1 : s.level ≠ 0 := by omega
        obtain ⟨r, hr1, hr2, -⟩ := hI.minimal hL1
        omega
      have hsp : llAt s p i = s.num_entries + 1 - (p : Int) := by
        rcases h0 p i (le_trans hp hu0n) hh (fun _ => hiL) hfo with h | h
        · exact h
        · exact absurd h hne
      have hfw : fwdPos (insRes s v o lvl) i p = none := by
        rw [fwdPos_eq_none_iff]
        intro r h1 h2
        rw [insRes_entries_length] at h2
        rcases lt_trichotomy r (lastLt s 0 v + 1) with hr | hr | hr
        · rw [heightAt_insRes_low s v o lvl (by omega)]
          exact hbeta r h1 (by omega)
        · rw [hr, heightAt_insRes_mid]
          omega
        · rw [heightAt_insRes_high s v o lvl (by omega)]
          exact fwdPos_none hfo (r - 1) (by omega) (by omega)
      constructor
      · intro q' hq'
        rw [hfw] at hq'
        exact Option.noConfusion hq'
      · intro hq'
        rw [hval, hsp, hnum', hI.count]
        ring

/-- All spans (including the lengths of links to `NULL`) are correct after
the new-node branch of `insert`. -/
theorem span_insRes {s : ObjectStore} (hI : Inv s) (h0 : NullOK0 s) {v : Int}
    (hnm : v ∉ keys s) (o : Nat) {lvl : Nat} (hlvl : lvl ≤ MAX_LEVEL) :
    SpanOK (insRes s v o lvl) ∧ NullSpanOK (insRes s v o lvl) := by
  have hu0n : lastLt s 0 v ≤ s.entries.length := lastLt_le 0 v
  have hnum' : (insRes s v o lvl).num_entries = (s.entries.length : Int) + 1 := by
    rw [insRes_num, hI.count]
  have main : ∀ p i, p ≤ s.entries.length + 1 → i ≤ heightAt (insRes s v o lvl) p →
      (p = 0 → i ≤ max s.level lvl) → SpanAt (insRes s v o lvl) p i := by
    intro p i hp hh hplev
    rcases lt_trichotomy p (lastLt s 0 v + 1) with hplow | hpmid | hphigh
    · -- before the new node
      have hp' : p ≤ lastLt s 0 v := by omega
      rw [heightAt_insRes_low s v o lvl hp'] at hh
      cases hfo : fwdPos s i p with
      | some q =>
        obtain ⟨hq1, hq2, hq3, hq4⟩ := fwdPos_some hfo
        have hiL : i ≤ s.level := le_trans hq3 (hI.hle q (by omega) hq2)
        by_cases hqu : q ≤ lastLt s 0 v
        · -- the link stays inside the prefix: untouched
          have hne : p ≠ (updAt (updates s v) s.level i).1 := by
            intro he
            rw [updAt_fst hI v hiL] at he
            have hcmp := fwd_at_update hI (v := v) hiL
            rw [← he, hfo] at hcmp
            cases hfu : fwdPos s i (lastLt s 0 v) with
            | none => rw [hfu] at hcmp; exact Option.noConfusion hcmp
            | some q2 =>
              rw [hfu] at hcmp
              obtain ⟨hq21, -, -, -⟩ := fwdPos_some hfu
              have := Option.some.inj hcmp
              omega
          have hll : llAt (insRes s v o lvl) p i = llAt s p i := by
            rw [llAt_insRes_low s v o lvl hp' i, llAt_insT_untouched s v lvl (Or.inr hne)]
          have hfw : fwdPos (insRes s v o lvl) i p = some q := by
            rw [fwdPos_eq_some_iff]
            refine ⟨hq1, by rw [insRes_entries_length]; omega, ?_, fun r hr1 hr2 => ?_⟩
            · rw [heightAt_insRes_low s v o lvl (by omega)]
              exact hq3
            · rw [heightAt_insRes_low s v o lvl (by omega)]
              exact hq4 r hr1 hr2
          constructor
          · intro q' hq'
            rw [hfw] at hq'
            rw [← Option.some.inj hq', hll]
            exact hI.span p i q (by omega) hh (fun _ => hiL) hfo
          · intro hq'
            rw [hfw] at hq'
            exact Option.noConfusion hq'
        · -- the link jumps past `update[0]`: this is a relinked slot
          exact span_insRes_edited hI h0 hnm o hlvl hp' hh
            (fun q' hq' => by rw [hfo] at hq'; rw [← Option.some.inj hq']; omega) hplev
      | none =>
        exact span_insRes_edited hI h0 hnm o hlvl hp' hh
          (fun q' hq' => by rw [hfo] at hq'; exact Option.noConfusion hq') hplev
    · -- the new node itself
      subst hpmid
      rw [heightAt_insRes_mid] at hh
      have hllmid := llAt_insRes_mid s v o lvl i
      rw [insLL_getD_spec hI v hh hlvl] at hllmid
      cases hfu : fwdPos s i (lastLt s 0 v) with
      | some q =>
        obtain ⟨hq1, hq2, hq3, hq4⟩ := fwdPos_some hfu
        rw [hfu] at hllmid
        have hfw : fwdPos (insRes s v o lvl) i (lastLt s 0 v + 1) = some (q + 1) := by
          rw [fwdPos_eq_some_iff]
          refine ⟨by omega, by rw [insRes_entries_length]; omega, ?_, fun r hr1 hr2 => ?_⟩
          · rw [heightAt_insRes_high s v o lvl (by omega)]
            simpa using hq3
          · rw [heightAt_insRes_high s v o lvl (by omega)]
            exact hq4 (r - 1) (by omega) (by omega)
        constructor
        · intro q' hq'
          rw [hfw] at hq'
          rw [← Option.some.inj hq', hllmid]
          push_cast
          ring
        · intro hq'
          rw [hfw] at hq'
          exact Option.noConfusion hq'
      | none =>
        rw [hfu] at hllmid
        have hfw : fwdPos (insRes s v o lvl) i (lastLt s 0 v + 1) = none := by
          rw [fwdPos_eq_none_iff]
          intro r h1 h2
          rw [insRes_entries_length] at h2
          rw [heightAt_insRes_high s v o lvl (by omega)]
          exact fwdPos_none hfu (r - 1) (by omega) (by omega)
        constructor
        · intro q' hq'
          rw [hfw] at hq'
          exact Option.noConfusion hq'
        · intro hq'
          rw [hllmid, hnum']
          push_cast
          ring
    · -- after the new node: everything is shifted by one
      have hp2 : lastLt s 0 v + 2 ≤ p := by omega
      rw [heightAt_insRes_high s v o lvl hp2] at hh
      have hll : llAt (insRes s v o lvl) p i = llAt s (p - 1) i := by
        rw [llAt_insRes_high s v o lvl hp2 i]
        apply llAt_insT_untouched
        refine Or.inr ?_
        have := updAt_le_u0 hI v i
        omega
      cases hfo : fwdPos s i (p - 1) with
      | some q =>
        obtain ⟨hq1, hq2, hq3, hq4⟩ := fwdPos_some hfo
        have hsp : llAt s (p - 1) i = (q : Int) - ((p - 1 : Nat) : Int) :=
          hI.span (p - 1) i q (by omega) hh (fun h => by omega) hfo
        have hfw : fwdPos (insRes s v o lvl) i p = some (q + 1) := by
          rw [fwdPos_eq_some_iff]
          refine ⟨by omega, by rw [insRes_entries_length]; omega, ?_, fun r hr1 hr2 => ?_⟩
          · rw [heightAt_insRes_high s v o lvl (by omega)]
            simpa using hq3
          · rw [heightAt_insRes_high s v o lvl (by omega)]
            exact hq4 (r - 1) (by omega) (by omega)
        constructor
        · intro q' hq'
          rw [hfw] at hq'
          rw [← Option.some.inj hq', hll, hsp]
          push_cast
          omega
        · intro hq'
          rw [hfw] at hq'
          exact Option.noConfusion hq'
      | none =>
        have hne : s.entries ≠ [] := by
          intro habs
          have : s.entries.length = 0 := by rw [habs]; rfl
          omega
        have hsp : llAt s (p - 1) i = s.num_entries + 1 - ((p - 1 : Nat) : Int) := by
          rcases h0 (p - 1) i (by omega) hh (fun h => by omega) hfo with h | h
          · exact h
          · exact absurd h hne
        have hfw : fwdPos (insRes s v o lvl) i p = none := by
          rw [fwdPos_eq_none_iff]
          intro r h1 h2
          rw [insRes_entries_length] at h2
          rw [heightAt_insRes_high s v o lvl (by omega)]
          exact fwdPos_none hfo (r - 1) (by omega) (by omega)
        constructor
        · intro q' hq'
          rw [hfw] at hq'
          exact Option.noConfusion hq'
        · intro hq'
          rw [hll, hsp, hI.count]
          push_cast
          omega
  constructor
  · intro p i q h1 h2 h3 hf
    rw [insRes_entries_length] at h1
    rw [insRes_level] at h3
    exact (main p i h1 h2 h3).1 q hf
  · intro p i h1 h2 h3 hf
    rw [insRes_entries_length] at h1
    rw [insRes_level] at h3
    exact (main p i h1 h2 h3).2 hf

theorem gt_at_succ_of_not_mem {s : ObjectStore} (hs : Sorted s) {v : Int}
    (hnm : v ∉ keys s) (h : lastLt s 0 v < s.entries.length) :
    v < valueAt s (lastLt s 0 v + 1) := by
  have h1 := ge_at_lastLt_zero_succ h
  rcases lt_or_eq_of_le h1 with h2 | h2
  · exact h2
  · exact absurd ((found_iff hs).mpr ⟨h, h2.symm⟩) hnm

theorem gt_after_u0 {s : ObjectStore} (hs : Sorted s) {v : Int} (hnm : v ∉ keys s)
    {r : Nat} (h1 : lastLt s 0 v + 1 ≤ r) (h2 : r ≤ s.entries.length) :
    v < valueAt s r := by
  have hbase := gt_at_succ_of_not_mem hs hnm (by omega)
  rcases Nat.eq_or_lt_of_le h1 with he | hlt
  · rw [← he]
    exact hbase
  · exact lt_trans hbase (sorted_lt hs (by omega) hlt h2)

theorem sorted_insRes {s : ObjectStore} (hI : Inv s) {v : Int} (hnm : v ∉ keys s)
    (o : Nat) (lvl : Nat) : Sorted (insRes s v o lvl) := by
  have hu0n : lastLt s 0 v ≤ s.entries.length := lastLt_le 0 v
  rw [sorted_iff]
  intro r r2 h1 h2 h3
  rw [insRes_entries_length] at h3
  rcases lt_trichotomy r2 (lastLt s 0 v + 1) with hB | hB | hB
  · rw [valueAt_insRes_low s v o lvl (by omega), valueAt_insRes_low s v o lvl (by omega)]
    exact sorted_lt hI.sorted h1 h2 (by omega)
  · subst hB
    rw [valueAt_insRes_low s v o lvl (by omega), valueAt_insRes_mid]
    exact lt_of_le_lastLt_zero hI.sorted h1 (by omega)
  · rw [valueAt_insRes_high s v o lvl (show lastLt s 0 v + 2 ≤ r2 by omega)]
    rcases lt_trichotomy r (lastLt s 0 v + 1) with hA | hA | hA
    · rw [valueAt_insRes_low s v o lvl (by omega)]
      exact sorted_lt hI.sorted h1 (by omega) (by omega)
    · subst hA
      rw [valueAt_insRes_mid]
      exact gt_after_u0 hI.sorted hnm (by omega) (by omega)
    · rw [valueAt_insRes_high s v o lvl (by omega)]
      exact sorted_lt hI.sorted (by omega) (by omega) (by omega)

theorem inv_insRes {s : ObjectStore} (hI : Inv s) (h0 : NullOK0 s) {v : Int}
    (hnm : v ∉ keys s) (o : Nat) {lvl : Nat} (hlvl : lvl ≤ MAX_LEVEL) :
    Inv (insRes s v o lvl) ∧ NullSpanOK (insRes s v o lvl) := by
  have hu0n : lastLt s 0 v ≤ s.entries.length := lastLt_le 0 v
  obtain ⟨hsp, hnsp⟩ := span_insRes hI h0 hnm o hlvl
  refine ⟨⟨?_, ?_, ?_, ?_, sorted_insRes hI hnm o lvl, ?_, hsp, ?_⟩, hnsp⟩
  · rw [insRes_headerLinks_length]
    exact hI.hlen
  · rw [insRes_level]
    have := hI.levle
    omega
  · intro r h1 h2
    rw [insRes_entries_length] at h2
    rw [insRes_level]
    rcases lt_trichotomy r (lastLt s 0 v + 1) with h | h | h
    · rw [heightAt_insRes_low s v o lvl (by omega)]
      have := hI.hle r h1 (by omega)
      omega
    · rw [h, heightAt_insRes_mid]
      omega
    · rw [heightAt_insRes_high s v o lvl (by omega)]
      have := hI.hle (r - 1) (by omega) (by omega)
      omega
  · intro r h1 h2
    rw [insRes_entries_length] at h2
    rcases lt_trichotomy r (lastLt s 0 v + 1) with h | h | h
    · rw [llLen_insRes_low s v o lvl (by omega), heightAt_insRes_low s v o lvl (by omega)]
      exact hI.lllen r h1 (by omega)
    · rw [h, llLen_insRes_mid, heightAt_insRes_mid]
    · rw [llLen_insRes_high s v o lvl (by omega), heightAt_insRes_high s v o lvl (by omega)]
      exact hI.lllen (r - 1) (by omega) (by omega)
  · rw [insRes_num, insRes_entries_length, hI.count]
    push_cast
    ring
  · intro hNL
    rw [insRes_level] at hNL ⊢
    by_cases hLl : s.level ≤ lvl
    · refine ⟨lastLt s 0 v + 1, by omega, by rw [insRes_entries_length]; omega, ?_⟩
      rw [heightAt_insRes_mid]
      omega
    · have hL0 : s.level ≠ 0 := by omega
      obtain ⟨r, hr1, hr2, hr3⟩ := hI.minimal hL0
      by_cases hru : r ≤ lastLt s 0 v
      · refine ⟨r, hr1, by rw [insRes_entries_length]; omega, ?_⟩
        rw [heightAt_insRes_low s v o lvl hru]
        omega
      · refine ⟨r + 1, by omega, by rw [insRes_entries_length]; omega, ?_⟩
        rw [heightAt_insRes_high s v o lvl (by omega)]
        simp only [Nat.add_sub_cancel]
        omega

/-! ## The overwriting branch of `insert` changes only the handle -/

theorem insert_found_entries_length {s : ObjectStore} (hI : Inv s) {v : Int}
    (hmem : v ∈ keys s) (o : Nat) (lvl : Nat) :
    (insert s v o lvl).entries.length = s.entries.length := by
  rw [insert_found hI hmem o lvl]
  simp

theorem insert_found_level {s : ObjectStore} (hI : Inv s) {v : Int}
    (hmem : v ∈ keys s) (o : Nat) (lvl : Nat) :
    (insert s v o lvl).level = s.level := by
  rw [insert_found hI hmem o lvl]

theorem insert_found_num {s : ObjectStore} (hI : Inv s) {v : Int}
    (hmem : v ∈ keys s) (o : Nat) (lvl : Nat) :
    (insert s v o lvl).num_entries = s.num_entries := by
  rw [insert_found hI hmem o lvl]

theorem insert_found_headerLinks {s : ObjectStore} (hI : Inv s) {v : Int}
    (hmem : v ∈ keys s) (o : Nat) (lvl : Nat) :
    (insert s v o lvl).headerLinks = s.headerLinks := by
  rw [insert_found hI hmem o lvl]

theorem getD_map_entryAt_insert_found {β : Type} {s : ObjectStore} (hI : Inv s) {v : Int}
    (hmem : v ∈ keys s) (o : Nat) (lvl : Nat) {r : Nat} (hr0 : 1 ≤ r) (f : Entry → β)
    (d : β) (hf : ∀ e : Entry, f { e with obj := o } = f e) :
    ((entryAt (insert s v o lvl) r).map f).getD d = ((entryAt s r).map f).getD d := by
  obtain ⟨hu0, -⟩ := (found_iff hI.sorted).mp hmem
  rw [insert_found hI hmem o lvl]
  by_cases hr : r = lastLt s 0 v + 1
  · subst hr
    show ((s.entries.set (lastLt s 0 v) _)[lastLt s 0 v + 1 - 1]?.map f).getD d = _
    simp only [Nat.add_sub_cancel]
    rw [List.getElem?_set_eq_of_lt _ hu0,
      entryAt_of_le (by omega) (by omega)]
    simp only [Option.map_some', Option.getD_some]
    exact hf _
  · show ((s.entries.set (lastLt s 0 v) _)[r - 1]?.map f).getD d = _
    rw [List.getElem?_set_ne (by omega)]
    rfl

theorem valueAt_insert_found {s : ObjectStore} (hI : Inv s) {v : Int}
    (hmem : v ∈ keys s) (o : Nat) (lvl : Nat) (r : Nat) :
    valueAt (insert s v o lvl) r = valueAt s r := by
  by_cases h0 : r = 0
  · subst h0
    rw [valueAt, valueAt, if_pos rfl, if_pos rfl]
  · rw [valueAt, valueAt, if_neg h0, if_neg h0]
    exact getD_map_entryAt_insert_found hI hmem o lvl (by omega) Entry.value 0 (fun e => rfl)

theorem heightAt_insert_found {s : ObjectStore} (hI : Inv s) {v : Int}
    (hmem : v ∈ keys s) (o : Nat) (lvl : Nat) (r : Nat) :
    heightAt (insert s v o lvl) r = heightAt s r := by
  by_cases h0 : r = 0
  · subst h0
    rw [heightAt_zero, heightAt_zero]
  · rw [heightAt, heightAt, if_neg h0, if_neg h0]
    exact getD_map_entryAt_insert_found hI hmem o lvl (by omega) Entry.height 0 (fun e => rfl)

theorem llLen_insert_found {s : ObjectStore} (hI : Inv s) {v : Int}
    (hmem : v ∈ keys s) (o : Nat) (lvl : Nat) (r : Nat) :
    llLen (insert s v o lvl) r = llLen s r := by
  by_cases h0 : r = 0
  · subst h0
    rw [llLen, llLen, if_pos rfl, if_pos rfl, insert_found_headerLinks hI hmem o lvl]
  · rw [llLen, llLen, if_neg h0, if_neg h0]
    exact getD_map_entryAt_insert_found hI hmem o lvl (by omega)
      (fun e => e.link_length.length) 0 (fun e => rfl)

theorem llAt_insert_found {s : ObjectStore} (hI : Inv s) {v : Int}
    (hmem : v ∈ keys s) (o : Nat) (lvl : Nat) (r i : Nat) :
    llAt (insert s v o lvl) r i = llAt s r i := by
  by_cases h0 : r = 0
  · subst h0
    rw [llAt, llAt, if_pos rfl, if_pos rfl, insert_found_headerLinks hI hmem o lvl]
  · rw [llAt, llAt, if_neg h0, if_neg h0]
    exact getD_map_entryAt_insert_found hI hmem o lvl (by omega)
      (fun e => e.link_length.getD i 0) 0 (fun e => rfl)

theorem objAt_insert_found_ne {s : ObjectStore} (hI : Inv s) {v : Int}
    (hmem : v ∈ keys s) (o : Nat) (lvl : Nat) {r : Nat} (hr : r ≠ lastLt s 0 v + 1) :
    objAt (insert s v o lvl) r = objAt s r := by
  by_cases h0 : r = 0
  · subst h0
    rw [objAt, objAt, if_pos rfl, if_pos rfl]
  · rw [objAt, objAt, if_neg h0, if_neg h0, insert_found hI hmem o lvl]
    show ((s.entries.set (lastLt s 0 v) _)[r - 1]?.map Entry.obj).getD 0 = _
    rw [List.getElem?_set_ne (by omega)]
    rfl

theorem objAt_insert_found_self {s : ObjectStore} (hI : Inv s) {v : Int}
    (hmem : v ∈ keys s) (o : Nat) (lvl : Nat) :
    objAt (insert s v o lvl) (lastLt s 0 v + 1) = o := by
  obtain ⟨hu0, -⟩ := (found_iff hI.sorted).mp hmem
  rw [objAt, if_neg (by omega), insert_found hI hmem o lvl]
  show ((s.entries.set (lastLt s 0 v) _)[lastLt s 0 v + 1 - 1]?.map Entry.obj).getD 0 = o
  simp only [Nat.add_sub_cancel]
  rw [List.getElem?_set_eq_of_lt _ hu0]
  rfl

theorem fwdPos_insert_found {s : ObjectStore} (hI : Inv s) {v : Int}
    (hmem : v ∈ keys s) (o : Nat) (lvl : Nat) (i p : Nat) :
    fwdPos (insert s v o lvl) i p = fwdPos s i p :=
  fwdPos_congr (insert_found_entries_length hI hmem o lvl)
    (fun r _ _ => heightAt_insert_found hI hmem o lvl r) i p

theorem inv_insert_found {s : ObjectStore} (hI : Inv s) {v : Int}
    (hmem : v ∈ keys s) (o : Nat) (lvl : Nat) : Inv (insert s v o lvl) := by
  refine ⟨?_, ?_, ?_, ?_, ?_, ?_, ?_, ?_⟩
  · rw [insert_found_headerLinks hI hmem o lvl]
    exact hI.hlen
  · rw [insert_found_level hI hmem o lvl]
    exact hI.levle
  · intro r h1 h2
    rw [insert_found_entries_length hI hmem o lvl] at h2
    rw [insert_found_level hI hmem o lvl, heightAt_insert_found hI hmem o lvl]
    exact hI.hle r h1 h2
  · intro r h1 h2
    rw [insert_found_entries_length hI hmem o lvl] at h2
    rw [llLen_insert_found hI hmem o lvl, heightAt_insert_found hI hmem o lvl]
    exact hI.lllen r h1 h2
  · rw [sorted_iff]
    intro r r2 h1 h2 h3
    rw [insert_found_entries_length hI hmem o lvl] at h3
    rw [valueAt_insert_found hI hmem o lvl, valueAt_insert_found hI hmem o lvl]
    exact sorted_lt hI.sorted h1 h2 h3
  · rw [insert_found_num hI hmem o lvl, insert_found_entries_length hI hmem o lvl]
    exact hI.count
  · intro p i q h1 h2 h3 hf
    rw [insert_found_entries_length hI hmem o lvl] at h1
    rw [heightAt_insert_found hI hmem o lvl] at h2
    rw [insert_found_level hI hmem o lvl] at h3
    rw [fwdPos_insert_found hI hmem o lvl] at hf
    rw [llAt_insert_found hI hmem o lvl]
    exact hI.span p i q h1 h2 h3 hf
  · intro hl
    rw [insert_found_level hI hmem o lvl] at hl ⊢
    obtain ⟨r, hr1, hr2, hr3⟩ := hI.minimal hl
    refine ⟨r, hr1, ?_, ?_⟩
    · rw [insert_found_entries_length hI hmem o lvl]
      exact hr2
    · rw [heightAt_insert_found hI hmem o lvl]
      exact hr3

theorem nullSpan_insert_found {s : ObjectStore} (hI : Inv s) (hns : NullSpanOK s)
    {v : Int} (hmem : v ∈ keys s) (o : Nat) (lvl : Nat) :
    NullSpanOK (insert s v o lvl) := by
  intro p i h1 h2 h3 hf
  rw [insert_found_entries_length hI hmem o lvl] at h1
  rw [heightAt_insert_found hI hmem o lvl] at h2
  rw [insert_found_level hI hmem o lvl] at h3
  rw [fwdPos_insert_found hI hmem o lvl] at hf
  rw [llAt_insert_found hI hmem o lvl, insert_found_num hI hmem o lvl]
  exact hns p i h1 h2 h3 hf

theorem entries_ne_nil_of_mem {s : ObjectStore} {v : Int} (hmem : v ∈ keys s) :
    s.entries ≠ [] := by
  intro habs
  rw [keys, habs] at hmem
  exact absurd hmem (List.not_mem_nil v)

/-- `insert` preserves the invariant and (re-)establishes the full span
convention, including the lengths of `NULL` links. -/
theorem insert_preserves {s : ObjectStore} (hI : Inv s) (h0 : NullOK0 s) (v : Int)
    (o : Nat) {lvl : Nat} (hlvl : lvl ≤ MAX_LEVEL) :
    Inv (insert s v o lvl) ∧ NullSpanOK (insert s v o lvl) := by
  by_cases hmem : v ∈ keys s
  · refine ⟨inv_insert_found hI hmem o lvl, ?_⟩
    exact nullSpan_insert_found hI
      (nullSpanOK_of_ne_nil h0 (entries_ne_nil_of_mem hmem)) hmem o lvl
  · rw [insert_eq_insRes hI hmem o lvl]
    exact inv_insRes hI h0 hmem o hlvl

/-! ## The removing branch of `erase`, in resolved form -/

/-- The `link_length` write of `erase` at level `i` (lines 410-416): absorb
the removed node's span where `update[i]->forward[i] == x`, decrement
elsewhere. -/
def delEdit (s : ObjectStore) (v : Int) (i : Nat) : Nat × Nat × Int :=
  let u := updEAt (updatesE s v) s.level i
  if fwdPos s i u = some (lastLt s 0 v + 1) then
    (u, i, llAt s u i +
      (s.entries.getD (lastLt s 0 v + 1 - 1) default).link_length.getD i 0 - 1)
  else (u, i, llAt s u i - 1)

/-- All `link_length` writes of the removing branch of `erase`. -/
def delEdits (s : ObjectStore) (v : Int) : List (Nat × Nat × Int) :=
  (List.range (s.level + 1)).map (delEdit s v)

/-- State after unlinking the removed node, before the level shrink. -/
def delMid (s : ObjectStore) (v : Int) : ObjectStore :=
  let s2 := applyEdits s (delEdits s v)
  { s2 with
    entries := s2.entries.eraseIdx (lastLt s 0 v + 1 - 1)
    num_entries := s.num_entries - 1 }

/-- The state produced by the removing branch of `erase`. -/
def delRes (s : ObjectStore) (v : Int) : ObjectStore :=
  { delMid s v with level := shrinkLevel (delMid s v) (delMid s v).level }

theorem erase_eq_delRes {s : ObjectStore} (hI : Inv s) {v : Int} (hmem : v ∈ keys s) :
    erase s v = delRes s v := by
  obtain ⟨hu0, hval⟩ := (found_iff hI.sorted).mp hmem
  rw [erase]
  have hup := updatesE_getD hI.sorted v (Nat.zero_le s.level)
  simp only [hup]
  rw [fwdPos_zero hu0]
  simp only [hval, if_pos rfl]
  rfl

/-! ## Transfer lemmas for `delMid` and `delRes` -/

theorem delMid_level (s : ObjectStore) (v : Int) : (delMid s v).level = s.level := by
  rw [delMid]
  exact applyEdits_level s _

theorem delMid_num (s : ObjectStore) (v : Int) :
    (delMid s v).num_entries = s.num_entries - 1 := rfl

theorem delMid_headerLinks_length (s : ObjectStore) (v : Int) :
    (delMid s v).headerLinks.length = s.headerLinks.length := by
  rw [delMid]
  exact applyEdits_headerLinks_length s _

theorem delMid_entries_length {s : ObjectStore} {v : Int}
    (hu0 : lastLt s 0 v < s.entries.length) :
    (delMid s v).entries.length = s.entries.length - 1 := by
  rw [delMid]
  simp only [Nat.add_sub_cancel]
  rw [List.length_eraseIdx]
  rw [applyEdits_entries_length]
  simp [hu0]

theorem entryAt_delMid_low (s : ObjectStore) (v : Int) {r : Nat} (h1 : 1 ≤ r)
    (h2 : r ≤ lastLt s 0 v) :
    entryAt (delMid s v) r = entryAt (applyEdits s (delEdits s v)) r := by
  rw [delMid, entryAt, entryAt]
  simp only [Nat.add_sub_cancel]
  exact getElemQ_eraseIdx_lt _ _ _ (by omega)

theorem entryAt_delMid_high (s : ObjectStore) (v : Int) {r : Nat}
    (h1 : lastLt s 0 v + 1 ≤ r) :
    entryAt (delMid s v) r = entryAt (applyEdits s (delEdits s v)) (r + 1) := by
  rw [delMid, entryAt, entryAt]
  simp only [Nat.add_sub_cancel]
  rw [getElemQ_eraseIdx_ge _ _ _ (by omega)]
  congr 1
  omega

theorem heightAt_delMid_low (s : ObjectStore) (v : Int) {r : Nat}
    (h2 : r ≤ lastLt s 0 v) : heightAt (delMid s v) r = heightAt s r := by
  by_cases h0 : r = 0
  · subst h0; rw [heightAt_zero, heightAt_zero]
  · rw [heightAt, heightAt, if_neg h0, if_neg h0, entryAt_delMid_low s v (by omega) h2]
    have e1 := heightAt_applyEdits s (delEdits s v) r
    rw [heightAt, heightAt, if_neg h0, if_neg h0] at e1
    exact e1

theorem heightAt_delMid_high (s : ObjectStore) (v : Int) {r : Nat}
    (h1 : lastLt s 0 v + 1 ≤ r) : heightAt (delMid s v) r = heightAt s (r + 1) := by
  rw [heightAt, heightAt, if_neg (by omega), if_neg (by omega),
    entryAt_delMid_high s v h1]
  have e1 := heightAt_applyEdits s (delEdits s v) (r + 1)
  rw [heightAt, heightAt, if_neg (by omega), if_neg (by omega)] at e1
  exact e1

theorem valueAt_delMid_low (s : ObjectStore) (v : Int) {r : Nat}
    (h2 : r ≤ lastLt s 0 v) : valueAt (delMid s v) r = valueAt s r := by
  by_cases h0 : r = 0
  · subst h0; rw [valueAt, valueAt, if_pos rfl, if_pos rfl]
  · rw [valueAt, valueAt, if_neg h0, if_neg h0, entryAt_delMid_low s v (by omega) h2]
    have e1 := valueAt_applyEdits s (delEdits s v) r
    rw [valueAt, valueAt, if_neg h0, if_neg h0] at e1
    exact e1

theorem valueAt_delMid_high (s : ObjectStore) (v : Int) {r : Nat}
    (h1 : lastLt s 0 v + 1 ≤ r) : valueAt (delMid s v) r = valueAt s (r + 1) := by
  rw [valueAt, valueAt, if_neg (by omega), if_neg (by omega),
    entryAt_delMid_high s v h1]
  have e1 := valueAt_applyEdits s (delEdits s v) (r + 1)
  rw [valueAt, valueAt, if_neg (by omega), if_neg (by omega)] at e1
  exact e1

theorem objAt_delMid_low (s : ObjectStore) (v : Int) {r : Nat}
    (h2 : r ≤ lastLt s 0 v) : objAt (delMid s v) r = objAt s r := by
  by_cases h0 : r = 0
  · subst h0; rw [objAt, objAt, if_pos rfl, if_pos rfl]
  · rw [objAt, objAt, if_neg h0, if_neg h0, entryAt_delMid_low s v (by omega) h2]
    have e1 := objAt_applyEdits s (delEdits s v) r
    rw [objAt, objAt, if_neg h0, if_neg h0] at e1
    exact e1

theorem objAt_delMid_high (s : ObjectStore) (v : Int) {r : Nat}
    (h1 : lastLt s 0 v + 1 ≤ r) : objAt (delMid s v) r = objAt s (r + 1) := by
  rw [objAt, objAt, if_neg (by omega), if_neg (by omega),
    entryAt_delMid_high s v h1]
  have e1 := objAt_applyEdits s (delEdits s v) (r + 1)
  rw [objAt, objAt, if_neg (by omega), if_neg (by omega)] at e1
  exact e1

theorem llLen_delMid_low (s : ObjectStore) (v : Int) {r : Nat}
    (h2 : r ≤ lastLt s 0 v) : llLen (delMid s v) r = llLen s r := by
  by_cases h0 : r = 0
  · subst h0
    rw [llLen, llLen, if_pos rfl, if_pos rfl, delMid_headerLinks_length]
  · rw [llLen, llLen, if_neg h0, if_neg h0, entryAt_delMid_low s v (by omega) h2]
    have e1 := llLen_applyEdits s (delEdits s v) r
    rw [llLen, llLen, if_neg h0, if_neg h0] at e1
    exact e1

theorem llLen_delMid_high (s : ObjectStore) (v : Int) {r : Nat}
    (h1 : lastLt s 0 v + 1 ≤ r) : llLen (delMid s v) r = llLen s (r + 1) := by
  rw [llLen, llLen, if_neg (by omega), if_neg (by omega),
    entryAt_delMid_high s v h1]
  have e1 := llLen_applyEdits s (delEdits s v) (r + 1)
  rw [llLen, llLen, if_neg (by omega), if_neg (by omega)] at e1
  exact e1

theorem llAt_delMid_low (s : ObjectStore) (v : Int) {r : Nat}
    (h2 : r ≤ lastLt s 0 v) (i : Nat) :
    llAt (delMid s v) r i = llAt (applyEdits s (delEdits s v)) r i := by
  by_cases h0 : r = 0
  · subst h0
    rw [llAt, llAt, if_pos rfl, if_pos rfl]
    rfl
  · rw [llAt, llAt, if_neg h0, if_neg h0, entryAt_delMid_low s v (by omega) h2]

theorem llAt_delMid_high (s : ObjectStore) (v : Int) {r : Nat}
    (h1 : lastLt s 0 v + 1 ≤ r) (i : Nat) :
    llAt (delMid s v) r i = llAt (applyEdits s (delEdits s v)) (r + 1) i := by
  rw [llAt, llAt, if_neg (by omega), if_neg (by omega),
    entryAt_delMid_high s v h1]

/-! ## The `erase` update positions and edit values -/

theorem updEAt_fst {s : ObjectStore} (hI : Inv s) (v : Int) {i : Nat} (hi : i ≤ s.level) :
    updEAt (updatesE s v) s.level i = lastLt s i v := updatesE_getD hI.sorted v hi

theorem updEAt_le_u0 {s : ObjectStore} (hI : Inv s) (v : Int) {i : Nat}
    (hi : i ≤ s.level) : updEAt (updatesE s v) s.level i ≤ lastLt s 0 v := by
  rw [updEAt_fst hI v hi]
  exact lastLt_mono v (Nat.zero_le i)

theorem updEAt_height {s : ObjectStore} (hI : Inv s) (v : Int) {i : Nat}
    (hi : i ≤ s.level) : i ≤ heightAt s (updEAt (updatesE s v) s.level i) := by
  rw [updEAt_fst hI v hi]
  by_cases h0 : lastLt s i v = 0
  · rw [h0, heightAt_zero]
    have := hI.levle
    omega
  · exact (lastLt_pred h0).1

theorem updEAt_llb {s : ObjectStore} (hI : Inv s) (v : Int) {i : Nat}
    (hi : i ≤ s.level) : i < llLen s (updEAt (updatesE s v) s.level i) := by
  by_cases h0 : updEAt (updatesE s v) s.level i = 0
  · rw [h0, llLen, if_pos rfl, hI.hlen]
    have := hI.levle
    omega
  · have h2 : updEAt (updatesE s v) s.level i ≤ s.entries.length :=
      le_trans (updEAt_le_u0 hI v hi) (lastLt_le 0 v)
    rw [hI.lllen _ (by omega) h2]
    have h3 := updEAt_height hI v hi
    omega

theorem delEdit_level (s : ObjectStore) (v : Int) (i : Nat) :
    (delEdit s v i).2.1 = i := by
  rw [delEdit]
  split <;> rfl

theorem delEdit_pos (s : ObjectStore) (v : Int) (i : Nat) :
    (delEdit s v i).1 = updEAt (updatesE s v) s.level i := by
  rw [delEdit]
  split <;> rfl

theorem delEdit_val_absorb (s : ObjectStore) (v : Int) {i : Nat}
    (h : fwdPos s i (updEAt (updatesE s v) s.level i) = some (lastLt s 0 v + 1)) :
    (delEdit s v i).2.2 =
      llAt s (updEAt (updatesE s v) s.level i) i +
        (s.entries.getD (lastLt s 0 v + 1 - 1) default).link_length.getD i 0 - 1 := by
  rw [delEdit, if_pos h]

theorem delEdit_val_dec (s : ObjectStore) (v : Int) {i : Nat}
    (h : ¬ fwdPos s i (updEAt (updatesE s v) s.level i) = some (lastLt s 0 v + 1)) :
    (delEdit s v i).2.2 = llAt s (updEAt (updatesE s v) s.level i) i - 1 := by
  rw [delEdit, if_neg h]

theorem delEdits_pairwise (s : ObjectStore) (v : Int) :
    (delEdits s v).Pairwise (fun a b => a.2.1 ≠ b.2.1) := by
  rw [delEdits, List.pairwise_map]
  refine List.Pairwise.imp ?_ (List.pairwise_lt_range _)
  intro a b hab
  rw [delEdit_level, delEdit_level]
  omega

theorem delEdit_mem (s : ObjectStore) (v : Int) {i : Nat} (hi : i ≤ s.level) :
    delEdit s v i ∈ delEdits s v := by
  rw [delEdits]
  exact List.mem_map_of_mem _ (List.mem_range.mpr (by omega))

theorem delEdits_mem_level {s : ObjectStore} {v : Int} {e : Nat × Nat × Int}
    (he : e ∈ delEdits s v) : ∃ i, i ≤ s.level ∧ e = delEdit s v i := by
  rw [delEdits] at he
  obtain ⟨i, hi, rfl⟩ := List.mem_map.mp he
  have := List.mem_range.mp hi
  exact ⟨i, by omega, rfl⟩

theorem llAt_delT_untouched (s : ObjectStore) (v : Int) {p i : Nat}
    (h : s.level < i ∨ p ≠ updEAt (updatesE s v) s.level i) :
    llAt (applyEdits s (delEdits s v)) p i = llAt s p i := by
  apply llAt_applyEdits_not_mem
  intro e he hc
  obtain ⟨j, hj, rfl⟩ := delEdits_mem_level he
  rw [delEdit_level] at hc
  have hji : j = i := hc.2
  subst hji
  rw [delEdit_pos] at hc
  rcases h with h | h
  · omega
  · exact h hc.1.symm

theorem llAt_delT_target {s : ObjectStore} (hI : Inv s) (v : Int) {i : Nat}
    (hi : i ≤ s.level) :
    llAt (applyEdits s (delEdits s v)) (updEAt (updatesE s v) s.level i) i =
      (delEdit s v i).2.2 := by
  have h := llAt_applyEdits_mem (delEdit_mem s v hi) (delEdits_pairwise s v)
    (by rw [delEdit_pos]; exact le_trans (updEAt_le_u0 hI v hi) (lastLt_le 0 v))
    (by rw [delEdit_pos, delEdit_level]; exact updEAt_llb hI v hi)
  rw [delEdit_pos, delEdit_level] at h
  exact h

/-- The removed node's stored `link_length[i]` is `llAt` at its position. -/
theorem xe_ll (s : ObjectStore) {v : Int} (hu0 : lastLt s 0 v < s.entries.length)
    (i : Nat) :
    (s.entries.getD (lastLt s 0 v + 1 - 1) default).link_length.getD i 0 =
      llAt s (lastLt s 0 v + 1) i := by
  rw [llAt_eq i (by omega) (by omega)]

/-! ## Span correctness after `erase` -/

theorem span_delMid {s : ObjectStore} (hI : Inv s) (h0 : NullOK0 s) {v : Int}
    (hmem : v ∈ keys s) :
    ∀ p i, p ≤ s.entries.length - 1 → i ≤ heightAt (delMid s v) p →
      (p = 0 → i ≤ s.level) → SpanAt (delMid s v) p i := by
  obtain ⟨hu0, hvx⟩ := (found_iff hI.sorted).mp hmem
  have hnn : s.entries ≠ [] := entries_ne_nil_of_mem hmem
  have hNS : NullSpanOK s := nullSpanOK_of_ne_nil h0 hnn
  have hlenD : (delMid s v).entries.length = s.entries.length - 1 :=
    delMid_entries_length hu0
  intro p i hp hh hplev
  by_cases hplow : p ≤ lastLt s 0 v
  · -- positions before the removed node
    rw [heightAt_delMid_low s v hplow] at hh
    have hiL : i ≤ s.level := by
      rcases Nat.eq_zero_or_pos p with h0p | h0p
      · exact hplev h0p
      · exact le_trans hh (hI.hle p (by omega) (by omega))
    cases hfo : fwdPos s i p with
    | some q =>
      obtain ⟨hq1, hq2, hq3, hq4⟩ := fwdPos_some hfo
      by_cases hqu : q ≤ lastLt s 0 v
      · -- the link stays inside the prefix: untouched
        have hnep : p ≠ updEAt (updatesE s v) s.level i := by
          intro he
          rw [updEAt_fst hI v hiL] at he
          have hcmp := fwd_at_update hI (v := v) hiL
          rw [← he, hfo] at hcmp
          cases hfu : fwdPos s i (lastLt s 0 v) with
          | none => rw [hfu] at hcmp; exact Option.noConfusion hcmp
          | some q2 =>
            rw [hfu] at hcmp
            obtain ⟨hq21, -, -, -⟩ := fwdPos_some hfu
            have := Option.some.inj hcmp
            omega
        have hll : llAt (delMid s v) p i = llAt s p i := by
          rw [llAt_delMid_low s v hplow i, llAt_delT_untouched s v (Or.inr hnep)]
        have hfw : fwdPos (delMid s v) i p = some q := by
          rw [fwdPos_eq_some_iff]
          refine ⟨hq1, by rw [hlenD]; omega, ?_, fun r h1 h2 => ?_⟩
          · rw [heightAt_delMid_low s v (by omega)]
            exact hq3
          · rw [heightAt_delMid_low s v (by omega)]
            exact hq4 r h1 h2
        constructor
        · intro q' hq'
          rw [hfw] at hq'
          rw [← Option.some.inj hq', hll]
          exact hI.span p i q (by omega) hh (fun _ => hiL) hfo
        · intro hq'
          rw [hfw] at hq'
          exact Option.noConfusion hq'
      · -- `p` is `update[i]`
        have hpe : p = lastLt s i v := spanner_eq hI.sorted hplow hh
          (fun q' hq' => by rw [hfo] at hq'; rw [← Option.some.inj hq']; omega)
        have hpu : p = updEAt (updatesE s v) s.level i := by
          rw [updEAt_fst hI v hiL, ← hpe]
        by_cases hqx : q = lastLt s 0 v + 1
        · -- the link reaches the removed node: absorb its span (line 415)
          subst hqx
          have hcond : fwdPos s i (updEAt (updatesE s v) s.level i) =
              some (lastLt s 0 v + 1) := by
            rw [← hpu]
            exact hfo
          have hll : llAt (delMid s v) p i =
              llAt s p i + llAt s (lastLt s 0 v + 1) i - 1 := by
            rw [llAt_delMid_low s v hplow i]
            conv_lhs => rw [hpu]
            rw [llAt_delT_target hI v hiL, delEdit_val_absorb s v hcond, xe_ll s hu0 i,
              ← hpu]
          have hspP : llAt s p i = ((lastLt s 0 v + 1 : Nat) : Int) - (p : Int) :=
            hI.span p i _ (by omega) hh (fun _ => hiL) hfo
          cases hfx : fwdPos s i (lastLt s 0 v + 1) with
          | some q2 =>
            obtain ⟨hx1, hx2, hx3, hx4⟩ := fwdPos_some hfx
            have hspX : llAt s (lastLt s 0 v + 1) i =
                (q2 : Int) - ((lastLt s 0 v + 1 : Nat) : Int) :=
              hI.span _ i q2 (by omega) hq3 (fun hcc => by omega) hfx
            have hfw : fwdPos (delMid s v) i p = some (q2 - 1) := by
              rw [fwdPos_eq_some_iff]
              refine ⟨by omega, by rw [hlenD]; omega, ?_, fun r h1 h2 => ?_⟩
              · rw [heightAt_delMid_high s v (by omega)]
                have he : q2 - 1 + 1 = q2 := by omega
                rw [he]
                exact hx3
              · by_cases hru : r ≤ lastLt s 0 v
                · rw [heightAt_delMid_low s v hru]
                  exact height_lt_between hI.sorted (by omega) hru
                · rw [heightAt_delMid_high s v (by omega)]
                  exact hx4 (r + 1) (by omega) (by omega)
            constructor
            · intro q' hq'
              rw [hfw] at hq'
              rw [← Option.some.inj hq', hll, hspP, hspX]
              push_cast
              omega
            · intro hq'
              rw [hfw] at hq'
              exact Option.noConfusion hq'
          | none =>
            have hspX : llAt s (lastLt s 0 v + 1) i =
                s.num_entries + 1 - ((lastLt s 0 v + 1 : Nat) : Int) :=
              hNS _ i (by omega) hq3 (fun hcc => by omega) hfx
            have hfw : fwdPos (delMid s v) i p = none := by
              rw [fwdPos_eq_none_iff]
              intro r h1 h2
              rw [hlenD] at h2
              by_cases hru : r ≤ lastLt s 0 v
              · rw [heightAt_delMid_low s v hru]
                exact height_lt_between hI.sorted (by omega) hru
              · rw [heightAt_delMid_high s v (by omega)]
                exact fwdPos_none hfx (r + 1) (by omega) (by omega)
            constructor
            · intro q' hq'
              rw [hfw] at hq'
              exact Option.noConfusion hq'
            · intro hq'
              rw [hll, hspP, hspX, delMid_num]
              push_cast
              omega
        · -- the link jumps over the removed node: decrement (line 411)
          have hq2' : lastLt s 0 v + 2 ≤ q := by omega
          have hcond : ¬ fwdPos s i (updEAt (updatesE s v) s.level i) =
              some (lastLt s 0 v + 1) := by
            rw [← hpu, hfo]
            intro hcc
            have := Option.some.inj hcc
            omega
          have hll : llAt (delMid s v) p i = llAt s p i - 1 := by
            rw [llAt_delMid_low s v hplow i]
            conv_lhs => rw [hpu]
            rw [llAt_delT_target hI v hiL, delEdit_val_dec s v hcond, ← hpu]
          have hspP : llAt s p i = (q : Int) - (p : Int) :=
            hI.span p i q (by omega) hh (fun _ => hiL) hfo
          have hfw : fwdPos (delMid s v) i p = some (q - 1) := by
            rw [fwdPos_eq_some_iff]
            refine ⟨by omega, by rw [hlenD]; omega, ?_, fun r h1 h2 => ?_⟩
            · rw [heightAt_delMid_high s v (by omega)]
              have he : q - 1 + 1 = q := by omega
              rw [he]
              exact hq3
            · by_cases hru : r ≤ lastLt s 0 v
              · rw [heightAt_delMid_low s v hru]
                exact height_lt_between hI.sorted (by omega) hru
              · rw [heightAt_delMid_high s v (by omega)]
                exact hq4 (r + 1) (by omega) (by omega)
          constructor
          · intro q' hq'
            rw [hfw] at hq'
            rw [← Option.some.inj hq', hll, hspP]
            push_cast
            omega
          · intro hq'
            rw [hfw] at hq'
            exact Option.noConfusion hq'
    | none =>
      -- `p` is `update[i]` with a `NULL` forward pointer: decrement
      have hpe : p = lastLt s i v := spanner_eq hI.sorted hplow hh
        (fun q' hq' => by rw [hfo] at hq'; exact Option.noConfusion hq')
      have hpu : p = updEAt (updatesE s v) s.level i := by
        rw [updEAt_fst hI v hiL, ← hpe]
      have hcond : ¬ fwdPos s i (updEAt (updatesE s v) s.level i) =
          some (lastLt s 0 v + 1) := by
        rw [← hpu, hfo]
        exact fun hcc => Option.noConfusion hcc
      have hll : llAt (delMid s v) p i = llAt s p i - 1 := by
        rw [llAt_delMid_low s v hplow i]
        conv_lhs => rw [hpu]
        rw [llAt_delT_target hI v hiL, delEdit_val_dec s v hcond, ← hpu]
      have hspP : llAt s p i = s.num_entries + 1 - (p : Int) :=
        hNS p i (by omega) hh (fun _ => hiL) hfo
      have hfw : fwdPos (delMid s v) i p = none := by
        rw [fwdPos_eq_none_iff]
        intro r h1 h2
        rw [hlenD] at h2
        by_cases hru : r ≤ lastLt s 0 v
        · rw [heightAt_delMid_low s v hru]
          exact height_lt_between hI.sorted (by omega) hru
        · rw [heightAt_delMid_high s v (by omega)]
          exact fwdPos_none hfo (r + 1) (by omega) (by omega)
      constructor
      · intro q' hq'
        rw [hfw] at hq'
        exact Option.noConfusion hq'
      · intro hq'
        rw [hll, hspP, delMid_num]
        omega
  · -- positions after the removed node: shifted down by one
    have hp1 : lastLt s 0 v + 1 ≤ p := by omega
    rw [heightAt_delMid_high s v hp1] at hh
    have hll : llAt (delMid s v) p i = llAt s (p + 1) i := by
      rw [llAt_delMid_high s v hp1 i]
      apply llAt_delT_untouched
      by_cases hiL : i ≤ s.level
      · right
        have := updEAt_le_u0 hI v hiL
        omega
      · left
        omega
    cases hfo : fwdPos s i (p + 1) with
    | some q =>
      obtain ⟨hq1, hq2, hq3, hq4⟩ := fwdPos_some hfo
      have hsp : llAt s (p + 1) i = (q : Int) - ((p + 1 : Nat) : Int) :=
        hI.span (p + 1) i q (by omega) hh (fun hcc => by omega) hfo
      have hfw : fwdPos (delMid s v) i p = some (q - 1) := by
        rw [fwdPos_eq_some_iff]
        refine ⟨by omega, by rw [hlenD]; omega, ?_, fun r h1 h2 => ?_⟩
        · rw [heightAt_delMid_high s v (by omega)]
          have he : q - 1 + 1 = q := by omega
          rw [he]
          exact hq3
        · rw [heightAt_delMid_high s v (by omega)]
          exact hq4 (r + 1) (by omega) (by omega)
      constructor
      · intro q' hq'
        rw [hfw] at hq'
        rw [← Option.some.inj hq', hll, hsp]
        push_cast
        omega
      · intro hq'
        rw [hfw] at hq'
        exact Option.noConfusion hq'
    | none =>
      have hsp : llAt s (p + 1) i = s.num_entries + 1 - ((p + 1 : Nat) : Int) :=
        hNS (p + 1) i (by omega) hh (fun hcc => by omega) hfo
      have hfw : fwdPos (delMid s v) i p = none := by
        rw [fwdPos_eq_none_iff]
        intro r h1 h2
        rw [hlenD] at h2
        rw [heightAt_delMid_high s v (by omega)]
        exact fwdPos_none hfo (r + 1) (by omega) (by omega)
      constructor
      · intro q' hq'
        rw [hfw] at hq'
        exact Option.noConfusion hq'
      · intro hq'
        rw [hll, hsp, delMid_num]
        push_cast
        omega

/-! ## Invariant preservation by `erase` -/

theorem heightAt_delRes (s : ObjectStore) (v : Int) (r : Nat) :
    heightAt (delRes s v) r = heightAt (delMid s v) r := rfl

theorem valueAt_delRes (s : ObjectStore) (v : Int) (r : Nat) :
    valueAt (delRes s v) r = valueAt (delMid s v) r := rfl

theorem objAt_delRes (s : ObjectStore) (v : Int) (r : Nat) :
    objAt (delRes s v) r = objAt (delMid s v) r := rfl

theorem llAt_delRes (s : ObjectStore) (v : Int) (r i : Nat) :
    llAt (delRes s v) r i = llAt (delMid s v) r i := rfl

theorem llLen_delRes (s : ObjectStore) (v : Int) (r : Nat) :
    llLen (delRes s v) r = llLen (delMid s v) r := rfl

theorem delRes_entries_length (s : ObjectStore) (v : Int) :
    (delRes s v).entries.length = (delMid s v).entries.length := rfl

theorem delRes_num (s : ObjectStore) (v : Int) :
    (delRes s v).num_entries = (delMid s v).num_entries := rfl

theorem delRes_headerLinks_length (s : ObjectStore) (v : Int) :
    (delRes s v).headerLinks.length = (delMid s v).headerLinks.length := rfl

theorem delRes_level (s : ObjectStore) (v : Int) :
    (delRes s v).level = shrinkLevel (delMid s v) (delMid s v).level := rfl

theorem fwdPos_delRes (s : ObjectStore) (v : Int) (i p : Nat) :
    fwdPos (delRes s v) i p = fwdPos (delMid s v) i p :=
  fwdPos_congr (s := delMid s v) (t := delRes s v) rfl
    (fun r _ _ => heightAt_delRes s v r) i p

theorem sorted_delMid {s : ObjectStore} (hI : Inv s) {v : Int} (hmem : v ∈ keys s) :
    Sorted (delMid s v) := by
  obtain ⟨hu0, -⟩ := (found_iff hI.sorted).mp hmem
  rw [sorted_iff]
  intro r r2 h1 h2 h3
  rw [delMid_entries_length hu0] at h3
  by_cases hru : r ≤ lastLt s 0 v
  · rw [valueAt_delMid_low s v hru]
    by_cases hru2 : r2 ≤ lastLt s 0 v
    · rw [valueAt_delMid_low s v hru2]
      exact sorted_lt hI.sorted h1 h2 (by omega)
    · rw [valueAt_delMid_high s v (by omega)]
      exact sorted_lt hI.sorted h1 (by omega) (by omega)
  · rw [valueAt_delMid_high s v (by omega), valueAt_delMid_high s v (by omega)]
    exact sorted_lt hI.sorted (by omega) (by omega) (by omega)

theorem heightAt_delMid_le {s : ObjectStore} (hI : Inv s) {v : Int}
    (hmem : v ∈ keys s) :
    ∀ r, 1 ≤ r → r ≤ (delMid s v).entries.length → heightAt (delMid s v) r ≤ s.level := by
  obtain ⟨hu0, -⟩ := (found_iff hI.sorted).mp hmem
  intro r h1 h2
  rw [delMid_entries_length hu0] at h2
  by_cases hru : r ≤ lastLt s 0 v
  · rw [heightAt_delMid_low s v hru]
    exact hI.hle r h1 (by omega)
  · rw [heightAt_delMid_high s v (by omega)]
    exact hI.hle (r + 1) (by omega) (by omega)

theorem inv_delRes {s : ObjectStore} (hI : Inv s) (h0 : NullOK0 s) {v : Int}
    (hmem : v ∈ keys s) : Inv (delRes s v) ∧ NullSpanOK (delRes s v) := by
  obtain ⟨hu0, -⟩ := (found_iff hI.sorted).mp hmem
  have hlenD : (delMid s v).entries.length = s.entries.length - 1 :=
    delMid_entries_length hu0
  have hshr : (delRes s v).level ≤ s.level := by
    rw [delRes_level]
    exact le_trans (shrinkLevel_le _ _) (le_of_eq (delMid_level s v))
  have hspanmain := span_delMid hI h0 hmem
  constructor
  · refine ⟨?_, ?_, ?_, ?_, ?_, ?_, ?_, ?_⟩
    · rw [delRes_headerLinks_length, delMid_headerLinks_length]
      exact hI.hlen
    · have := hI.levle
      omega
    · intro r h1 h2
      rw [delRes_entries_length] at h2
      rw [heightAt_delRes, delRes_level]
      have hh := heightAt_delMid_le hI hmem
      rw [← delMid_level s v] at hh
      exact shrinkLevel_heights (delMid s v) (delMid s v).level hh r h1 h2
    · intro r h1 h2
      rw [delRes_entries_length, hlenD] at h2
      rw [llLen_delRes, heightAt_delRes]
      by_cases hru : r ≤ lastLt s 0 v
      · rw [llLen_delMid_low s v hru, heightAt_delMid_low s v hru]
        exact hI.lllen r h1 (by omega)
      · rw [llLen_delMid_high s v (by omega), heightAt_delMid_high s v (by omega)]
        exact hI.lllen (r + 1) (by omega) (by omega)
    · show Sorted (delMid s v)
      exact sorted_delMid hI hmem
    · rw [delRes_num, delMid_num, delRes_entries_length, hlenD, hI.count]
      omega
    · intro p i q h1 h2 h3 hf
      rw [delRes_entries_length, hlenD] at h1
      rw [heightAt_delRes] at h2
      rw [fwdPos_delRes] at hf
      rw [llAt_delRes]
      exact (hspanmain p i h1 h2 (fun hc => by have := h3 hc; omega)).1 q hf
    · intro hl
      rw [delRes_level] at hl
      obtain ⟨r, hr1, hr2, hr3⟩ := shrinkLevel_minimal (delMid s v) (delMid s v).level hl
      exact ⟨r, hr1, hr2, hr3⟩
  · intro p i h1 h2 h3 hf
    rw [delRes_entries_length, hlenD] at h1
    rw [heightAt_delRes] at h2
    rw [fwdPos_delRes] at hf
    rw [llAt_delRes, delRes_num]
    exact (hspanmain p i h1 h2 (fun hc => by have := h3 hc; omega)).2 hf

/-- `erase` preserves the invariant, preserves the full span convention when
it already holds, and never creates new anomalies. -/
theorem erase_preserves {s : ObjectStore} (hI : Inv s) (h0 : NullOK0 s) (v : Int) :
    Inv (erase s v) ∧ NullOK0 (erase s v) ∧
      (NullSpanOK s → NullSpanOK (erase s v)) := by
  by_cases hmem : v ∈ keys s
  · rw [erase_eq_delRes hI hmem]
    obtain ⟨h1, h2⟩ := inv_delRes hI h0 hmem
    exact ⟨h1, nullSpanOK_to_nullOK0 h2, fun _ => h2⟩
  · rw [erase_of_not_mem hI hmem]
    exact ⟨hI, h0, fun h => h⟩

/-! ## Reachable stores -/

theorem foldl_inv :
    ∀ (ops : List Op) (s : ObjectStore), Inv s → NullOK0 s → LvlOK ops = true →
      Inv (ops.foldl applyOp s) ∧ NullOK0 (ops.foldl applyOp s) := by
  intro ops
  induction ops with
  | nil => exact fun s h1 h2 _ => ⟨h1, h2⟩
  | cons op ops ih =>
    intro s h1 h2 hok
    rw [LvlOK, List.all_cons, Bool.and_eq_true] at hok
    rw [List.foldl_cons]
    cases op with
    | ins v o lvl =>
      have hlvl : lvl ≤ MAX_LEVEL := by
        have := hok.1
        simp only [decide_eq_true_eq] at this
        exact this
      obtain ⟨hi, hns⟩ := insert_preserves h1 h2 v o hlvl
      exact ih _ hi (nullSpanOK_to_nullOK0 hns) hok.2
    | del v =>
      obtain ⟨hi, h0x, -⟩ := erase_preserves h1 h2 v
      exact ih _ hi h0x hok.2

theorem foldl_nullspan :
    ∀ (ops : List Op) (s : ObjectStore), Inv s → NullSpanOK s → LvlOK ops = true →
      Inv (ops.foldl applyOp s) ∧ NullSpanOK (ops.foldl applyOp s) := by
  intro ops
  induction ops with
  | nil => exact fun s h1 h2 _ => ⟨h1, h2⟩
  | cons op ops ih =>
    intro s h1 h2 hok
    rw [LvlOK, List.all_cons, Bool.and_eq_true] at hok
    rw [List.foldl_cons]
    cases op with
    | ins v o lvl =>
      have hlvl : lvl ≤ MAX_LEVEL := by
        have := hok.1
        simp only [decide_eq_true_eq] at this
        exact this
      obtain ⟨hi, hns⟩ := insert_preserves h1 (nullSpanOK_to_nullOK0 h2) v o hlvl
      exact ih _ hi hns hok.2
    | del v =>
      obtain ⟨hi, -, hns⟩ := erase_preserves h1 (nullSpanOK_to_nullOK0 h2) v
      exact ih _ hi (hns h2) hok.2

/-- Every reachable store satisfies the invariant (and the null-aware span
convention up to the fresh-store anomaly). -/
theorem applyOps_inv {ops : List Op} (h : LvlOK ops = true) :
    Inv (applyOps ops) ∧ NullOK0 (applyOps ops) :=
  foldl_inv ops emptyStore inv_emptyStore nullOK0_emptyStore h

/-! ## Correctness of the rank walk -/

theorem idxWalkF_spec {s : ObjectStore} (hI : Inv s) (pos : Int) (i : Nat) :
    ∀ fuel p so, s.entries.length + 1 - p ≤ fuel → p ≤ s.entries.length →
      so = (p : Int) → i ≤ heightAt s p → (p = 0 → i ≤ s.level) → so ≤ pos + 1 →
      (idxWalkF s pos i fuel p so).2 = ((idxWalkF s pos i fuel p so).1 : Int) ∧
        (idxWalkF s pos i fuel p so).1 ≤ s.entries.length ∧
        (idxWalkF s pos i fuel p so).2 ≤ pos + 1 ∧
        i ≤ heightAt s (idxWalkF s pos i fuel p so).1 ∧
        ((idxWalkF s pos i fuel p so).1 = 0 → i ≤ s.level) ∧
        (∀ q, fwdPos s i (idxWalkF s pos i fuel p so).1 = some q →
          pos + 1 < llAt s (idxWalkF s pos i fuel p so).1 i +
            (idxWalkF s pos i fuel p so).2) := by
  intro fuel
  induction fuel with
  | zero =>
    intro p so hfuel hpn
    omega
  | succ fuel ih =>
    intro p so hfuel hpn hso hh hplev hle
    rw [idxWalkF]
    cases hf : fwdPos s i p with
    | none =>
      exact ⟨hso, hpn, hle, hh, hplev, fun q hq => by rw [hf] at hq; exact Option.noConfusion hq⟩
    | some q =>
      obtain ⟨hq1, hq2, hq3, hq4⟩ := fwdPos_some hf
      have hsp : llAt s p i = (q : Int) - (p : Int) := hI.span p i q hpn hh hplev hf
      by_cases hc : llAt s p i + so ≤ pos + 1
      · simp only [hc, if_true]
        exact ih q (so + llAt s p i) (by omega) hq2 (by rw [hsp]; omega) hq3
          (by omega) (by omega)
      · simp only [hc, if_false]
        exact ⟨hso, hpn, hle, hh, hplev, fun q' hq' => by
          rw [hf] at hq'
          have := Option.some.inj hq'
          omega⟩

theorem idxDescend_spec {s : ObjectStore} (hI : Inv s) (pos : Int) :
    ∀ (i : Nat) (r : Nat × Int), r.2 = (r.1 : Int) → r.1 ≤ s.entries.length →
      i ≤ heightAt s r.1 → (r.1 = 0 → i ≤ s.level) → r.2 ≤ pos + 1 →
      (idxDescend s pos i r).2 = ((idxDescend s pos i r).1 : Int) ∧
        (idxDescend s pos i r).1 ≤ s.entries.length ∧
        (idxDescend s pos i r).2 ≤ pos + 1 ∧
        (∀ q, fwdPos s 0 (idxDescend s pos i r).1 = some q →
          pos + 1 < llAt s (idxDescend s pos i r).1 0 + (idxDescend s pos i r).2) := by
  intro i
  induction i with
  | zero =>
    intro r h1 h2 h3 h4 h5
    rw [idxDescend]
    obtain ⟨c1, c2, c3, c4, c5, c6⟩ :=
      idxWalkF_spec hI pos 0 (s.entries.length + 1) r.1 r.2 (by omega) h2 h1
        (Nat.zero_le _) (fun _ => Nat.zero_le _) h5
    exact ⟨c1, c2, c3, c6⟩
  | succ i ih =>
    intro r h1 h2 h3 h4 h5
    rw [idxDescend]
    obtain ⟨c1, c2, c3, c4, c5, c6⟩ :=
      idxWalkF_spec hI pos (i + 1) (s.entries.length + 1) r.1 r.2 (by omega) h2 h1
        h3 h4 h5
    exact ih _ c1 c2 (by omega) (fun h => by have := c5 h; omega) c3

/-- The rank walk of `get_at_index` stops exactly at the node of level-0 rank
`pos + 1`. -/
theorem idxDescend_final {s : ObjectStore} (hI : Inv s) {pos : Int} (h1 : 0 ≤ pos)
    (h2 : pos < s.num_entries) :
    ((idxDescend s pos s.level (0, 0)).1 : Int) = pos + 1 := by
  have hn : s.num_entries = (s.entries.length : Int) := hI.count
  obtain ⟨c1, c2, c3, c6⟩ := idxDescend_spec hI pos s.level (0, 0) rfl (Nat.zero_le _)
    (by rw [heightAt_zero]; exact hI.levle) (fun _ => le_refl _) (by omega)
  cases hf : fwdPos s 0 (idxDescend s pos s.level (0, 0)).1 with
  | none =>
    have := fwdPos_zero_iff.mp hf
    omega
  | some q =>
    have hlt : (idxDescend s pos s.level (0, 0)).1 < s.entries.length := by
      obtain ⟨ha, hb, -, -⟩ := fwdPos_some hf
      omega
    rw [fwdPos_zero hlt] at hf
    have hsp : llAt s (idxDescend s pos s.level (0, 0)).1 0 =
        (((idxDescend s pos s.level (0, 0)).1 + 1 : Nat) : Int) -
          ((idxDescend s pos s.level (0, 0)).1 : Int) :=
      hI.span _ 0 _ (by omega) (Nat.zero_le _) (fun _ => Nat.zero_le _)
        (fwdPos_zero hlt)
    have := c6 _ (fwdPos_zero hlt)
    rw [hsp] at this
    push_cast at this
    omega

theorem get_at_index_ok {s : ObjectStore} (hI : Inv s) {pos : Int} (h1 : 0 ≤ pos)
    (h2 : pos < s.num_entries) :
    get_at_index s pos = .ok (objAt s (pos.toNat + 1)) := by
  rw [get_at_index, if_neg (by omega)]
  have hfin := idxDescend_final hI h1 h2
  have : (idxDescend s pos s.level (0, 0)).1 = pos.toNat + 1 := by omega
  rw [this]

theorem get_at_index_err (s : ObjectStore) {pos : Int}
    (h : pos < 0 ∨ s.num_entries ≤ pos) :
    get_at_index s pos = .error ⟨"ObjectStore: out of bounds"⟩ := by
  rw [get_at_index, if_pos h]

/-! ## Evolution of the key set -/

theorem mem_keys_insRes {s : ObjectStore} (hI : Inv s) (v : Int)
    (o : Nat) (lvl : Nat) {k : Int} :
    k ∈ keys (insRes s v o lvl) ↔ k ∈ keys s ∨ k = v := by
  have hu0 := lastLt_le (s := s) 0 v
  constructor
  · intro h
    obtain ⟨r, h1, h2, he⟩ := mem_keys_iff.mp h
    rw [insRes_entries_length] at h2
    by_cases hlo : r ≤ lastLt s 0 v
    · rw [valueAt_insRes_low s v o lvl hlo] at he
      exact Or.inl (mem_keys_iff.mpr ⟨r, h1, by omega, he⟩)
    · by_cases hmid : r = lastLt s 0 v + 1
      · subst hmid
        rw [valueAt_insRes_mid] at he
        exact Or.inr he.symm
      · rw [valueAt_insRes_high s v o lvl (by omega)] at he
        exact Or.inl (mem_keys_iff.mpr ⟨r - 1, by omega, by omega, he⟩)
  · rintro (h | rfl)
    · obtain ⟨r, h1, h2, he⟩ := mem_keys_iff.mp h
      by_cases hlo : r ≤ lastLt s 0 v
      · exact mem_keys_iff.mpr ⟨r, h1, by rw [insRes_entries_length]; omega,
          by rw [valueAt_insRes_low s v o lvl hlo]; exact he⟩
      · refine mem_keys_iff.mpr ⟨r + 1, by omega,
          by rw [insRes_entries_length]; omega, ?_⟩
        rw [valueAt_insRes_high s v o lvl (by omega)]
        simpa using he
    · exact mem_keys_iff.mpr ⟨lastLt s 0 k + 1, by omega,
        by rw [insRes_entries_length]; omega, valueAt_insRes_mid s k o lvl⟩

theorem mem_keys_delMid {s : ObjectStore} (hI : Inv s) {v : Int}
    (hmem : v ∈ keys s) {k : Int} :
    k ∈ keys (delMid s v) ↔ k ∈ keys s ∧ k ≠ v := by
  obtain ⟨hu0, hval⟩ := (found_iff hI.sorted).mp hmem
  constructor
  · intro h
    obtain ⟨r, h1, h2, he⟩ := mem_keys_iff.mp h
    rw [delMid_entries_length hu0] at h2
    by_cases hlo : r ≤ lastLt s 0 v
    · rw [valueAt_delMid_low s v hlo] at he
      have hlt : valueAt s r < v := lt_of_le_lastLt_zero hI.sorted h1 hlo
      exact ⟨mem_keys_iff.mpr ⟨r, h1, by omega, he⟩, by omega⟩
    · rw [valueAt_delMid_high s v (by omega)] at he
      have hgt : valueAt s (lastLt s 0 v + 1) < valueAt s (r + 1) :=
        sorted_lt hI.sorted (by omega) (by omega) (by omega)
      rw [hval] at hgt
      exact ⟨mem_keys_iff.mpr ⟨r + 1, by omega, by omega, he⟩, by omega⟩
  · rintro ⟨h, hne⟩
    obtain ⟨r, h1, h2, he⟩ := mem_keys_iff.mp h
    have hrne : r ≠ lastLt s 0 v + 1 := fun hr => hne (by rw [← he, hr, hval])
    by_cases hlo : r ≤ lastLt s 0 v
    · exact mem_keys_iff.mpr ⟨r, h1, by rw [delMid_entries_length hu0]; omega,
        by rw [valueAt_delMid_low s v hlo]; exact he⟩
    · refine mem_keys_iff.mpr ⟨r - 1, by omega,
        by rw [delMid_entries_length hu0]; omega, ?_⟩
      rw [valueAt_delMid_high s v (by omega)]
      have : r - 1 + 1 = r := by omega
      rw [this]
      exact he

theorem keys_delRes_eq (s : ObjectStore) (v : Int) :
    keys (delRes s v) = keys (delMid s v) := rfl

/-- After `erase`, a key is present iff it was present and is not the erased
one. -/
theorem mem_keys_erase {s : ObjectStore} (hI : Inv s) (v : Int) {k : Int} :
    k ∈ keys (erase s v) ↔ k ∈ keys s ∧ (k ≠ v ∨ v ∉ keys s) := by
  by_cases hmem : v ∈ keys s
  · rw [erase_eq_delRes hI hmem, keys_delRes_eq, mem_keys_delMid hI hmem]
    constructor
    · rintro ⟨h1, h2⟩; exact ⟨h1, Or.inl h2⟩
    · rintro ⟨h1, h2 | h2⟩
      · exact ⟨h1, h2⟩
      · exact absurd hmem h2
  · rw [erase_of_not_mem hI hmem]
    constructor
    · intro h; exact ⟨h, Or.inr hmem⟩
    · rintro ⟨h, -⟩; exact h

/-- After `insert`, a key is present iff it was present or is the inserted
one. -/
theorem mem_keys_insert {s : ObjectStore} (hI : Inv s) (v : Int)
    (o : Nat) (lvl : Nat) {k : Int} :
    k ∈ keys (insert s v o lvl) ↔ k ∈ keys s ∨ k = v := by
  by_cases hmem : v ∈ keys s
  · have hk : keys (insert s v o lvl) = keys s := by
      apply List.ext_getElem
      · have := insert_found_entries_length hI hmem o lvl
        simp only [keys, List.length_map]
        omega
      · intro i h1 h2
        have hl1 : i < (insert s v o lvl).entries.length := by
          simpa [keys] using h1
        have hl2 : i < s.entries.length := by simpa [keys] using h2
        have e1 : (keys (insert s v o lvl))[i] = valueAt (insert s v o lvl) (i + 1) := by
          rw [valueAt_eq (by omega) (by omega)]
          simp [keys, List.getD_eq_getElem?_getD, List.getElem?_eq_getElem hl1]
        have e2 : (keys s)[i] = valueAt s (i + 1) := by
          rw [valueAt_eq (by omega) (by omega)]
          simp [keys, List.getD_eq_getElem?_getD, List.getElem?_eq_getElem hl2]
        rw [e1, e2, valueAt_insert_found hI hmem o lvl]
    rw [hk]
    constructor
    · exact Or.inl
    · rintro (h | rfl)
      · exact h
      · exact hmem
  · rw [insert_eq_insRes hI hmem o lvl]
    exact mem_keys_insRes hI v o lvl

/-! ## API-level facts about the operations -/

theorem size_insert_new {s : ObjectStore} (hI : Inv s) {v : Int} (hnm : v ∉ keys s)
    (o : Nat) (lvl : Nat) : size (insert s v o lvl) = size s + 1 := by
  rw [insert_eq_insRes hI hnm o lvl]
  exact insRes_num s v o lvl

theorem size_insert_found {s : ObjectStore} (hI : Inv s) {v : Int} (hmem : v ∈ keys s)
    (o : Nat) (lvl : Nat) : size (insert s v o lvl) = size s :=
  insert_found_num hI hmem o lvl

theorem size_erase_mem {s : ObjectStore} (hI : Inv s) {v : Int} (hmem : v ∈ keys s) :
    size (erase s v) = size s - 1 := by
  rw [erase_eq_delRes hI hmem]
  rw [size, size, delRes_num, delMid]

theorem sorted_erase {s : ObjectStore} (hI : Inv s) (v : Int) : Sorted (erase s v) := by
  by_cases hmem : v ∈ keys s
  · rw [erase_eq_delRes hI hmem, Sorted, keys_delRes_eq]
    exact sorted_delMid hI hmem
  · rw [erase_of_not_mem hI hmem]
    exact hI.sorted

/-- After `erase(v)` the key `v` is gone: `contains` is `false`. -/
theorem contains_erase {s : ObjectStore} (hI : Inv s) (v : Int) :
    contains (erase s v) v = false := by
  have hnm : v ∉ keys (erase s v) := by
    rw [mem_keys_erase hI v]
    rintro ⟨hin, h | h⟩
    · exact h rfl
    · exact h hin
  cases hc : contains (erase s v) v
  · rfl
  · exact absurd ((contains_iff (sorted_erase hI v)).mp hc) hnm

/-- After `erase(v)`, `get(v)` returns the null handle. -/
theorem get_erase {s : ObjectStore} (hI : Inv s) (v : Int) :
    get (erase s v) v = 0 := by
  apply get_of_not_mem (sorted_erase hI v)
  rw [mem_keys_erase hI v]
  rintro ⟨hin, h | h⟩
  · exact h rfl
  · exact h hin

theorem lastLtAux_congr {s t : ObjectStore}
    (hh : ∀ r, heightAt t r = heightAt s r) (hv : ∀ r, valueAt t r = valueAt s r)
    (i : Nat) (v : Int) : ∀ p, lastLtAux t i v p = lastLtAux s i v p := by
  intro p
  induction p with
  | zero => rfl
  | succ p ih =>
    show (if i ≤ heightAt t (p + 1) ∧ valueAt t (p + 1) < v then p + 1
        else lastLtAux t i v p) =
      (if i ≤ heightAt s (p + 1) ∧ valueAt s (p + 1) < v then p + 1
        else lastLtAux s i v p)
    rw [hh, hv, ih]

theorem lastLt_congr {s t : ObjectStore} (hlen : t.entries.length = s.entries.length)
    (hh : ∀ r, heightAt t r = heightAt s r) (hv : ∀ r, valueAt t r = valueAt s r)
    (i : Nat) (v : Int) : lastLt t i v = lastLt s i v := by
  rw [lastLt, lastLt, hlen, lastLtAux_congr hh hv]

theorem get_insert_found {s : ObjectStore} (hI : Inv s) {v : Int} (hmem : v ∈ keys s)
    (o : Nat) (lvl : Nat) : get (insert s v o lvl) v = o := by
  have hI' := inv_insert_found hI hmem o lvl
  have hmem' : v ∈ keys (insert s v o lvl) :=
    (mem_keys_insert hI v o lvl).mpr (Or.inr rfl)
  rw [get_of_mem hI'.sorted hmem',
    lastLt_congr (insert_found_entries_length hI hmem o lvl)
      (heightAt_insert_found hI hmem o lvl) (valueAt_insert_found hI hmem o lvl) 0 v]
  exact objAt_insert_found_self hI hmem o lvl

theorem lastLt_zero_insRes {s : ObjectStore} (hI : Inv s) {v : Int} (hnm : v ∉ keys s)
    (o : Nat) (lvl : Nat) : lastLt (insRes s v o lvl) 0 v = lastLt s 0 v := by
  have hu0 := lastLt_le (s := s) 0 v
  apply le_antisymm
  · by_contra hgt
    have h0 : lastLt (insRes s v o lvl) 0 v ≠ 0 := by omega
    obtain ⟨-, hv⟩ := lastLt_pred h0
    have hLle : lastLt (insRes s v o lvl) 0 v ≤ (insRes s v o lvl).entries.length :=
      lastLt_le 0 v
    rw [insRes_entries_length] at hLle
    by_cases hmid : lastLt (insRes s v o lvl) 0 v = lastLt s 0 v + 1
    · rw [hmid, valueAt_insRes_mid] at hv
      omega
    · have hge : lastLt s 0 v + 2 ≤ lastLt (insRes s v o lvl) 0 v := by omega
      rw [valueAt_insRes_high s v o lvl hge] at hv
      have := gt_after_u0 hI.sorted hnm
        (r := lastLt (insRes s v o lvl) 0 v - 1) (by omega) (by omega)
      omega
  · rcases Nat.eq_zero_or_pos (lastLt s 0 v) with h0 | hpos
    · omega
    · apply lastLt_max hpos (by rw [insRes_entries_length]; omega) (Nat.zero_le _)
      rw [valueAt_insRes_low s v o lvl (le_refl _)]
      exact lt_of_le_lastLt_zero hI.sorted hpos (le_refl _)

theorem get_insert_new {s : ObjectStore} (hI : Inv s) {v : Int} (hnm : v ∉ keys s)
    (o : Nat) (lvl : Nat) : get (insert s v o lvl) v = o := by
  rw [insert_eq_insRes hI hnm o lvl]
  have hs' := sorted_insRes hI hnm o lvl
  have hmem' : v ∈ keys (insRes s v o lvl) :=
    (mem_keys_insRes hI v o lvl).mpr (Or.inr rfl)
  rw [get_of_mem hs' hmem', lastLt_zero_insRes hI hnm o lvl]
  exact objAt_insRes_mid s v o lvl

/-- `get` after any `insert` returns the handle just stored. -/
theorem get_insert {s : ObjectStore} (hI : Inv s) (v : Int) (o : Nat) (lvl : Nat) :
    get (insert s v o lvl) v = o := by
  by_cases hmem : v ∈ keys s
  · exact get_insert_found hI hmem o lvl
  · exact get_insert_new hI hmem o lvl

/-- The overwriting insert changes no handle stored under a key other than
the inserted one. -/
theorem objAt_insert_found_frame {s : ObjectStore} (hI : Inv s) {v : Int}
    (hmem : v ∈ keys s) (o : Nat) (lvl : Nat) {r : Nat}
    (hr : valueAt s r ≠ v) :
    objAt (insert s v o lvl) r = objAt s r := by
  obtain ⟨-, hval⟩ := (found_iff hI.sorted).mp hmem
  exact objAt_insert_found_ne hI hmem o lvl (fun he => hr (by rw [he, hval]))

/-- After the overwriting insert, `get` of every other key is unchanged. -/
theorem get_insert_found_other {s : ObjectStore} (hI : Inv s) {v : Int}
    (hmem : v ∈ keys s) (o : Nat) (lvl : Nat) {k : Int} (hk : k ≠ v) :
    get (insert s v o lvl) k = get s k := by
  have hI' := inv_insert_found hI hmem o lvl
  by_cases hkm : k ∈ keys s
  · have hkm' : k ∈ keys (insert s v o lvl) :=
      (mem_keys_insert hI v o lvl).mpr (Or.inl hkm)
    rw [get_of_mem hI'.sorted hkm', get_of_mem hI.sorted hkm,
      lastLt_congr (insert_found_entries_length hI hmem o lvl)
        (heightAt_insert_found hI hmem o lvl)
        (valueAt_insert_found hI hmem o lvl) 0 k]
    apply objAt_insert_found_ne hI hmem o lvl
    intro he
    obtain ⟨-, hvalk⟩ := (found_iff hI.sorted).mp hkm
    obtain ⟨-, hvalv⟩ := (found_iff hI.sorted).mp hmem
    exact hk (by rw [← hvalk, ← hvalv, he])
  · have hkm' : k ∉ keys (insert s v o lvl) := by
      rw [mem_keys_insert hI v o lvl]
      rintro (h | h)
      · exact hkm h
      · exact hk h
    rw [get_of_not_mem hI'.sorted hkm', get_of_not_mem hI.sorted hkm]

theorem nodup_keys {s : ObjectStore} (hs : Sorted s) : (keys s).Nodup :=
  (List.chain'_iff_pairwise.mp hs).imp ne_of_lt

theorem count_keys_insert {s : ObjectStore} (hI : Inv s) (v : Int) (o : Nat)
    (lvl : Nat) (hlvl : lvl ≤ MAX_LEVEL) (h0 : NullOK0 s) :
    (keys (insert s v o lvl)).count v = 1 := by
  have hI' := (insert_preserves hI h0 v o hlvl).1
  have hmem' : v ∈ keys (insert s v o lvl) :=
    (mem_keys_insert hI v o lvl).mpr (Or.inr rfl)
  have hnd := nodup_keys hI'.sorted
  have hle := List.nodup_iff_count_le_one.mp hnd v
  have hpos : 0 < (keys (insert s v o lvl)).count v := List.count_pos_iff.mpr hmem'
  omega

/-! ## The iterator walks the level-0 chain -/

theorem chainFromF_eq {s : ObjectStore} :
    ∀ (fuel p : Nat), s.entries.length ≤ p + fuel →
      chainFromF s fuel (fwdPos s 0 p) =
        List.range' (p + 1) (s.entries.length - p) := by
  intro fuel
  induction fuel with
  | zero =>
    intro p h
    have he : s.entries.length - p = 0 := by omega
    rw [he]
    cases hf : fwdPos s 0 p <;> rfl
  | succ fuel ih =>
    intro p h
    by_cases hp : p < s.entries.length
    · rw [fwdPos_zero hp]
      show (p + 1) :: chainFromF s fuel (fwdPos s 0 (p + 1)) = _
      rw [ih (p + 1) (by omega)]
      have he : s.entries.length - p = (s.entries.length - (p + 1)) + 1 := by omega
      rw [he, List.range'_succ]
    · rw [fwdPos_eq_none_iff.mpr (by omega)]
      have he : s.entries.length - p = 0 := by omega
      rw [he]
      rfl

/-- One full iteration visits positions `1, 2, …, n` in order. -/
theorem positions_eq (s : ObjectStore) :
    positions s = List.range' 1 s.entries.length := by
  rw [positions, chainFromF_eq (s.entries.length + 1) 0 (by omega)]
  simp

/-- The keys seen by one full iteration are exactly the stored keys, in chain
order. -/
theorem toKeys_eq (s : ObjectStore) : toKeys s = keys s := by
  rw [toKeys, positions_eq]
  apply List.ext_getElem
  · simp [keys]
  · intro i h1 h2
    have hl : i < s.entries.length := by simpa [keys] using h2
    have hr : i < (List.range' 1 s.entries.length).length := by simpa using h1
    simp only [List.getElem_map, List.getElem_range']
    rw [valueAt_eq (by omega) (by omega)]
    simp [keys, List.getD_eq_getElem?_getD, List.getElem?_eq_getElem hl]

/-- The handles seen by one full iteration are exactly the stored handles, in
chain order. -/
theorem toList_eq (s : ObjectStore) : toList s = s.entries.map Entry.obj := by
  rw [toList, positions_eq]
  apply List.ext_getElem
  · simp
  · intro i h1 h2
    have hl : i < s.entries.length := by simpa using h2
    simp only [List.getElem_map, List.getElem_range']
    rw [objAt_eq (by omega) (by omega)]
    simp [List.getD_eq_getElem?_getD, List.getElem?_eq_getElem hl]

/-! ## The full span-bookkeeping condition of the spec, decidably -/

/-- `link_length[i]` of the node at `p` counts the level-0 links to the node
its level-`i` forward pointer designates, or to the end of the list for a
`NULL` pointer. -/
def spanAtB (s : ObjectStore) (p i : Nat) : Bool :=
  match fwdPos s i p with
  | some q => llAt s p i == (q : Int) - (p : Int)
  | none => llAt s p i == (s.entries.length : Int) + 1 - (p : Int)

/-- The complete span-bookkeeping condition: every maintained `link_length`
counts its level-0 links (with the `NULL`-link convention), every level-0
link has length 1, and `num_entries` counts the entries reachable along
level 0. -/
def C2full (s : ObjectStore) : Bool :=
  ((List.range (s.entries.length + 1)).all fun p =>
    (List.range ((if p = 0 then s.level else heightAt s p) + 1)).all fun i =>
      spanAtB s p i) &&
  ((List.range (s.entries.length + 1)).all fun p => llAt s p 0 == 1) &&
  (s.num_entries == ((toList s).length : Int))

theorem c2full_of_inv {s : ObjectStore} (hI : Inv s) (hns : NullSpanOK s) :
    C2full s = true := by
  have hcnt : s.num_entries = (s.entries.length : Int) := hI.count
  rw [C2full, Bool.and_eq_true, Bool.and_eq_true]
  refine ⟨⟨?_, ?_⟩, ?_⟩
  · rw [List.all_eq_true]
    intro p hp
    rw [List.mem_range] at hp
    rw [List.all_eq_true]
    intro i hi
    rw [List.mem_range] at hi
    have hple : p ≤ s.entries.length := by omega
    have hh : i ≤ heightAt s p := by
      by_cases h0 : p = 0
      · subst h0
        rw [heightAt_zero]
        have := hI.levle
        split at hi <;> omega
      · rw [if_neg h0] at hi
        omega
    have hlev : p = 0 → i ≤ s.level := by
      intro h0
      subst h0
      rw [if_pos rfl] at hi
      omega
    rw [spanAtB]
    cases hf : fwdPos s i p with
    | some q =>
      rw [hI.span p i q hple hh hlev hf]
      simp
    | none =>
      rw [hns p i hple hh hlev hf, hcnt]
      simp
  · rw [List.all_eq_true]
    intro p hp
    rw [List.mem_range] at hp
    have hple : p ≤ s.entries.length := by omega
    have hh : 0 ≤ heightAt s p := Nat.zero_le _
    have hlev : p = 0 → 0 ≤ s.level := fun _ => Nat.zero_le _
    by_cases hlt : p < s.entries.length
    · rw [hI.span p 0 (p + 1) hple hh hlev (fwdPos_zero hlt)]
      simp
    · rw [hns p 0 hple hh hlev (fwdPos_eq_none_iff.mpr (by omega)), hcnt]
      have he : p = s.entries.length := by omega
      rw [he]
      simp
  · rw [toList_eq]
    simp [hcnt]

/-- After a sequence with at least one `insert`, the full null-link
convention holds (the fresh store's zero-initialised header links have been
overwritten). -/
theorem applyOps_nullspan {l1 l2 : List Op} {v : Int} {o lvl : Nat}
    (h : LvlOK (l1 ++ Op.ins v o lvl :: l2) = true) :
    Inv (applyOps (l1 ++ Op.ins v o lvl :: l2)) ∧
      NullSpanOK (applyOps (l1 ++ Op.ins v o lvl :: l2)) := by
  rw [LvlOK, List.all_append, Bool.and_eq_true] at h
  obtain ⟨ha, hb⟩ := h
  rw [List.all_cons, Bool.and_eq_true] at hb
  obtain ⟨hop, hc⟩ := hb
  have hlvl : lvl ≤ MAX_LEVEL := by
    simp only [decide_eq_true_eq] at hop
    exact hop
  obtain ⟨hI1, h01⟩ := foldl_inv l1 emptyStore inv_emptyStore nullOK0_emptyStore ha
  obtain ⟨hI2, hns2⟩ := insert_preserves hI1 h01 v o hlvl
  rw [applyOps, List.foldl_append, List.foldl_cons]
  exact foldl_nullspan l2 _ hI2 hns2 hc

/-! ## Non-null handles -/

/-- Every stored handle is non-`NULL`. -/
def ObjPos (s : ObjectStore) : Prop :=
  ∀ r, 1 ≤ r → r ≤ s.entries.length → objAt s r ≠ 0

theorem objPos_insert_found {s : ObjectStore} (hI : Inv s) {v : Int}
    (hmem : v ∈ keys s) {o : Nat} (ho : o ≠ 0) (lvl : Nat) (hp : ObjPos s) :
    ObjPos (insert s v o lvl) := by
  intro r h1 h2
  rw [insert_found_entries_length hI hmem o lvl] at h2
  by_cases hr : r = lastLt s 0 v + 1
  · subst hr
    rw [objAt_insert_found_self hI hmem o lvl]
    exact ho
  · rw [objAt_insert_found_ne hI hmem o lvl hr]
    exact hp r h1 h2

theorem objPos_insRes (s : ObjectStore) {v : Int} {o : Nat} (ho : o ≠ 0)
    (lvl : Nat) (hp : ObjPos s) : ObjPos (insRes s v o lvl) := by
  intro r h1 h2
  rw [insRes_entries_length] at h2
  by_cases hlo : r ≤ lastLt s 0 v
  · rw [objAt_insRes_low s v o lvl hlo]
    exact hp r h1 (le_trans hlo (lastLt_le 0 v))
  · by_cases hmid : r = lastLt s 0 v + 1
    · subst hmid
      rw [objAt_insRes_mid]
      exact ho
    · rw [objAt_insRes_high s v o lvl (by omega)]
      exact hp (r - 1) (by omega) (by omega)

theorem objPos_erase {s : ObjectStore} (hI : Inv s) (v : Int) (hp : ObjPos s) :
    ObjPos (erase s v) := by
  by_cases hmem : v ∈ keys s
  · obtain ⟨hu0, -⟩ := (found_iff hI.sorted).mp hmem
    rw [erase_eq_delRes hI hmem]
    intro r h1 h2
    rw [delRes_entries_length, delMid_entries_length hu0] at h2
    rw [objAt_delRes]
    by_cases hlo : r ≤ lastLt s 0 v
    · rw [objAt_delMid_low s v hlo]
      exact hp r h1 (by omega)
    · rw [objAt_delMid_high s v (by omega)]
      exact hp (r + 1) (by omega) (by omega)
  · rw [erase_of_not_mem hI hmem]
    exact hp

theorem foldl_objPos :
    ∀ (ops : List Op) (s : ObjectStore), Inv s → NullOK0 s → LvlOK ops = true →
      ObjOK ops = true → ObjPos s → ObjPos (ops.foldl applyOp s) := by
  intro ops
  induction ops with
  | nil => exact fun s _ _ _ _ hp => hp
  | cons op ops ih =>
    intro s h1 h2 hok hobj hp
    rw [LvlOK, List.all_cons, Bool.and_eq_true] at hok
    rw [ObjOK, List.all_cons, Bool.and_eq_true] at hobj
    rw [List.foldl_cons]
    cases op with
    | ins v o lvl =>
      have hlvl : lvl ≤ MAX_LEVEL := by
        have := hok.1
        simp only [decide_eq_true_eq] at this
        exact this
      have ho : o ≠ 0 := by
        have := hobj.1
        simp only [decide_eq_true_eq] at this
        exact this
      obtain ⟨hi, hns⟩ := insert_preserves h1 h2 v o hlvl
      have hp' : ObjPos (applyOp s (Op.ins v o lvl)) := by
        show ObjPos (insert s v o lvl)
        by_cases hmem : v ∈ keys s
        · exact objPos_insert_found h1 hmem ho lvl hp
        · rw [insert_eq_insRes h1 hmem o lvl]
          exact objPos_insRes s ho lvl hp
      exact ih _ hi (nullSpanOK_to_nullOK0 hns) hok.2 hobj.2 hp'
    | del v =>
      obtain ⟨hi, h0x, -⟩ := erase_preserves h1 h2 v
      exact ih _ hi h0x hok.2 hobj.2 (objPos_erase h1 v hp)

theorem applyOps_objPos {ops : List Op} (h1 : LvlOK ops = true)
    (h2 : ObjOK ops = true) : ObjPos (applyOps ops) :=
  foldl_objPos ops emptyStore inv_emptyStore nullOK0_emptyStore h1 h2
    (fun r hr1 hr2 => by
      simp [emptyStore] at hr2
      omega)

theorem contains_iff_get_ne {s : ObjectStore} (hI : Inv s) (hp : ObjPos s)
    (k : Int) : contains s k = true ↔ get s k ≠ 0 := by
  by_cases hmem : k ∈ keys s
  · obtain ⟨hu0, -⟩ := (found_iff hI.sorted).mp hmem
    constructor
    · intro hc
      rw [get_of_mem hI.sorted hmem]
      exact hp (lastLt s 0 k + 1) (by omega) (by omega)
    · intro hg
      exact (contains_iff hI.sorted).mpr hmem
  · constructor
    · intro hc
      exact absurd ((contains_iff hI.sorted).mp hc) hmem
    · intro hg
      exact absurd (get_of_not_mem hI.sorted hmem) hg

/-! ## Ranks and keys -/

/-- The level-0 stop of the key stored at position `r` is `r - 1`. -/
theorem lastLt_zero_valueAt {s : ObjectStore} (hs : Sorted s) {r : Nat}
    (h1 : 1 ≤ r) (h2 : r ≤ s.entries.length) :
    lastLt s 0 (valueAt s r) = r - 1 := by
  apply le_antisymm
  · by_contra hgt
    have hge : r ≤ lastLt s 0 (valueAt s r) := by omega
    have h0 : lastLt s 0 (valueAt s r) ≠ 0 := by omega
    obtain ⟨-, hv⟩ := lastLt_pred h0
    rcases Nat.eq_or_lt_of_le hge with he | hlt
    · rw [← he] at hv
      omega
    · have := sorted_lt hs h1 hlt (lastLt_le _ _)
      omega
  · rcases Nat.eq_zero_or_pos (r - 1) with h0 | hpos
    · omega
    · have he : valueAt s (r - 1) < valueAt s r := sorted_lt hs hpos (by omega) h2
      exact lastLt_max hpos (by omega) (Nat.zero_le _) he

/-- `get` applied to the key stored at position `r` yields the handle stored
at position `r`. -/
theorem get_rank {s : ObjectStore} (hI : Inv s) {r : Nat} (h1 : 1 ≤ r)
    (h2 : r ≤ s.entries.length) : get s (valueAt s r) = objAt s r := by
  have hmem : valueAt s r ∈ keys s := mem_keys_iff.mpr ⟨r, h1, h2, rfl⟩
  rw [get_of_mem hI.sorted hmem, lastLt_zero_valueAt hI.sorted h1 h2]
  congr 1
  omega

/-! ## The claims about the Ordered Indexed Store -/

/-- C1: After any sequence of `insert` and `erase` operations, the present
keys in ascending order are `keys`; for every index `i` in `[0, size)`,
`get_at_index i` succeeds with the handle whose key is the i-th smallest
(0-indexed) present key — the handle `get` associates with
`(keys _).getD i.toNat 0` — and for every `i` outside `[0, size)` it fails
with the out-of-bounds `ElementNotFoundException`. (`get_at_index` is a
pure query in this embedding, so the store is unchanged by construction.) -/
theorem claim_C1 (ops : List Op) (h : LvlOK ops = true) (i : Int) :
    (keys (applyOps ops)).Chain' (· < ·) ∧
    (0 ≤ i → i < size (applyOps ops) →
      get_at_index (applyOps ops) i =
        .ok (get (applyOps ops) ((keys (applyOps ops)).getD i.toNat 0))) ∧
    (i < 0 ∨ size (applyOps ops) ≤ i →
      get_at_index (applyOps ops) i = .error ⟨"ObjectStore: out of bounds"⟩) := by
  obtain ⟨hI, -⟩ := applyOps_inv h
  refine ⟨hI.sorted, ?_, ?_⟩
  · intro h1 h2
    have h2' : i < (applyOps ops).num_entries := h2
    have hn : (applyOps ops).num_entries = ((applyOps ops).entries.length : Int) :=
      hI.count
    have hr2 : i.toNat + 1 ≤ (applyOps ops).entries.length := by omega
    rw [get_at_index_ok hI h1 h2']
    have hk : (keys (applyOps ops)).getD i.toNat 0 =
        valueAt (applyOps ops) (i.toNat + 1) := by
      have := keys_getD (s := applyOps ops) (r := i.toNat + 1) (by omega) hr2
      simpa using this
    rw [hk, get_rank hI (by omega) hr2]
  · intro hout
    exact get_at_index_err (applyOps ops) hout

theorem claim_C1_witness :
    LvlOK [Op.ins 5 7 1, Op.ins 3 4 0] = true ∧
      get_at_index (applyOps [Op.ins 5 7 1, Op.ins 3 4 0]) 1 = .ok 7 ∧
      get_at_index (applyOps [Op.ins 5 7 1, Op.ins 3 4 0]) 5 =
        .error ⟨"ObjectStore: out of bounds"⟩ := by
  refine ⟨by decide, ?_, ?_⟩
  · have h := (claim_C1 [Op.ins 5 7 1, Op.ins 3 4 0] (by decide) 1).2.1
      (by decide) (by decide)
    have h2 : get (applyOps [Op.ins 5 7 1, Op.ins 3 4 0])
        ((keys (applyOps [Op.ins 5 7 1, Op.ins 3 4 0])).getD (1 : Int).toNat 0) = 7 := by
      decide
    rw [h2] at h
    exact h
  · exact (claim_C1 [Op.ins 5 7 1, Op.ins 3 4 0] (by decide) 5).2.2 (by decide)

/-- C2 as stated is falsified by the freshly constructed store (the empty
operation sequence): the constructor zero-initialises the header's
`link_length` slots (line 207), while the convention for a `NULL` link at
level `i` of position `p` requires `num_entries + 1 - p = 1`.  `C2full` is
the claim's condition, decidably: every maintained `link_length[i]` counts
its level-0 links (with that `NULL` convention), every level-0 link has
length 1, and `num_entries` counts the entries reachable along level 0. -/
theorem claim_C2_counterexample : C2full (applyOps []) = false := by decide

/-- C2 (amended): after any operation sequence that contains at least one
`insert`, the span bookkeeping is fully consistent: every maintained
`link_length[i]` (header included) counts the level-0 links to the node the
level-`i` forward pointer designates — `num_entries + 1 - p` for a `NULL`
pointer — every level-0 link has length 1, and `num_entries` counts the
entries reachable from the header along level 0.  (The unamended claim only
fails on stores that no insert has touched, where the zero-initialised
header slots disagree with the `NULL` convention.) -/
theorem claim_C2 (l1 l2 : List Op) (v : Int) (o lvl : Nat)
    (h : LvlOK (l1 ++ Op.ins v o lvl :: l2) = true) :
    C2full (applyOps (l1 ++ Op.ins v o lvl :: l2)) = true := by
  obtain ⟨hI, hns⟩ := applyOps_nullspan h
  exact c2full_of_inv hI hns

theorem claim_C2_witness :
    LvlOK ([Op.ins 5 7 1] ++ Op.ins 3 4 0 :: [Op.del 5, Op.del 3]) = true ∧
      C2full (applyOps ([Op.ins 5 7 1] ++ Op.ins 3 4 0 :: [Op.del 5, Op.del 3])) =
        true :=
  ⟨by decide, claim_C2 [Op.ins 5 7 1] [Op.del 5, Op.del 3] 3 4 0 (by decide)⟩

/-- C3: After `erase k`, `contains k` is `false` and `get k` is the null
handle; if `k` was present the size decreases by exactly 1; if `k` was
absent the erase is a no-op and the state is unchanged. -/
theorem claim_C3 (ops : List Op) (h : LvlOK ops = true) (k : Int) :
    contains (erase (applyOps ops) k) k = false ∧
    get (erase (applyOps ops) k) k = 0 ∧
    (contains (applyOps ops) k = true →
      size (erase (applyOps ops) k) = size (applyOps ops) - 1) ∧
    (contains (applyOps ops) k = false →
      erase (applyOps ops) k = applyOps ops) := by
  obtain ⟨hI, -⟩ := applyOps_inv h
  refine ⟨contains_erase hI k, get_erase hI k, ?_, ?_⟩
  · intro hc
    exact size_erase_mem hI ((contains_iff hI.sorted).mp hc)
  · intro hc
    apply erase_of_not_mem hI
    intro hmem
    rw [(contains_iff hI.sorted).mpr hmem] at hc
    exact Bool.noConfusion hc

theorem claim_C3_witness :
    LvlOK [Op.ins 5 7 0, Op.ins 3 4 1] = true ∧
      contains (erase (applyOps [Op.ins 5 7 0, Op.ins 3 4 1]) 5) 5 = false ∧
      get (erase (applyOps [Op.ins 5 7 0, Op.ins 3 4 1]) 5) 5 = 0 ∧
      size (erase (applyOps [Op.ins 5 7 0, Op.ins 3 4 1]) 5) =
        size (applyOps [Op.ins 5 7 0, Op.ins 3 4 1]) - 1 :=
  ⟨by decide, (claim_C3 [Op.ins 5 7 0, Op.ins 3 4 1] (by decide) 5).1,
    (claim_C3 [Op.ins 5 7 0, Op.ins 3 4 1] (by decide) 5).2.1,
    (claim_C3 [Op.ins 5 7 0, Op.ins 3 4 1] (by decide) 5).2.2.1 (by decide)⟩

/-- C4: Inserting a key that is already present leaves the whole structure —
entry list length, level, header links, every key, every tower height, every
span, the size — unchanged, and updates only the stored handle: the handle
of every entry whose key is not the inserted one is unchanged, and `get` of
every other key is unchanged; exactly one entry for the key remains, and
`get` then returns the latest handle. -/
theorem claim_C4 (ops : List Op) (h : LvlOK ops = true) (k : Int) (o lvl : Nat)
    (hlvl : lvl ≤ MAX_LEVEL) (hc : contains (applyOps ops) k = true) :
    (insert (applyOps ops) k o lvl).entries.length =
      (applyOps ops).entries.length ∧
    (insert (applyOps ops) k o lvl).level = (applyOps ops).level ∧
    (insert (applyOps ops) k o lvl).headerLinks = (applyOps ops).headerLinks ∧
    size (insert (applyOps ops) k o lvl) = size (applyOps ops) ∧
    (∀ r, valueAt (insert (applyOps ops) k o lvl) r = valueAt (applyOps ops) r) ∧
    (∀ r, heightAt (insert (applyOps ops) k o lvl) r = heightAt (applyOps ops) r) ∧
    (∀ r i, llAt (insert (applyOps ops) k o lvl) r i = llAt (applyOps ops) r i) ∧
    (∀ r, valueAt (applyOps ops) r ≠ k →
      objAt (insert (applyOps ops) k o lvl) r = objAt (applyOps ops) r) ∧
    (∀ k2, k2 ≠ k →
      get (insert (applyOps ops) k o lvl) k2 = get (applyOps ops) k2) ∧
    (keys (insert (applyOps ops) k o lvl)).count k = 1 ∧
    get (insert (applyOps ops) k o lvl) k = o := by
  obtain ⟨hI, h0⟩ := applyOps_inv h
  have hmem := (contains_iff hI.sorted).mp hc
  exact ⟨insert_found_entries_length hI hmem o lvl, insert_found_level hI hmem o lvl,
    insert_found_headerLinks hI hmem o lvl, size_insert_found hI hmem o lvl,
    valueAt_insert_found hI hmem o lvl, heightAt_insert_found hI hmem o lvl,
    llAt_insert_found hI hmem o lvl,
    fun r hr => objAt_insert_found_frame hI hmem o lvl hr,
    fun k2 hk2 => get_insert_found_other hI hmem o lvl hk2,
    count_keys_insert hI k o lvl hlvl h0,
    get_insert_found hI hmem o lvl⟩

theorem claim_C4_witness :
    LvlOK [Op.ins 5 7 0, Op.ins 3 4 1] = true ∧ 0 ≤ MAX_LEVEL ∧
      contains (applyOps [Op.ins 5 7 0, Op.ins 3 4 1]) 5 = true ∧
      size (insert (applyOps [Op.ins 5 7 0, Op.ins 3 4 1]) 5 9 0) =
        size (applyOps [Op.ins 5 7 0, Op.ins 3 4 1]) ∧
      (keys (insert (applyOps [Op.ins 5 7 0, Op.ins 3 4 1]) 5 9 0)).count 5 = 1 ∧
      get (insert (applyOps [Op.ins 5 7 0, Op.ins 3 4 1]) 5 9 0) 3 =
        get (applyOps [Op.ins 5 7 0, Op.ins 3 4 1]) 3 ∧
      get (insert (applyOps [Op.ins 5 7 0, Op.ins 3 4 1]) 5 9 0) 5 = 9 :=
  ⟨by decide, by decide, by decide,
    (claim_C4 [Op.ins 5 7 0, Op.ins 3 4 1] (by decide) 5 9 0 (by decide)
      (by decide)).2.2.2.1,
    (claim_C4 [Op.ins 5 7 0, Op.ins 3 4 1] (by decide) 5 9 0 (by decide)
      (by decide)).2.2.2.2.2.2.2.2.2.1,
    (claim_C4 [Op.ins 5 7 0, Op.ins 3 4 1] (by decide) 5 9 0 (by decide)
      (by decide)).2.2.2.2.2.2.2.2.1 3 (by decide),
    (claim_C4 [Op.ins 5 7 0, Op.ins 3 4 1] (by decide) 5 9 0 (by decide)
      (by decide)).2.2.2.2.2.2.2.2.2.2⟩

/-- C5: One full `begin()`-to-`end()` iteration yields exactly the stored
handles in chain order, the keys seen are the stored keys in strictly
ascending order, and the sequence is finite with exactly `size` elements.
Iteration is a pure function of the store in this embedding, so two complete
iterations of an unmodified store are identical by construction
(restartability). -/
theorem claim_C5 (ops : List Op) (h : LvlOK ops = true) :
    toKeys (applyOps ops) = keys (applyOps ops) ∧
    (toKeys (applyOps ops)).Chain' (· < ·) ∧
    toList (applyOps ops) = (applyOps ops).entries.map Entry.obj ∧
    ((toList (applyOps ops)).length : Int) = size (applyOps ops) := by
  obtain ⟨hI, -⟩ := applyOps_inv h
  refine ⟨toKeys_eq _, ?_, toList_eq _, ?_⟩
  · rw [toKeys_eq]
    exact hI.sorted
  · rw [toList_eq, List.length_map]
    exact hI.count.symm

theorem claim_C5_witness :
    LvlOK [Op.ins 5 7 0, Op.ins 3 4 1] = true ∧
      (toKeys (applyOps [Op.ins 5 7 0, Op.ins 3 4 1]) =
          keys (applyOps [Op.ins 5 7 0, Op.ins 3 4 1]) ∧
        (toKeys (applyOps [Op.ins 5 7 0, Op.ins 3 4 1])).Chain' (· < ·) ∧
        toList (applyOps [Op.ins 5 7 0, Op.ins 3 4 1]) =
          (applyOps [Op.ins 5 7 0, Op.ins 3 4 1]).entries.map Entry.obj ∧
        ((toList (applyOps [Op.ins 5 7 0, Op.ins 3 4 1])).length : Int) =
          size (applyOps [Op.ins 5 7 0, Op.ins 3 4 1])) :=
  ⟨by decide, claim_C5 [Op.ins 5 7 0, Op.ins 3 4 1] (by decide)⟩

/-- C10: `contains k` is `true` exactly when `get k` returns a non-null
handle.  The handles the network stores are shared pointers to live
entities, hence non-null, modelled by the `ObjOK` hypothesis; both
operations are pure queries in this embedding, so the store is unchanged
and no error is raised by construction. -/
theorem claim_C10 (ops : List Op) (h1 : LvlOK ops = true) (h2 : ObjOK ops = true)
    (k : Int) : contains (applyOps ops) k = true ↔ get (applyOps ops) k ≠ 0 := by
  obtain ⟨hI, -⟩ := applyOps_inv h1
  exact contains_iff_get_ne hI (applyOps_objPos h1 h2) k

theorem claim_C10_witness :
    LvlOK [Op.ins 5 7 0, Op.del 5] = true ∧ ObjOK [Op.ins 5 7 0, Op.del 5] = true ∧
      (contains (applyOps [Op.ins 5 7 0, Op.del 5]) 5 = true ↔
        get (applyOps [Op.ins 5 7 0, Op.del 5]) 5 ≠ 0) :=
  ⟨by decide, by decide, claim_C10 [Op.ins 5 7 0, Op.del 5] (by decide) (by decide) 5⟩

end ObjectStore

/-! ## The attribute store and the multilayer network

The repository's `src/` tree only carries the declarations of
`AttributeStore` and `MLNetwork` (`datastructures.h`, lines 470-565 and
573-902): their member bodies live in implementation files that are not part
of the staged sources.  The definitions below are therefore modelled from
the spec's words (the behavioural sections on the Attribute Store and the
Network Container), over the private state the header declares.  Entities
are identified by their integer ids — the header stores shared pointers,
with one record per entity and equality by id, so an id names its entity
uniquely — and the secondary indexes (by name, per layer, per actor,
per layer pair) are derived views of the primary id-indexed collections:
the header's shared-ownership design makes every index observe the same
entities, so a claim about "every index" is a claim about the primary
collection and its derived views. -/

/-- The C++ error conditions used by the store and network operations
(`DuplicateElementException`, `ElementNotFoundException`,
`OperationNotSupportedException` / type mismatch). -/
inductive NetError where
  | DuplicateElement
  | NotFound
  | TypeMismatch
deriving Repr, DecidableEq

/-- `attribute_type` (line 62): `STRING_TYPE = 0`, `NUMERIC_TYPE = 1`. -/
inductive attribute_type where
  | STRING_TYPE
  | NUMERIC_TYPE
deriving Repr, DecidableEq

/-- Finite map as an association list (`std::map`), first binding wins. -/
def alookup {α β : Type} [DecidableEq α] : List (α × β) → α → Option β
  | [], _ => none
  | (k, v) :: rest, a => if k = a then some v else alookup rest a

/-- `std::map` assignment `m[a] = b`. -/
def aupdate {α β : Type} [DecidableEq α] : List (α × β) → α → β → List (α × β)
  | [], a, b => [(a, b)]
  | (k, v) :: rest, a, b =>
    if k = a then (a, b) :: rest else (k, v) :: aupdate rest a b

theorem alookup_append_of_none {α β : Type} [DecidableEq α]
    {l1 : List (α × β)} {a : α} (l2 : List (α × β))
    (h : alookup l1 a = none) : alookup (l1 ++ l2) a = alookup l2 a := by
  induction l1 with
  | nil => rfl
  | cons p l ih =>
    obtain ⟨k, v⟩ := p
    rw [alookup] at h
    rw [List.cons_append, alookup]
    by_cases hk : k = a
    · rw [if_pos hk] at h
      exact Option.noConfusion h
    · rw [if_neg hk] at h ⊢
      exact ih h

theorem alookup_append_of_some {α β : Type} [DecidableEq α]
    {l1 : List (α × β)} {a : α} {b : β} (l2 : List (α × β))
    (h : alookup l1 a = some b) : alookup (l1 ++ l2) a = some b := by
  induction l1 with
  | nil => exact Option.noConfusion h
  | cons p l ih =>
    obtain ⟨k, v⟩ := p
    rw [alookup] at h
    rw [List.cons_append, alookup]
    by_cases hk : k = a
    · rw [if_pos hk] at h ⊢
      exact h
    · rw [if_neg hk] at h ⊢
      exact ih h

theorem alookup_aupdate_self {α β : Type} [DecidableEq α]
    (l : List (α × β)) (a : α) (b : β) : alookup (aupdate l a b) a = some b := by
  induction l with
  | nil => simp [aupdate, alookup]
  | cons p l ih =>
    obtain ⟨k, v⟩ := p
    rw [aupdate]
    by_cases hk : k = a
    · rw [if_pos hk, alookup, if_pos rfl]
    · rw [if_neg hk, alookup, if_neg hk]
      exact ih

theorem alookup_aupdate_ne {α β : Type} [DecidableEq α]
    (l : List (α × β)) {a a' : α} (b : β) (h : a' ≠ a) :
    alookup (aupdate l a b) a' = alookup l a' := by
  induction l with
  | nil =>
    show alookup [(a, b)] a' = none
    rw [alookup, if_neg (fun he => h he.symm)]
    rfl
  | cons p l ih =>
    obtain ⟨k, v⟩ := p
    rw [aupdate]
    by_cases hk : k = a
    · rw [if_pos hk, alookup, alookup, if_neg (fun he => h he.symm),
        if_neg (by rw [hk]; exact fun he => h he.symm)]
    · rw [if_neg hk, alookup, alookup]
      by_cases hk' : k = a'
      · rw [if_pos hk', if_pos hk']
      · rw [if_neg hk', if_neg hk']
        exact ih

/-- Modelled from the spec: the Attribute Store's state as the header
declares it (lines 553-564) — the registered attributes with their types,
and per-attribute maps from object id to the stored string or numeric
value, plus the public default values (0.0 and ""). C++ `double` values are
modelled as exact rationals: the store only moves values, it never computes
with them. -/
structure AttributeStore where
  attribute_vector : List (String × attribute_type)
  string_attribute : List (String × List (Int × String))
  numeric_attribute : List (String × List (Int × Rat))
  default_numeric : Rat
  default_string : String
deriving Repr, DecidableEq

/-- A freshly created attribute store. -/
def emptyAttributeStore : AttributeStore := ⟨[], [], [], 0, ""⟩

/-- Modelled from the spec: `add(name, type)` registers a new attribute and
fails with a duplicate-element error if `name` is already registered. -/
def AttributeStore.add (st : AttributeStore) (name : String)
    (t : attribute_type) : Except NetError AttributeStore :=
  match alookup st.attribute_vector name with
  | some _ => .error .DuplicateElement
  | none =>
    .ok { st with attribute_vector := st.attribute_vector ++ [(name, t)] }

/-- Modelled from the spec: `setNumeric(id, name, v)` fails with NotFound if
`name` is unregistered, with a type mismatch if `name` is not numeric, and
otherwise stores `v` for `id` under `name`. -/
def AttributeStore.setNumeric (st : AttributeStore) (oid : Int)
    (name : String) (v : Rat) : Except NetError AttributeStore :=
  match alookup st.attribute_vector name with
  | none => .error .NotFound
  | some .STRING_TYPE => .error .TypeMismatch
  | some .NUMERIC_TYPE =>
    .ok { st with numeric_attribute := (aupdate st.numeric_attribute name
            (aupdate ((alookup st.numeric_attribute name).getD []) oid v)) }

/-- Modelled from the spec: `setString(id, name, v)`, dually. -/
def AttributeStore.setString (st : AttributeStore) (oid : Int)
    (name : String) (v : String) : Except NetError AttributeStore :=
  match alookup st.attribute_vector name with
  | none => .error .NotFound
  | some .NUMERIC_TYPE => .error .TypeMismatch
  | some .STRING_TYPE =>
    .ok { st with string_attribute := (aupdate st.string_attribute name
            (aupdate ((alookup st.string_attribute name).getD []) oid v)) }

/-- Modelled from the spec: `getNumeric(id, name)` fails with NotFound if
`name` is unregistered; for a registered numeric attribute it returns the
stored value, or the numeric default when `id` has never been set — absence
of the id is not an error. -/
def AttributeStore.getNumeric (st : AttributeStore) (oid : Int)
    (name : String) : Except NetError Rat :=
  match alookup st.attribute_vector name with
  | none => .error .NotFound
  | some .STRING_TYPE => .error .TypeMismatch
  | some .NUMERIC_TYPE =>
    match alookup ((alookup st.numeric_attribute name).getD []) oid with
    | some v => .ok v
    | none => .ok st.default_numeric

/-- Modelled from the spec: `getString(id, name)`, dually, with the string
default `""`. -/
def AttributeStore.getString (st : AttributeStore) (oid : Int)
    (name : String) : Except NetError String :=
  match alookup st.attribute_vector name with
  | none => .error .NotFound
  | some .NUMERIC_TYPE => .error .TypeMismatch
  | some .STRING_TYPE =>
    match alookup ((alookup st.string_attribute name).getD []) oid with
    | some v => .ok v
    | none => .ok st.default_string

/-- `DEFAULT_EDGE_DIRECTIONALITY` (line 56): undirected edges by default. -/
def DEFAULT_EDGE_DIRECTIONALITY : Bool := false

/-- `actor` (lines 91-103): id and name, equality by id. -/
structure actor where
  id : Int
  name : String
deriving Repr, DecidableEq

/-- `layer` (lines 110-124). -/
structure layer where
  id : Int
  name : String
deriving Repr, DecidableEq

/-- `node` (lines 131-147): a node references its actor and its layer. -/
structure node where
  id : Int
  actor_id : Int
  layer_id : Int
deriving Repr, DecidableEq

/-- `edge` (lines 154-170): two endpoint nodes and the directionality flag
fixed at creation. -/
structure edge where
  id : Int
  n1 : Int
  n2 : Int
  directed : Bool
deriving Repr, DecidableEq

/-- Modelled from the spec: the network's state as the header declares it
(lines 862-901) — the id counters, the per-ordered-layer-pair
directionality policy, and the primary collections of actors, layers,
nodes and edges in insertion order.  The by-name, per-layer, per-actor and
per-layer-pair indexes of the header are derived views of these primary
collections (one shared record per entity, every index observing the same
mutations). -/
structure MLNetwork where
  max_node_id : Int
  max_edge_id : Int
  max_actor_id : Int
  max_layer_id : Int
  edge_directionality : List ((Int × Int) × Bool)
  actors : List actor
  layers : List layer
  nodes : List node
  edges : List edge
deriving Repr, DecidableEq

/-- An empty network, as `MLNetwork::create` makes it. -/
def emptyNetwork : MLNetwork := ⟨0, 0, 0, 0, [], [], [], [], []⟩

/-- Modelled from the spec: `add_actor(name)` allocates a fresh actor id and
fails with DuplicateElement when the name collides with an existing actor
name; nothing is modified on the failing path (the error is raised before
any index is touched, and the functional model returns no state with it). -/
def MLNetwork.add_actor (net : MLNetwork) (name : String) :
    Except NetError (MLNetwork × actor) :=
  if net.actors.any (fun a => a.name == name) then .error .DuplicateElement
  else
    let a : actor := ⟨net.max_actor_id + 1, name⟩
    .ok ({ net with max_actor_id := net.max_actor_id + 1,
                    actors := net.actors ++ [a] }, a)

/-- Modelled from the spec: `add_layer(name, directed)` allocates a fresh
layer id, records `directed` as the directionality policy of the layer's
intra-layer edges, and fails with DuplicateElement on a name collision,
modifying nothing on that path. -/
def MLNetwork.add_layer (net : MLNetwork) (name : String) (directed : Bool) :
    Except NetError (MLNetwork × layer) :=
  if net.layers.any (fun l => l.name == name) then .error .DuplicateElement
  else
    let l : layer := ⟨net.max_layer_id + 1, name⟩
    .ok ({ net with max_layer_id := net.max_layer_id + 1,
                    layers := net.layers ++ [l],
                    edge_directionality :=
                      (aupdate net.edge_directionality (l.id, l.id) directed) }, l)

/-- Modelled from the spec: `is_directed(l1, l2)` reads the per-ordered-pair
policy, defaulting to the global default when unset. -/
def MLNetwork.is_directed (net : MLNetwork) (l1 l2 : Int) : Bool :=
  (alookup net.edge_directionality (l1, l2)).getD DEFAULT_EDGE_DIRECTIONALITY

/-- Modelled from the spec: `set_directed(l1, l2, d)` stores the
per-ordered-pair policy. -/
def MLNetwork.set_directed (net : MLNetwork) (l1 l2 : Int) (d : Bool) :
    MLNetwork :=
  { net with edge_directionality := aupdate net.edge_directionality (l1, l2) d }

/-- Modelled from the spec: `add_node(actor, layer)` requires both to be
present and allocates a fresh node id. -/
def MLNetwork.add_node (net : MLNetwork) (aid lid : Int) :
    Except NetError (MLNetwork × node) :=
  if net.actors.any (fun a => a.id == aid) && net.layers.any (fun l => l.id == lid)
  then
    let n : node := ⟨net.max_node_id + 1, aid, lid⟩
    .ok ({ net with max_node_id := net.max_node_id + 1,
                    nodes := net.nodes ++ [n] }, n)
  else .error .NotFound

/-- The layer of the node with id `nid` (0 when no such node exists). -/
def MLNetwork.layer_of (net : MLNetwork) (nid : Int) : Int :=
  ((net.nodes.find? fun n => n.id == nid).map node.layer_id).getD 0

/-- Modelled from the spec: `add_edge(node1, node2)` fails with NotFound if
either node is absent; the directionality is resolved from the endpoint
layers' policy; it fails with DuplicateElement when a live edge with the
same effective endpoint pair exists — the same ordered pair, or the
reversed pair when the layer pair is undirected — modifying nothing on the
failing paths; on success a fresh edge id is allocated and the edge is
registered. -/
def MLNetwork.add_edge (net : MLNetwork) (n1 n2 : Int) :
    Except NetError (MLNetwork × edge) :=
  if net.nodes.any (fun n => n.id == n1) && net.nodes.any (fun n => n.id == n2)
  then
    let d := net.is_directed (net.layer_of n1) (net.layer_of n2)
    if net.edges.any (fun e =>
        (e.n1 == n1 && e.n2 == n2) || (!d && e.n1 == n2 && e.n2 == n1))
    then .error .DuplicateElement
    else
      let e : edge := ⟨net.max_edge_id + 1, n1, n2, d⟩
      .ok ({ net with max_edge_id := net.max_edge_id + 1,
                      edges := net.edges ++ [e] }, e)
  else .error .NotFound

/-- Modelled from the spec: `erase(node)` removes the node from every
collection and cascades to every incident edge (incoming and outgoing). -/
def MLNetwork.erase_node (net : MLNetwork) (nid : Int) : MLNetwork :=
  { net with
    nodes := net.nodes.filter (fun n => n.id != nid),
    edges := net.edges.filter (fun e => e.n1 != nid && e.n2 != nid) }

/-- Erase the listed nodes in order, each with the full node cascade. -/
def MLNetwork.eraseNodes (net : MLNetwork) (ids : List Int) : MLNetwork :=
  ids.foldl (fun m i => m.erase_node i) net

/-- Modelled from the spec: erasing an actor removes every node owned by the
actor — each with the node-erasure cascade, so every incident edge goes
too — and then removes the actor itself. -/
def MLNetwork.erase_actor (net : MLNetwork) (aid : Int) : MLNetwork :=
  let net2 := net.eraseNodes
    ((net.nodes.filter (fun n => n.actor_id == aid)).map node.id)
  { net2 with actors := net2.actors.filter (fun a => a.id != aid) }

/-! ## The node-erasure cascade, resolved -/

theorem eraseNodes_nil (net : MLNetwork) : net.eraseNodes [] = net := rfl

theorem eraseNodes_cons (net : MLNetwork) (i : Int) (ids : List Int) :
    net.eraseNodes (i :: ids) = (net.erase_node i).eraseNodes ids := rfl

theorem eraseNodes_actors : ∀ (ids : List Int) (net : MLNetwork),
    (net.eraseNodes ids).actors = net.actors := by
  intro ids
  induction ids with
  | nil => exact fun net => rfl
  | cons i ids ih =>
    intro net
    rw [eraseNodes_cons, ih]
    rfl

theorem eraseNodes_nodes : ∀ (ids : List Int) (net : MLNetwork),
    (net.eraseNodes ids).nodes =
      net.nodes.filter (fun n => decide (n.id ∉ ids)) := by
  intro ids
  induction ids with
  | nil =>
    intro net
    rw [eraseNodes_nil]
    simp
  | cons i ids ih =>
    intro net
    rw [eraseNodes_cons, ih]
    show (net.nodes.filter (fun n => n.id != i)).filter
        (fun n => decide (n.id ∉ ids)) = _
    rw [List.filter_filter]
    apply List.filter_congr
    intro n hn
    apply Bool.eq_iff_iff.mpr
    simp only [Bool.and_eq_true, Bool.not_eq_true', decide_eq_true_eq,
      decide_eq_false_iff_not, bne_iff_ne, ne_eq, List.mem_cons, not_or]
    tauto

theorem eraseNodes_edges : ∀ (ids : List Int) (net : MLNetwork),
    (net.eraseNodes ids).edges =
      net.edges.filter (fun e => decide (e.n1 ∉ ids) && decide (e.n2 ∉ ids)) := by
  intro ids
  induction ids with
  | nil =>
    intro net
    rw [eraseNodes_nil]
    simp
  | cons i ids ih =>
    intro net
    rw [eraseNodes_cons, ih]
    show (net.edges.filter (fun e => e.n1 != i && e.n2 != i)).filter
        (fun e => decide (e.n1 ∉ ids) && decide (e.n2 ∉ ids)) = _
    rw [List.filter_filter]
    apply List.filter_congr
    intro e he
    apply Bool.eq_iff_iff.mpr
    simp only [Bool.and_eq_true, Bool.not_eq_true', decide_eq_true_eq,
      decide_eq_false_iff_not, bne_iff_ne, ne_eq, List.mem_cons, not_or]
    tauto

theorem filter_length_sub_one {l : List actor} {aid : Int}
    (hnd : (l.map actor.id).Nodup) (hmem : ∃ a ∈ l, a.id = aid) :
    (l.filter (fun a => a.id != aid)).length = l.length - 1 := by
  induction l with
  | nil => simp at hmem
  | cons h t ih =>
    rw [List.map_cons, List.nodup_cons] at hnd
    obtain ⟨hh, ht⟩ := hnd
    by_cases hc : h.id = aid
    · have hf : (h.id != aid) = false := by simp [bne, hc]
      have hrest : t.filter (fun a => a.id != aid) = t := by
        apply List.filter_eq_self.mpr
        intro a ha
        have hmem2 : a.id ∈ t.map actor.id := List.mem_map_of_mem _ ha
        have hne : a.id ≠ aid := fun he => hh (by rw [hc, ← he]; exact hmem2)
        simp [bne, hne]
      rw [List.filter_cons, if_neg (by simp [hf]), hrest]
      simp
    · have hf : (h.id != aid) = true := by simp [bne, hc]
      obtain ⟨a, hamem, haid⟩ := hmem
      rcases List.mem_cons.mp hamem with rfl | hat
      · exact absurd haid hc
      · rw [List.filter_cons, if_pos hf, List.length_cons,
          ih ht ⟨a, hat, haid⟩, List.length_cons]
        have hpos : 1 ≤ t.length := List.length_pos.mpr (List.ne_nil_of_mem hat)
        omega

/-- Members of lists with `Nodup` mapped ids are determined by their id. -/
theorem node_eq_of_id_eq {l : List node} (hnd : (l.map node.id).Nodup)
    {m n : node} (hm : m ∈ l) (hn : n ∈ l) (he : m.id = n.id) : m = n :=
  List.inj_on_of_nodup_map hnd hm hn he

/-! ## The claims about the network container -/

/-- C6: `add_edge(node1, node2)` fails with DuplicateElement when a live
edge with the same effective endpoint pair already exists — the same
ordered pair when the layer pair is directed, and either order when it is
undirected.  The failing call modifies no index: in this functional model
the error return carries no state, mirroring the C++ code that raises the
exception before touching any index. -/
theorem claim_C6 (net : MLNetwork) (n1 n2 : Int)
    (h1 : net.nodes.any (fun n => n.id == n1) = true)
    (h2 : net.nodes.any (fun n => n.id == n2) = true)
    (hdup : ∃ e ∈ net.edges, (e.n1 = n1 ∧ e.n2 = n2) ∨
      (net.is_directed (net.layer_of n1) (net.layer_of n2) = false ∧
        e.n1 = n2 ∧ e.n2 = n1)) :
    net.add_edge n1 n2 = .error .DuplicateElement := by
  have hd : net.edges.any (fun e =>
      (e.n1 == n1 && e.n2 == n2) ||
        (!(net.is_directed (net.layer_of n1) (net.layer_of n2)) &&
          e.n1 == n2 && e.n2 == n1)) = true := by
    rw [List.any_eq_true]
    obtain ⟨e, hmem, hcase⟩ := hdup
    refine ⟨e, hmem, ?_⟩
    rcases hcase with ⟨ha, hb⟩ | ⟨hd0, ha, hb⟩
    · rw [ha, hb]
      simp
    · rw [hd0, ha, hb]
      simp
  rw [MLNetwork.add_edge]
  rw [if_pos (by rw [h1, h2]; rfl)]
  rw [if_pos hd]

theorem claim_C6_witness :
    (([⟨1, 1, 1⟩, ⟨2, 2, 1⟩] : List node).any (fun n => n.id == 1) = true) ∧
      (⟨2, 1, 2, 1, [((1, 1), false)], [⟨1, "a1"⟩, ⟨2, "a2"⟩], [⟨1, "l1"⟩],
          [⟨1, 1, 1⟩, ⟨2, 2, 1⟩], [⟨1, 1, 2, false⟩]⟩ : MLNetwork).add_edge 2 1 =
        .error .DuplicateElement :=
  ⟨by decide,
    claim_C6 ⟨2, 1, 2, 1, [((1, 1), false)], [⟨1, "a1"⟩, ⟨2, "a2"⟩], [⟨1, "l1"⟩],
        [⟨1, 1, 1⟩, ⟨2, 2, 1⟩], [⟨1, 1, 2, false⟩]⟩ 2 1 (by decide) (by decide)
      ⟨⟨1, 1, 2, false⟩, by decide, Or.inr (by decide)⟩⟩

/-- C7: `add_actor(name)` and `add_layer(name, directed)` fail with
DuplicateElement when the name equals an existing actor (respectively
layer) name.  The failed call leaves the network unchanged: the error
return of this functional model carries no state, mirroring the C++ code
that raises the exception before allocating an id or touching an index. -/
theorem claim_C7 (net : MLNetwork) (name : String) (directed : Bool) :
    ((net.actors.any fun a => a.name == name) = true →
      net.add_actor name = .error .DuplicateElement) ∧
    ((net.layers.any fun l => l.name == name) = true →
      net.add_layer name directed = .error .DuplicateElement) := by
  constructor
  · intro h
    rw [MLNetwork.add_actor, if_pos h]
  · intro h
    rw [MLNetwork.add_layer, if_pos h]

theorem claim_C7_witness :
    ((⟨0, 0, 1, 1, [], [⟨1, "Matteo"⟩], [⟨1, "l1"⟩], [], []⟩ :
        MLNetwork).actors.any (fun a => a.name == "Matteo") = true) ∧
      (⟨0, 0, 1, 1, [], [⟨1, "Matteo"⟩], [⟨1, "l1"⟩], [], []⟩ :
        MLNetwork).add_actor "Matteo" = .error .DuplicateElement ∧
      (⟨0, 0, 1, 1, [], [⟨1, "Matteo"⟩], [⟨1, "l1"⟩], [], []⟩ :
        MLNetwork).add_layer "l1" true = .error .DuplicateElement :=
  ⟨by decide,
    (claim_C7 ⟨0, 0, 1, 1, [], [⟨1, "Matteo"⟩], [⟨1, "l1"⟩], [], []⟩
      "Matteo" true).1 (by decide),
    (claim_C7 ⟨0, 0, 1, 1, [], [⟨1, "Matteo"⟩], [⟨1, "l1"⟩], [], []⟩
      "l1" true).2 (by decide)⟩

/-- C8: After `add(w, NUMERIC_TYPE)` and `setNumeric(id, w, v)`,
`getNumeric(id, w)` returns exactly `v`; for any other id never set for
`w`, `getNumeric` returns the default `0.0` without an error; and
analogously a string attribute set for `id` reads back exactly, while a
never-set id reads the default `""`. -/
theorem claim_C8 (st st1 st2 st3 st4 : AttributeStore) (wname sname : String)
    (oid other : Int) (v : Rat) (sv : String)
    (h1 : st.add wname .NUMERIC_TYPE = .ok st1)
    (h2 : st1.add sname .STRING_TYPE = .ok st2)
    (h3 : st2.setNumeric oid wname v = .ok st3)
    (h4 : st3.setString oid sname sv = .ok st4)
    (hnw : alookup ((alookup st.numeric_attribute wname).getD []) other = none)
    (hns : alookup ((alookup st.string_attribute sname).getD []) other = none)
    (hdn : st.default_numeric = 0) (hds : st.default_string = "")
    (hother : other ≠ oid) :
    st4.getNumeric oid wname = .ok v ∧
    st4.getNumeric other wname = .ok 0 ∧
    st4.getString oid sname = .ok sv ∧
    st4.getString other sname = .ok "" := by
  rw [AttributeStore.add] at h1
  cases hv1 : alookup st.attribute_vector wname with
  | some t =>
    rw [hv1] at h1
    exact absurd h1 (by simp)
  | none =>
  rw [hv1] at h1
  have e1 : st1 = { st with attribute_vector :=
      st.attribute_vector ++ [(wname, .NUMERIC_TYPE)] } := (Except.ok.inj h1).symm
  subst e1
  rw [AttributeStore.add] at h2
  dsimp only at h2
  cases hv2 : alookup (st.attribute_vector ++ [(wname, .NUMERIC_TYPE)]) sname with
  | some t =>
    rw [hv2] at h2
    exact absurd h2 (by simp)
  | none =>
  rw [hv2] at h2
  have e2 : st2 = { st with attribute_vector :=
      (st.attribute_vector ++ [(wname, .NUMERIC_TYPE)]) ++
        [(sname, .STRING_TYPE)] } := (Except.ok.inj h2).symm
  subst e2
  have eW : alookup ((st.attribute_vector ++ [(wname, attribute_type.NUMERIC_TYPE)])
      ++ [(sname, attribute_type.STRING_TYPE)]) wname =
      some .NUMERIC_TYPE := by
    apply alookup_append_of_some
    rw [alookup_append_of_none _ hv1, alookup, if_pos rfl]
  have eS : alookup ((st.attribute_vector ++ [(wname, attribute_type.NUMERIC_TYPE)])
      ++ [(sname, attribute_type.STRING_TYPE)]) sname =
      some .STRING_TYPE := by
    rw [alookup_append_of_none _ hv2, alookup, if_pos rfl]
  rw [AttributeStore.setNumeric] at h3
  dsimp only at h3
  rw [eW] at h3
  have e3 := (Except.ok.inj h3).symm
  subst e3
  rw [AttributeStore.setString] at h4
  dsimp only at h4
  rw [eS] at h4
  have e4 := (Except.ok.inj h4).symm
  subst e4
  refine ⟨?_, ?_, ?_, ?_⟩
  · rw [AttributeStore.getNumeric]
    dsimp only
    rw [eW]
    dsimp only
    rw [alookup_aupdate_self]
    dsimp only [Option.getD_some]
    rw [alookup_aupdate_self]
  · rw [AttributeStore.getNumeric]
    dsimp only
    rw [eW]
    dsimp only
    rw [alookup_aupdate_self]
    dsimp only [Option.getD_some]
    rw [alookup_aupdate_ne _ v hother, hnw, hdn]
  · rw [AttributeStore.getString]
    dsimp only
    rw [eS]
    dsimp only
    rw [alookup_aupdate_self]
    dsimp only [Option.getD_some]
    rw [alookup_aupdate_self]
  · rw [AttributeStore.getString]
    dsimp only
    rw [eS]
    dsimp only
    rw [alookup_aupdate_self]
    dsimp only [Option.getD_some]
    rw [alookup_aupdate_ne _ sv hother, hns, hds]

theorem claim_C8_witness :
    emptyAttributeStore.add "w" .NUMERIC_TYPE =
      .ok ⟨[("w", .NUMERIC_TYPE)], [], [], 0, ""⟩ ∧
    (⟨[("w", .NUMERIC_TYPE)], [], [], 0, ""⟩ : AttributeStore).add "t"
      .STRING_TYPE =
      .ok ⟨[("w", .NUMERIC_TYPE), ("t", .STRING_TYPE)], [], [], 0, ""⟩ ∧
    (⟨[("w", .NUMERIC_TYPE), ("t", .STRING_TYPE)], [], [], 0, ""⟩ :
        AttributeStore).setNumeric 1 "w" (162 / 5) =
      .ok ⟨[("w", .NUMERIC_TYPE), ("t", .STRING_TYPE)], [],
        [("w", [(1, 162 / 5)])], 0, ""⟩ ∧
    (⟨[("w", .NUMERIC_TYPE), ("t", .STRING_TYPE)], [],
        [("w", [(1, 162 / 5)])], 0, ""⟩ : AttributeStore).setString 1 "t"
      "pro" =
      .ok ⟨[("w", .NUMERIC_TYPE), ("t", .STRING_TYPE)], [("t", [(1, "pro")])],
        [("w", [(1, 162 / 5)])], 0, ""⟩ ∧
    (⟨[("w", .NUMERIC_TYPE), ("t", .STRING_TYPE)], [("t", [(1, "pro")])],
        [("w", [(1, 162 / 5)])], 0, ""⟩ : AttributeStore).getNumeric 1 "w" =
      .ok (162 / 5) ∧
    (⟨[("w", .NUMERIC_TYPE), ("t", .STRING_TYPE)], [("t", [(1, "pro")])],
        [("w", [(1, 162 / 5)])], 0, ""⟩ : AttributeStore).getNumeric 2 "w" =
      .ok 0 ∧
    (⟨[("w", .NUMERIC_TYPE), ("t", .STRING_TYPE)], [("t", [(1, "pro")])],
        [("w", [(1, 162 / 5)])], 0, ""⟩ : AttributeStore).getString 1 "t" =
      .ok "pro" ∧
    (⟨[("w", .NUMERIC_TYPE), ("t", .STRING_TYPE)], [("t", [(1, "pro")])],
        [("w", [(1, 162 / 5)])], 0, ""⟩ : AttributeStore).getString 2 "t" =
      .ok "" := by
  have h := claim_C8 emptyAttributeStore
    ⟨[("w", .NUMERIC_TYPE)], [], [], 0, ""⟩
    ⟨[("w", .NUMERIC_TYPE), ("t", .STRING_TYPE)], [], [], 0, ""⟩
    ⟨[("w", .NUMERIC_TYPE), ("t", .STRING_TYPE)], [],
      [("w", [(1, 162 / 5)])], 0, ""⟩
    ⟨[("w", .NUMERIC_TYPE), ("t", .STRING_TYPE)], [("t", [(1, "pro")])],
      [("w", [(1, 162 / 5)])], 0, ""⟩
    "w" "t" 1 2 (162 / 5) "pro" rfl rfl rfl rfl rfl rfl rfl rfl (by decide)
  exact ⟨rfl, rfl, rfl, rfl, h.1, h.2.1, h.2.2.1, h.2.2.2⟩

/-- C9: Erasing a live actor removes it from the actor collection — the
actor count drops by exactly 1 — removes every node owned by the actor, and
the node-erasure cascade removes every edge incident to those nodes; nodes
of other actors are retained, and afterwards no collection (nor any derived
index view) retains a reference to the actor or its nodes.  Entity ids are
unique, as the fresh-id allocation of the `add` operations guarantees. -/
theorem claim_C9 (net : MLNetwork) (aid : Int)
    (hnda : (net.actors.map actor.id).Nodup)
    (hndn : (net.nodes.map node.id).Nodup)
    (hlive : net.actors.any (fun a => a.id == aid) = true) :
    (net.erase_actor aid).actors.length = net.actors.length - 1 ∧
    (∀ a ∈ (net.erase_actor aid).actors, a.id ≠ aid) ∧
    (∀ n ∈ (net.erase_actor aid).nodes, n.actor_id ≠ aid) ∧
    (∀ n ∈ net.nodes, n.actor_id ≠ aid → n ∈ (net.erase_actor aid).nodes) ∧
    (∀ e ∈ (net.erase_actor aid).edges, ∀ n ∈ net.nodes, n.actor_id = aid →
      e.n1 ≠ n.id ∧ e.n2 ≠ n.id) := by
  have hex : ∃ a ∈ net.actors, a.id = aid := by
    obtain ⟨a, ha, he⟩ := List.any_eq_true.mp hlive
    exact ⟨a, ha, by simpa using he⟩
  have hactors : (net.erase_actor aid).actors =
      net.actors.filter (fun a => a.id != aid) := by
    rw [MLNetwork.erase_actor]
    show ((net.eraseNodes _).actors.filter _) = _
    rw [eraseNodes_actors]
  have hnodes : (net.erase_actor aid).nodes =
      net.nodes.filter (fun n => decide (n.id ∉
        (net.nodes.filter (fun m => m.actor_id == aid)).map node.id)) := by
    rw [MLNetwork.erase_actor]
    show (net.eraseNodes _).nodes = _
    rw [eraseNodes_nodes]
  have hedges : (net.erase_actor aid).edges =
      net.edges.filter (fun e =>
        decide (e.n1 ∉ (net.nodes.filter (fun m => m.actor_id == aid)).map node.id)
        && decide (e.n2 ∉
          (net.nodes.filter (fun m => m.actor_id == aid)).map node.id)) := by
    rw [MLNetwork.erase_actor]
    show (net.eraseNodes _).edges = _
    rw [eraseNodes_edges]
  refine ⟨?_, ?_, ?_, ?_, ?_⟩
  · rw [hactors]
    exact filter_length_sub_one hnda hex
  · intro a ha
    rw [hactors] at ha
    have := (List.mem_filter.mp ha).2
    simpa using this
  · intro n hn
    rw [hnodes] at hn
    obtain ⟨hmem, hpred⟩ := List.mem_filter.mp hn
    intro hown
    have : n.id ∈ (net.nodes.filter (fun m => m.actor_id == aid)).map node.id :=
      List.mem_map_of_mem _ (List.mem_filter.mpr ⟨hmem, by simp [hown]⟩)
    simp only [decide_eq_true_eq] at hpred
    exact hpred this
  · intro n hn hnot
    rw [hnodes]
    apply List.mem_filter.mpr
    refine ⟨hn, ?_⟩
    simp only [decide_eq_true_eq]
    intro hmem
    obtain ⟨m, hm, hme⟩ := List.mem_map.mp hmem
    obtain ⟨hmnet, hmown⟩ := List.mem_filter.mp hm
    have : m = n := node_eq_of_id_eq hndn hmnet hn hme
    subst this
    exact hnot (by simpa using hmown)
  · intro e he n hn hown
    rw [hedges] at he
    obtain ⟨hmem, hpred⟩ := List.mem_filter.mp he
    rw [Bool.and_eq_true] at hpred
    obtain ⟨hp1, hp2⟩ := hpred
    simp only [decide_eq_true_eq] at hp1 hp2
    have hid : n.id ∈ (net.nodes.filter (fun m => m.actor_id == aid)).map node.id :=
      List.mem_map_of_mem _ (List.mem_filter.mpr ⟨hn, by simp [hown]⟩)
    exact ⟨fun hc => hp1 (hc ▸ hid), fun hc => hp2 (hc ▸ hid)⟩

theorem claim_C9_witness :
    ((⟨3, 2, 2, 1, [((1, 1), false)], [⟨1, "a1"⟩, ⟨2, "a2"⟩], [⟨1, "l1"⟩],
        [⟨1, 1, 1⟩, ⟨2, 2, 1⟩, ⟨3, 1, 1⟩],
        [⟨1, 1, 2, false⟩, ⟨2, 2, 3, false⟩]⟩ :
      MLNetwork).actors.any (fun a => a.id == 1) = true) ∧
      ((⟨3, 2, 2, 1, [((1, 1), false)], [⟨1, "a1"⟩, ⟨2, "a2"⟩], [⟨1, "l1"⟩],
          [⟨1, 1, 1⟩, ⟨2, 2, 1⟩, ⟨3, 1, 1⟩],
          [⟨1, 1, 2, false⟩, ⟨2, 2, 3, false⟩]⟩ :
        MLNetwork).erase_actor 1).actors.length =
        (⟨3, 2, 2, 1, [((1, 1), false)], [⟨1, "a1"⟩, ⟨2, "a2"⟩], [⟨1, "l1"⟩],
          [⟨1, 1, 1⟩, ⟨2, 2, 1⟩, ⟨3, 1, 1⟩],
          [⟨1, 1, 2, false⟩, ⟨2, 2, 3, false⟩]⟩ :
        MLNetwork).actors.length - 1 :=
  ⟨by decide,
    (claim_C9 ⟨3, 2, 2, 1, [((1, 1), false)], [⟨1, "a1"⟩, ⟨2, "a2"⟩], [⟨1, "l1"⟩],
        [⟨1, 1, 1⟩, ⟨2, 2, 1⟩, ⟨3, 1, 1⟩],
        [⟨1, 1, 2, false⟩, ⟨2, 2, 3, false⟩]⟩ 1
      (by decide) (by decide) (by decide)).1⟩

end mlnet
